import Mathlib

/-!
# safer-claude: snapshot copy and manifest-based sync-back

A shallow embedding of `copy.go` (`skipFiles`, `hashFile`, `copyFile`, `copyToTemp`) and
`sync.go` (`syncBack`) together with the part of the operating system they call.

Modelling conventions.

* A directory is the list of its entries (`Tree`); an entry is a regular file (permission bits
  and bytes) or a sub-directory.  Symbolic links and special files are outside the model.
* The workspace (`tmpDir`) and the original location (`originalBase`) are two separate
  directories, each given by the tree of its contents; both exist and are directories.
* A relative path is the list of its segments: `filepath.Rel` of a walked path and
  `filepath.Join` of a base with a relative path are computed on segment lists.
* The operating system is POSIX (Linux, macOS): `os.Stat` below a regular file fails with
  `ENOTDIR`, not `ENOENT`.  The process owns the files and is not the superuser: opening a
  file for reading needs the owner-read bit (0400), opening an existing file for writing needs
  the owner-write bit (0200).  Directory permissions, the umask, and transient I/O failures
  are outside the model.
* SHA-256 is a parameter `H` from byte strings to digests.
* `filepath.WalkDir` visits the entries of a directory in the order of its listing (Go lists
  them sorted by name; no statement below depends on the order).  A `Tree` is well formed
  (`Tree.WF`) when no directory lists a name twice, as in every real directory.
* The manifest, a Go map, is an association list; its `range` loop runs over the list.
* Everything `syncBack` prints about a path is recorded, in order, as a list of `Line`s; the
  summary line prints the four counters of the final state.
-/

namespace SaferClaude

/-! ## Data model -/

/-- A relative path, as the list of its segments; the empty list is the root of the walk. -/
abbrev Path := List String

/-- A hex digest as stored in the manifest. -/
abbrev Digest := String

/-- The content of a file. -/
abbrev Bytes := List Nat

/-- A regular file: its permission bits and its bytes. -/
structure FileData where
  mode : Nat
  bytes : Bytes
deriving DecidableEq, Repr

/-- The entries of a directory, in listing order. -/
inductive Tree where
  | nil : Tree
  | file (name : String) (f : FileData) (rest : Tree) : Tree
  | dir (name : String) (sub : Tree) (rest : Tree) : Tree
deriving DecidableEq, Repr

/-- What a path names: a regular file or a directory (with its contents). -/
inductive Entry where
  | file (f : FileData) : Entry
  | dir (sub : Tree) : Entry
deriving DecidableEq, Repr

/-- The error numbers the modelled system calls can return. -/
inductive Errno where
  | ENOENT
  | ENOTDIR
  | EISDIR
  | EACCES
deriving DecidableEq, Repr

/-- Owner-read permission bit (0400). -/
def ownerRead (mode : Nat) : Bool := mode / 256 % 2 == 1

/-- Owner-write permission bit (0200). -/
def ownerWrite (mode : Nat) : Bool := mode / 128 % 2 == 1

namespace Tree

/-- Put an entry in front of a directory listing. -/
def cons (name : String) : Entry → Tree → Tree
  | .file f, rest => .file name f rest
  | .dir s, rest => .dir name s rest

/-- The names listed in a directory. -/
def names : Tree → List String
  | .nil => []
  | .file n _ rest => n :: names rest
  | .dir n _ rest => n :: names rest

/-- A directory tree is well formed when no directory lists a name twice. -/
def WF : Tree → Prop
  | .nil => True
  | .file n _ rest => n ∉ names rest ∧ WF rest
  | .dir n sub rest => n ∉ names rest ∧ WF sub ∧ WF rest

/-- The entry called `x` in a directory, if any. -/
def child : Tree → String → Option Entry
  | .nil, _ => none
  | .file n f rest, x => if n = x then some (.file f) else child rest x
  | .dir n s rest, x => if n = x then some (.dir s) else child rest x

/-- Replace the entry called `x`, or add it at the end of the listing. -/
def setChild : Tree → String → Entry → Tree
  | .nil, x, e => cons x e .nil
  | .file n f rest, x, e => if n = x then cons x e rest else .file n f (setChild rest x e)
  | .dir n s rest, x, e => if n = x then cons x e rest else .dir n s (setChild rest x e)

/-- Resolve a relative path as `os.Stat` does: a missing component is `ENOENT`, a regular file
used as a directory is `ENOTDIR`. -/
def stat : Tree → Path → Except Errno Entry
  | t, [] => .ok (.dir t)
  | t, n :: p =>
    match child t n with
    | none => .error .ENOENT
    | some (.file f) => if p = [] then .ok (.file f) else .error .ENOTDIR
    | some (.dir s) => stat s p

/-- What exists at a path, if anything. -/
def lookup (t : Tree) (p : Path) : Option Entry :=
  match stat t p with
  | .ok e => some e
  | .error _ => none

/-- Model of `os.MkdirAll`: every missing directory along the path is created; it fails, creating
nothing, when a component is a regular file. -/
def mkdirAll : Tree → Path → Except Errno Tree
  | t, [] => .ok t
  | t, n :: p =>
    match child t n with
    | none =>
      match mkdirAll .nil p with
      | .ok s => .ok (setChild t n (.dir s))
      | .error e => .error e
    | some (.file _) => .error .ENOTDIR
    | some (.dir s) =>
      match mkdirAll s p with
      | .ok s1 => .ok (setChild t n (.dir s1))
      | .error e => .error e

/-- Model of `os.OpenFile(dst, O_CREATE|O_WRONLY|O_TRUNC, mode)` followed by writing `bytes`:
a missing file is created with `mode`, an existing file keeps its permission bits and is
truncated when it is writable; a directory cannot be opened for writing, and the parent
directory must exist.  Two things the operating system adds are not modelled: the process
umask, which clears bits of `mode` when the file is created, and the permission bits of
directories, without which creating a file in a directory fails.  The mode of a created file
is therefore the mode requested, before the umask. -/
def writeFile : Tree → Path → Nat → Bytes → Except Errno Tree
  | _, [], _, _ => .error .EISDIR
  | t, n :: p, mode, bytes =>
    match p with
    | [] =>
      match child t n with
      | none => .ok (setChild t n (.file ⟨mode, bytes⟩))
      | some (.file g) =>
        if ownerWrite g.mode then .ok (setChild t n (.file ⟨g.mode, bytes⟩)) else .error .EACCES
      | some (.dir _) => .error .EISDIR
    | _ :: _ =>
      match child t n with
      | none => .error .ENOENT
      | some (.file _) => .error .ENOTDIR
      | some (.dir s) =>
        match writeFile s p mode bytes with
        | .ok s1 => .ok (setChild t n (.dir s1))
        | .error e => .error e

end Tree

/-! ## copy.go -/

/-- The junk file names of `skipFiles`. -/
def skipFiles (name : String) : Bool :=
  name == ".DS_Store" || name == "Thumbs.db" || name == "desktop.ini"

/-- The test `strings.HasPrefix(d.Name(), ".")`. -/
def isHidden (name : String) : Bool :=
  match name.data with
  | c :: _ => c == '.'
  | [] => false

/-- Model of `hashFile`: the digest of the file's bytes; it fails when the path cannot be opened
for reading or is a directory. -/
def hashFile (H : Bytes → Digest) (fs : Tree) (p : Path) : Except Errno Digest :=
  match fs.stat p with
  | .error e => .error e
  | .ok (.dir _) => .error .EISDIR
  | .ok (.file f) => if ownerRead f.mode then .ok (H f.bytes) else .error .EACCES

/-- Model of `copyFile(src, dst)`, `src` a path of `srcFs` and `dst` a path of `dstFs`: stat and
open the source, open the destination with the source's mode, copy the bytes.  The result is
the destination tree.  (Neither caller passes a directory as source; the empty destination file
the Go code would leave behind in that case is not modelled.) -/
def copyFile (srcFs : Tree) (src : Path) (dstFs : Tree) (dst : Path) : Except Errno Tree :=
  match srcFs.stat src with
  | .error e => .error e
  | .ok (.dir _) => .error .EISDIR
  | .ok (.file f) =>
    if ownerRead f.mode then dstFs.writeFile dst f.mode f.bytes else .error .EACCES

/-- The manifest: relative path to digest.  A Go map, kept as an association list. -/
abbrev Manifest := List (Path × Digest)

/-- The lookup `manifest[rel]`. -/
def Manifest.get : Manifest → Path → Option Digest
  | [], _ => none
  | (k, v) :: m, rel => if k = rel then some v else Manifest.get m rel

/-- The assignment `manifest[rel] = d`. -/
def Manifest.set : Manifest → Path → Digest → Manifest
  | [], rel, d => [(rel, d)]
  | (k, v) :: m, rel, d => if k = rel then (k, d) :: m else (k, v) :: Manifest.set m rel d

/-- What a `WalkDir` callback returns. -/
inductive WalkRet where
  | ok
  | skipDir
  | err (e : Errno)
deriving DecidableEq, Repr

/-- Model of `filepath.WalkDir` below the root: the entries of directory `pre` are visited in
listing order; the callback gets the relative path, the entry name and whether it is a
directory.  `SkipDir` on a directory skips its contents, `SkipDir` on a file skips the rest of
the containing directory, any other error stops the walk. -/
def walkEntries {σ : Type} (fn : Path → String → Bool → σ → WalkRet × σ) :
    Tree → Path → σ → Option Errno × σ
  | .nil, _, s => (none, s)
  | .file n _ rest, pre, s =>
    match fn (pre ++ [n]) n false s with
    | (.ok, s1) => walkEntries fn rest pre s1
    | (.skipDir, s1) => (none, s1)
    | (.err e, s1) => (some e, s1)
  | .dir n sub rest, pre, s =>
    match fn (pre ++ [n]) n true s with
    | (.ok, s1) =>
      match walkEntries fn sub (pre ++ [n]) s1 with
      | (none, s2) => walkEntries fn rest pre s2
      | (some e, s2) => (some e, s2)
    | (.skipDir, s1) => walkEntries fn rest pre s1
    | (.err e, s1) => (some e, s1)

/-- Model of `filepath.WalkDir(root, fn)` for a root that is a directory called `rootName`. -/
def walkDir {σ : Type} (fn : Path → String → Bool → σ → WalkRet × σ) (rootName : String)
    (t : Tree) (s : σ) : Option Errno × σ :=
  match fn [] rootName true s with
  | (.ok, s1) => walkEntries fn t [] s1
  | (.skipDir, s1) => (none, s1)
  | (.err e, s1) => (some e, s1)

/-- The state of `copyToTemp`: the workspace and the manifest built so far. -/
structure CopyState where
  tmp : Tree
  manifest : Manifest
deriving DecidableEq, Repr

/-- The `WalkDir` callback of `copyToTemp` (directory source `src`). -/
def copyVisit (H : Bytes → Digest) (src : Tree) (rel : Path) (name : String) (isDir : Bool)
    (s : CopyState) : WalkRet × CopyState :=
  if isDir && isHidden name && rel != [] then (.skipDir, s)
  else if !isDir && skipFiles name then (.ok, s)
  else if isDir then
    match s.tmp.mkdirAll rel with
    | .error e => (.err e, s)
    | .ok t1 => (.ok, { s with tmp := t1 })
  else
    match s.tmp.mkdirAll rel.dropLast with
    | .error e => (.err e, s)
    | .ok t1 =>
      match copyFile src rel t1 rel with
      | .error e => (.err e, { s with tmp := t1 })
      | .ok t2 =>
        match hashFile H src rel with
        | .error e => (.err e, { s with tmp := t2 })
        | .ok h => (.ok, { tmp := t2, manifest := s.manifest.set rel h })

/-- The target of a session: a directory, or a regular file called `name` in its directory. -/
inductive Target where
  | dir (rootName : String)
  | file (name : String)
deriving DecidableEq, Repr

/-- Model of `copyToTemp(absTarget, info, tmpDir)`.  For a directory target `src` is the content
of `absTarget`; for a file target `src` is the content of the directory holding the file.  On
success the result is the manifest and the workspace; the partial workspace of a failed
snapshot is discarded by the caller and not returned. -/
def copyToTemp (H : Bytes → Digest) (src : Tree) (target : Target) (tmp : Tree) :
    Except Errno (Manifest × Tree) :=
  match target with
  | .file name =>
    match copyFile src [name] tmp [name] with
    | .error e => .error e
    | .ok t1 =>
      match hashFile H src [name] with
      | .error e => .error e
      | .ok h => .ok ([([name], h)], t1)
  | .dir rootName =>
    match walkDir (copyVisit H src) rootName src { tmp := tmp, manifest := [] } with
    | (some e, _) => .error e
    | (none, s) => .ok (s.manifest, s.tmp)

/-! ## sync.go -/

/-- The lines `syncBack` prints about single paths. -/
inductive Line where
  | warnHash (rel : Path)
  | conflictDeleted (rel : Path)
  | conflictModified (rel : Path)
  | errDir (rel : Path)
  | errSync (rel : Path)
  | synced (rel : Path)
  | errSyncNew (rel : Path)
  | newFile (rel : Path)
  | deleted (rel : Path)
deriving DecidableEq, Repr

/-- The variables of `syncBack`, the original location and the output so far. -/
structure SyncState where
  orig : Tree
  synced : Nat
  skipped : Nat
  newFiles : Nat
  conflicts : Nat
  keepTmp : Bool
  out : List Line
deriving DecidableEq, Repr

/-- The body of the `WalkDir` callback of `syncBack` for a file that passed the filters. -/
def syncFile (H : Bytes → Digest) (tmp : Tree) (manifest : Manifest) (rel : Path)
    (s : SyncState) : SyncState :=
  match hashFile H tmp rel with
  | .error _ => { s with out := s.out ++ [.warnHash rel] }
  | .ok tmpHash =>
    match manifest.get rel with
    | some origHash =>
      if tmpHash = origHash then { s with skipped := s.skipped + 1 }
      else
        match hashFile H s.orig rel with
        | .error _ =>
          { s with conflicts := s.conflicts + 1, keepTmp := true,
                   out := s.out ++ [.conflictDeleted rel] }
        | .ok currentOrigHash =>
          if currentOrigHash = origHash then
            match s.orig.mkdirAll rel.dropLast with
            | .error _ => { s with out := s.out ++ [.errDir rel] }
            | .ok o1 =>
              match copyFile tmp rel o1 rel with
              | .error _ => { s with orig := o1, out := s.out ++ [.errSync rel] }
              | .ok o2 =>
                { s with orig := o2, synced := s.synced + 1, out := s.out ++ [.synced rel] }
          else
            { s with conflicts := s.conflicts + 1, keepTmp := true,
                     out := s.out ++ [.conflictModified rel] }
    | none =>
      match s.orig.mkdirAll rel.dropLast with
      | .error _ => { s with out := s.out ++ [.errDir rel] }
      | .ok o1 =>
        match copyFile tmp rel o1 rel with
        | .error _ => { s with orig := o1, out := s.out ++ [.errSyncNew rel] }
        | .ok o2 =>
          { s with orig := o2, newFiles := s.newFiles + 1, out := s.out ++ [.newFile rel] }

/-- The `WalkDir` callback of `syncBack`. -/
def syncVisit (H : Bytes → Digest) (tmp : Tree) (manifest : Manifest) (rel : Path)
    (name : String) (isDir : Bool) (s : SyncState) : WalkRet × SyncState :=
  if rel = [] then (.ok, s)
  else if isDir && isHidden name then (.skipDir, s)
  else if isDir then (.ok, s)
  else if skipFiles name then (.ok, s)
  else (.ok, syncFile H tmp manifest rel s)

/-- The loop over the manifest after the walk: a key is reported as deleted in session when
`os.Stat` of its workspace path fails with an error that `os.IsNotExist` accepts (`ENOENT`). -/
def reportDeleted (tmp : Tree) : Manifest → List Line
  | [] => []
  | (rel, _) :: m =>
    match tmp.stat rel with
    | .error .ENOENT => .deleted rel :: reportDeleted tmp m
    | _ => reportDeleted tmp m

/-- The state `syncBack` starts from. -/
def SyncState.init (orig : Tree) : SyncState :=
  { orig := orig, synced := 0, skipped := 0, newFiles := 0, conflicts := 0, keepTmp := false,
    out := [] }

/-- Model of `syncBack(tmpDir, originalBase, manifest)`: the final state; the returned flag is
its `keepTmp`, the summary line prints its four counters. -/
def syncBack (H : Bytes → Digest) (rootName : String) (tmp orig : Tree) (manifest : Manifest) :
    SyncState :=
  let s := (walkDir (syncVisit H tmp manifest) rootName tmp (SyncState.init orig)).2
  { s with out := s.out ++ reportDeleted tmp manifest }

/-! ## Auxiliary definitions for the statements and proofs -/

/-- The files a walk with the filters of `syncBack` and `copyToTemp` reaches below directory
`pre`, in walk order: hidden directories are pruned, junk files are left out. -/
def retained : Tree → Path → List Path
  | .nil, _ => []
  | .file n _ rest, pre =>
    if skipFiles n then retained rest pre else (pre ++ [n]) :: retained rest pre
  | .dir n sub rest, pre =>
    if isHidden n then retained rest pre else retained sub (pre ++ [n]) ++ retained rest pre

/-- A relative path passes the filters: it is not the root, none of its directories is hidden
and its last segment is not a junk file name. -/
def kept : Path → Bool
  | [] => false
  | [n] => !skipFiles n
  | n :: y :: r => !isHidden n && kept (y :: r)

/-- Some directory on the way to the path (not its last segment) has a hidden name. -/
def underHidden (p : Path) : Bool := p.dropLast.any isHidden

/-- The last segment of the path is a junk file name. -/
def junkNamed (p : Path) : Bool :=
  match p.getLast? with
  | some n => skipFiles n
  | none => false

/-- The relation between a directory tree and a later state of it when regular files were
written only at paths in `F` and nothing changed outside the ancestors of the paths in `W`;
nothing is ever removed. -/
structure Evolves (F W : Path → Prop) (t t1 : Tree) : Prop where
  frame : ∀ p : Path, (∀ q, W q → ¬ p <+: q) → t1.lookup p = t.lookup p
  files : ∀ p : Path, ¬ F p → ∀ f, t1.lookup p = some (.file f) → t.lookup p = some (.file f)
  keepFile : ∀ (p : Path) (f : FileData), t.lookup p = some (.file f) →
    ∃ f1, t1.lookup p = some (.file f1)
  keepDir : ∀ (p : Path) (s : Tree), t.lookup p = some (.dir s) →
    ∃ s1, t1.lookup p = some (.dir s1)

/-- The walk of `syncBack` as a fold of the callback body over the files it reaches. -/
def syncAll (H : Bytes → Digest) (tmp : Tree) (manifest : Manifest) (l : List Path)
    (s : SyncState) : SyncState :=
  l.foldl (fun s q => syncFile H tmp manifest q s) s

/-- The path a printed line is about. -/
def Line.rel : Line → Path
  | .warnHash r => r
  | .conflictDeleted r => r
  | .conflictModified r => r
  | .errDir r => r
  | .errSync r => r
  | .synced r => r
  | .errSyncNew r => r
  | .newFile r => r
  | .deleted r => r

/-- A line that reports a conflict. -/
def Line.isConflict : Line → Bool
  | .conflictDeleted _ => true
  | .conflictModified _ => true
  | _ => false

/-- A line that reports a per-path failure: a workspace file that could not be hashed, a parent
directory that could not be created, a copy to the original that failed. -/
def Line.isFailure : Line → Bool
  | .warnHash _ => true
  | .errDir _ => true
  | .errSync _ => true
  | .errSyncNew _ => true
  | _ => false

/-- A line that reports a synced file. -/
def Line.isSynced : Line → Bool
  | .synced _ => true
  | _ => false

/-- A line that reports a new file. -/
def Line.isNew : Line → Bool
  | .newFile _ => true
  | _ => false

/-- A line of the loop that reports files deleted in session. -/
def Line.isDeleted : Line → Bool
  | .deleted _ => true
  | _ => false

/-- The number of files the walk has dealt with: the four counters of the summary line plus the
per-path failures printed so far. -/
def SyncState.handled (s : SyncState) : Nat :=
  s.synced + s.newFiles + s.skipped + s.conflicts + (s.out.filter Line.isFailure).length

/-- The counters of `syncBack` agree with what it printed, and the flag with the conflict
counter. -/
structure SyncState.Consistent (s : SyncState) : Prop where
  keep : s.keepTmp = true ↔ 0 < s.conflicts
  conflicts : s.conflicts = (s.out.filter Line.isConflict).length
  synced : s.synced = (s.out.filter Line.isSynced).length
  newFiles : s.newFiles = (s.out.filter Line.isNew).length
  noDeleted : ∀ ln ∈ s.out, ln.isDeleted = false

/-- A small digest function used to evaluate the model on concrete inputs. -/
def testHash (b : Bytes) : Digest :=
  if b = [1] then "one" else if b = [2] then "two" else "other"

/-- The entries a walk with the filters of `copyToTemp` visits below directory `pre`, in walk
order, each with whether it is a directory. -/
def visited : Tree → Path → List (Path × Bool)
  | .nil, _ => []
  | .file n _ rest, pre =>
    if skipFiles n then visited rest pre else (pre ++ [n], false) :: visited rest pre
  | .dir n sub rest, pre =>
    if isHidden n then visited rest pre
    else (pre ++ [n], true) :: (visited sub (pre ++ [n]) ++ visited rest pre)

/-- What the callback of `copyToTemp` does at an entry that passed the filters. -/
def copyStep (H : Bytes → Digest) (src : Tree) (s : CopyState) (a : Path × Bool) :
    Except Errno CopyState :=
  if a.2 then
    match s.tmp.mkdirAll a.1 with
    | .error e => .error e
    | .ok t1 => .ok { s with tmp := t1 }
  else
    match s.tmp.mkdirAll a.1.dropLast with
    | .error e => .error e
    | .ok t1 =>
      match copyFile src a.1 t1 a.1 with
      | .error e => .error e
      | .ok t2 =>
        match hashFile H src a.1 with
        | .error e => .error e
        | .ok h => .ok { tmp := t2, manifest := s.manifest.set a.1 h }

/-- The walk of `copyToTemp` as a run of `copyStep` over the visited entries, stopping at the
first error. -/
def copyAll (H : Bytes → Digest) (src : Tree) : List (Path × Bool) → CopyState →
    Except Errno CopyState
  | [], s => .ok s
  | a :: l, s =>
    match copyStep H src s a with
    | .error e => .error e
    | .ok s1 => copyAll H src l s1

/-- The paths of the regular files among visited entries. -/
def fileList (l : List (Path × Bool)) : List Path :=
  (l.filter (fun a => !a.2)).map Prod.fst

/-- The digest of the bytes of the regular file at a path of the source. -/
def digestOf (H : Bytes → Digest) (src : Tree) (q : Path) : Digest :=
  match src.lookup q with
  | some (.file f) => H f.bytes
  | _ => ""

/-- The workspace file at `rel` is untouched: it can be hashed, `rel` is a manifest key and the
two digests are equal (the test of sync.go line 52). -/
def isUnchangedPath (H : Bytes → Digest) (tmp : Tree) (manifest : Manifest) (rel : Path) :
    Bool :=
  match hashFile H tmp rel, manifest.get rel with
  | .ok tmpHash, some origHash => decide (tmpHash = origHash)
  | _, _ => false

/-- The three-way test that makes `rel` a conflict: the workspace file can be hashed, `rel` is
a manifest key, the workspace digest differs from the manifest digest, and the original cannot
be hashed or its digest differs from the manifest digest (sync.go lines 50 to 86). -/
def isConflictPath (H : Bytes → Digest) (tmp orig : Tree) (manifest : Manifest) (rel : Path) :
    Bool :=
  match hashFile H tmp rel, manifest.get rel with
  | .ok tmpHash, some origHash =>
    decide (tmpHash ≠ origHash) &&
      (match hashFile H orig rel with
        | .ok currentOrigHash => decide (currentOrigHash ≠ origHash)
        | .error _ => true)
  | _, _ => false

/-- The line printed for a conflict at `rel`: deleted externally when the original cannot be
hashed, modified on both sides otherwise. -/
def conflictLine (H : Bytes → Digest) (orig : Tree) (rel : Path) : Line :=
  match hashFile H orig rel with
  | .ok _ => .conflictModified rel
  | .error _ => .conflictDeleted rel

/-- The test of the loop after the walk: `os.Stat` of the workspace path fails with an error
that `os.IsNotExist` accepts (sync.go line 107). -/
def statNotExist (tmp : Tree) (rel : Path) : Bool :=
  match tmp.stat rel with
  | .error .ENOENT => true
  | _ => false

/-! ## Lemmas -/

namespace Tree

theorem child_cons (x : String) (e : Entry) (rest : Tree) (y : String) :
    (cons x e rest).child y = if x = y then some e else rest.child y := by
  cases e <;> simp [cons, child]

theorem child_setChild (t : Tree) (x : String) (e : Entry) (y : String) :
    (t.setChild x e).child y = if x = y then some e else t.child y := by
  induction t with
  | nil => simp [setChild, child_cons, child]
  | file n f rest ih =>
    by_cases hn : n = x
    · subst hn
      by_cases hy : n = y <;> simp [setChild, child_cons, child, hy]
    · by_cases hy : n = y
      · subst hy
        simp [setChild, hn, child, Ne.symm hn]
      · simp [setChild, hn, child, hy, ih]
  | dir n s rest _ ih =>
    by_cases hn : n = x
    · subst hn
      by_cases hy : n = y <;> simp [setChild, child_cons, child, hy]
    · by_cases hy : n = y
      · subst hy
        simp [setChild, hn, child, Ne.symm hn]
      · simp [setChild, hn, child, hy, ih]

theorem setChild_child_self (t : Tree) (x : String) (e : Entry) (h : t.child x = some e) :
    t.setChild x e = t := by
  induction t with
  | nil => simp [child] at h
  | file n f rest ih =>
    by_cases hn : n = x
    · subst hn
      simp [child] at h
      subst h
      simp [setChild, cons]
    · simp [child, hn] at h
      simp [setChild, hn, ih h]
  | dir n s rest _ ih =>
    by_cases hn : n = x
    · subst hn
      simp [child] at h
      subst h
      simp [setChild, cons]
    · simp [child, hn] at h
      simp [setChild, hn, ih h]

@[simp] theorem lookup_root (t : Tree) : t.lookup [] = some (.dir t) := rfl

theorem lookup_cons (t : Tree) (n : String) (p : Path) :
    t.lookup (n :: p) =
      match t.child n with
      | none => none
      | some (.file f) => if p = [] then some (.file f) else none
      | some (.dir s) => s.lookup p := by
  unfold lookup
  simp only [stat]
  cases h : t.child n with
  | none => rfl
  | some e =>
    cases e with
    | file f => by_cases hp : p = [] <;> simp [hp]
    | dir s => rfl

theorem lookup_nil_cons (n : String) (p : Path) : Tree.nil.lookup (n :: p) = none := by
  simp [lookup_cons, child]

theorem lookup_nil_ne_root (p : Path) (hp : p ≠ []) : Tree.nil.lookup p = none := by
  cases p with
  | nil => exact absurd rfl hp
  | cons n p => exact lookup_nil_cons n p

theorem mkdirAll_frame (d : Path) : ∀ (t t1 : Tree), t.mkdirAll d = .ok t1 →
    ∀ p : Path, ¬ p <+: d → t1.lookup p = t.lookup p := by
  induction d with
  | nil =>
    intro t t1 h p _
    simp [mkdirAll] at h
    subst h; rfl
  | cons n d ih =>
    intro t t1 h p hp
    cases p with
    | nil => exact absurd (List.nil_prefix) hp
    | cons x q =>
      have hq : x = n → ¬ q <+: d := by
        intro hx hqd
        apply hp
        rw [hx]
        exact (List.prefix_cons_inj n).2 hqd
      simp only [mkdirAll] at h
      cases hc : t.child n with
      | none =>
        rw [hc] at h
        cases hm : Tree.nil.mkdirAll d with
        | error e => rw [hm] at h; simp at h
        | ok s =>
          rw [hm] at h
          simp at h
          subst h
          rw [lookup_cons, lookup_cons, child_setChild]
          by_cases hx : n = x
          · subst hx
            have hq1 := hq rfl
            simp only [if_true, hc]
            rw [ih _ _ hm q hq1]
            apply lookup_nil_ne_root
            rintro rfl
            exact hq1 List.nil_prefix
          · simp [hx]
      | some e =>
        rw [hc] at h
        cases e with
        | file f => simp at h
        | dir s =>
          simp only at h
          cases hm : s.mkdirAll d with
          | error e => rw [hm] at h; simp at h
          | ok s1 =>
            rw [hm] at h
            simp at h
            subst h
            rw [lookup_cons, lookup_cons, child_setChild]
            by_cases hx : n = x
            · subst hx
              simp only [if_true, hc]
              exact ih _ _ hm q (hq rfl)
            · simp [hx]

theorem mkdirAll_dirs (d : Path) : ∀ (t t1 : Tree), t.mkdirAll d = .ok t1 →
    ∀ p : Path, p <+: d → ∃ s, t1.lookup p = some (.dir s) := by
  induction d with
  | nil =>
    intro t t1 _ p hp
    rw [List.prefix_nil] at hp
    subst hp
    exact ⟨t1, rfl⟩
  | cons n d ih =>
    intro t t1 h p hp
    cases p with
    | nil => exact ⟨t1, rfl⟩
    | cons x q =>
      obtain ⟨hx, hq⟩ := List.cons_prefix_cons.1 hp
      subst hx
      simp only [mkdirAll] at h
      cases hc : t.child x with
      | none =>
        rw [hc] at h
        cases hm : Tree.nil.mkdirAll d with
        | error e => rw [hm] at h; simp at h
        | ok s =>
          rw [hm] at h
          simp at h
          subst h
          rw [lookup_cons, child_setChild]
          simpa using ih _ _ hm q hq
      | some e =>
        rw [hc] at h
        cases e with
        | file f => simp at h
        | dir s =>
          simp only at h
          cases hm : s.mkdirAll d with
          | error e => rw [hm] at h; simp at h
          | ok s1 =>
            rw [hm] at h
            simp at h
            subst h
            rw [lookup_cons, child_setChild]
            simpa using ih _ _ hm q hq

theorem mkdirAll_before (d : Path) : ∀ (t t1 : Tree), t.mkdirAll d = .ok t1 →
    ∀ p : Path, p <+: d → t.lookup p = none ∨ ∃ s, t.lookup p = some (.dir s) := by
  induction d with
  | nil =>
    intro t t1 _ p hp
    rw [List.prefix_nil] at hp
    subst hp
    exact Or.inr ⟨t, rfl⟩
  | cons n d ih =>
    intro t t1 h p hp
    cases p with
    | nil => exact Or.inr ⟨t, rfl⟩
    | cons x q =>
      obtain ⟨hx, hq⟩ := List.cons_prefix_cons.1 hp
      subst hx
      simp only [mkdirAll] at h
      rw [lookup_cons]
      cases hc : t.child x with
      | none => simp
      | some e =>
        rw [hc] at h
        cases e with
        | file f => simp at h
        | dir s =>
          simp only at h
          cases hm : s.mkdirAll d with
          | error e => rw [hm] at h; simp at h
          | ok s1 => simpa using ih _ _ hm q hq

theorem mkdirAll_succeeds (d : Path) : ∀ (t : Tree),
    (∀ p : Path, p <+: d → ∀ f, t.lookup p ≠ some (.file f)) → ∃ t1, t.mkdirAll d = .ok t1 := by
  induction d with
  | nil => intro t _; exact ⟨t, rfl⟩
  | cons n d ih =>
    intro t h
    simp only [mkdirAll]
    cases hc : t.child n with
    | none =>
      have : ∃ s, Tree.nil.mkdirAll d = .ok s := by
        apply ih
        intro p _ f
        cases p with
        | nil => simp
        | cons x q => simp [lookup_nil_cons]
      obtain ⟨s, hs⟩ := this
      simp [hs]
    | some e =>
      cases e with
      | file f =>
        exfalso
        apply h [n] _ f
        · simp [lookup_cons, hc]
        · exact List.cons_prefix_cons.2 ⟨rfl, List.nil_prefix⟩
      | dir s =>
        have : ∃ s1, s.mkdirAll d = .ok s1 := by
          apply ih
          intro p hp f
          have := h (n :: p) (List.cons_prefix_cons.2 ⟨rfl, hp⟩) f
          simpa [lookup_cons, hc] using this
        obtain ⟨s1, hs⟩ := this
        simp [hs]

theorem mkdirAll_existing (d : Path) : ∀ (t s : Tree), t.lookup d = some (.dir s) →
    t.mkdirAll d = .ok t := by
  induction d with
  | nil => intro t s _; rfl
  | cons n d ih =>
    intro t s h
    rw [lookup_cons] at h
    simp only [mkdirAll]
    cases hc : t.child n with
    | none => simp [hc] at h
    | some e =>
      rw [hc] at h
      cases e with
      | file f =>
        by_cases hd : d = [] <;> simp [hd] at h
      | dir s0 =>
        simp only at h
        simp [ih _ _ h, setChild_child_self _ _ _ hc]

theorem writeFile_single (t : Tree) (n : String) (mode : Nat) (b : Bytes) :
    t.writeFile [n] mode b =
      match t.child n with
      | none => .ok (t.setChild n (.file ⟨mode, b⟩))
      | some (.file g) =>
        if ownerWrite g.mode then .ok (t.setChild n (.file ⟨g.mode, b⟩)) else .error .EACCES
      | some (.dir _) => .error .EISDIR := by
  cases h : t.child n with
  | none => simp [writeFile, h]
  | some e => cases e <;> simp [writeFile, h]

theorem writeFile_deeper (t : Tree) (n y : String) (r : Path) (mode : Nat) (b : Bytes) :
    t.writeFile (n :: y :: r) mode b =
      match t.child n with
      | none => .error .ENOENT
      | some (.file _) => .error .ENOTDIR
      | some (.dir s) =>
        match s.writeFile (y :: r) mode b with
        | .ok s1 => .ok (t.setChild n (.dir s1))
        | .error e => .error e := by
  cases h : t.child n with
  | none => simp [writeFile, h]
  | some e => cases e <;> simp [writeFile, h]

theorem writeFile_frame (q : Path) (mode : Nat) (b : Bytes) : ∀ (t t1 : Tree),
    t.writeFile q mode b = .ok t1 → ∀ p : Path, ¬ p <+: q → t1.lookup p = t.lookup p := by
  induction q with
  | nil => intro t t1 h; simp [writeFile] at h
  | cons n r ih =>
    intro t t1 h p hp
    cases p with
    | nil => exact absurd List.nil_prefix hp
    | cons x q =>
      have hq : x = n → ¬ q <+: r := by
        intro hx hqd
        apply hp
        rw [hx]
        exact (List.prefix_cons_inj n).2 hqd
      cases r with
      | nil =>
        have hq0 : n = x → q ≠ [] := by
          rintro rfl rfl
          exact hq rfl List.nil_prefix
        rw [writeFile_single] at h
        rw [lookup_cons, lookup_cons]
        cases hc : t.child n with
        | none =>
          rw [hc] at h
          simp at h
          subst h
          rw [child_setChild]
          by_cases hx : n = x
          · subst hx
            simp [hc, hq0 rfl]
          · simp [hx]
        | some e =>
          rw [hc] at h
          cases e with
          | dir s => simp at h
          | file g =>
            by_cases hw : ownerWrite g.mode = true
            · simp [hw] at h
              subst h
              rw [child_setChild]
              by_cases hx : n = x
              · subst hx
                simp [hc, hq0 rfl]
              · simp [hx]
            · simp [hw] at h
      | cons y r1 =>
        rw [writeFile_deeper] at h
        cases hc : t.child n with
        | none => rw [hc] at h; simp at h
        | some e =>
          rw [hc] at h
          cases e with
          | file g => simp at h
          | dir s =>
            simp only at h
            cases hm : s.writeFile (y :: r1) mode b with
            | error e => rw [hm] at h; simp at h
            | ok s1 =>
              rw [hm] at h
              simp at h
              subst h
              rw [lookup_cons, lookup_cons, child_setChild]
              by_cases hx : n = x
              · subst hx
                simp only [if_true, hc]
                exact ih _ _ hm q (hq rfl)
              · simp [hx]

theorem writeFile_at (q : Path) (mode : Nat) (b : Bytes) : ∀ (t t1 : Tree),
    t.writeFile q mode b = .ok t1 →
    (t.lookup q = none ∧ t1.lookup q = some (.file ⟨mode, b⟩)) ∨
    (∃ g, t.lookup q = some (.file g) ∧ ownerWrite g.mode = true ∧
      t1.lookup q = some (.file ⟨g.mode, b⟩)) := by
  induction q with
  | nil => intro t t1 h; simp [writeFile] at h
  | cons n r ih =>
    intro t t1 h
    cases r with
    | nil =>
      rw [writeFile_single] at h
      rw [lookup_cons, lookup_cons]
      cases hc : t.child n with
      | none =>
        rw [hc] at h
        simp at h
        subst h
        simp [child_setChild]
      | some e =>
        rw [hc] at h
        cases e with
        | dir s => simp at h
        | file g =>
          by_cases hw : ownerWrite g.mode = true
          · simp [hw] at h
            subst h
            simp [child_setChild, hw]
          · simp [hw] at h
    | cons y r1 =>
      rw [writeFile_deeper] at h
      cases hc : t.child n with
      | none => rw [hc] at h; simp at h
      | some e =>
        rw [hc] at h
        cases e with
        | file g => simp at h
        | dir s =>
          simp only at h
          cases hm : s.writeFile (y :: r1) mode b with
          | error e => rw [hm] at h; simp at h
          | ok s1 =>
            rw [hm] at h
            simp at h
            subst h
            rw [lookup_cons, lookup_cons, child_setChild]
            simpa [hc] using ih _ _ hm

theorem writeFile_parents (q : Path) (mode : Nat) (b : Bytes) : ∀ (t t1 : Tree),
    t.writeFile q mode b = .ok t1 → ∀ p : Path, p <+: q → p ≠ q →
    ∃ s s1, t.lookup p = some (.dir s) ∧ t1.lookup p = some (.dir s1) := by
  induction q with
  | nil => intro t t1 h; simp [writeFile] at h
  | cons n r ih =>
    intro t t1 h p hp hne
    cases p with
    | nil => exact ⟨t, t1, rfl, rfl⟩
    | cons x q =>
      obtain ⟨hx, hq⟩ := List.cons_prefix_cons.1 hp
      subst hx
      have hqr : q ≠ r := fun e => hne (by rw [e])
      cases r with
      | nil =>
        exfalso
        rw [List.prefix_nil] at hq
        exact hqr hq
      | cons y r1 =>
        rw [writeFile_deeper] at h
        cases hc : t.child x with
        | none => rw [hc] at h; simp at h
        | some e =>
          rw [hc] at h
          cases e with
          | file g => simp at h
          | dir s =>
            simp only at h
            cases hm : s.writeFile (y :: r1) mode b with
            | error e => rw [hm] at h; simp at h
            | ok s1 =>
              rw [hm] at h
              simp at h
              subst h
              rw [lookup_cons, lookup_cons, child_setChild]
              simpa [hc] using ih _ _ hm q hq hqr

theorem writeFile_succeeds (q : Path) (mode : Nat) (b : Bytes) : ∀ (t : Tree), q ≠ [] →
    (∃ s, t.lookup q.dropLast = some (.dir s)) →
    (t.lookup q = none ∨ ∃ g, t.lookup q = some (.file g) ∧ ownerWrite g.mode = true) →
    ∃ t1, t.writeFile q mode b = .ok t1 := by
  induction q with
  | nil => intro t h; exact absurd rfl h
  | cons n r ih =>
    intro t _ hd hq
    cases r with
    | nil =>
      rw [writeFile_single]
      rw [lookup_cons] at hq
      cases hc : t.child n with
      | none => simp
      | some e =>
        rw [hc] at hq
        cases e with
        | dir s => simp at hq
        | file g =>
          simp at hq
          simp [hq]
    | cons y r1 =>
      rw [writeFile_deeper]
      rw [List.dropLast_cons₂, lookup_cons] at hd
      rw [lookup_cons] at hq
      cases hc : t.child n with
      | none => rw [hc] at hd; simp at hd
      | some e =>
        rw [hc] at hd hq
        cases e with
        | file g =>
          obtain ⟨s, hs⟩ := hd
          by_cases h0 : (y :: r1).dropLast = [] <;> simp [h0] at hs
        | dir s =>
          simp only at hd hq
          obtain ⟨s1, hs1⟩ := ih s (by simp) hd hq
          simp [hs1]

end Tree

theorem Evolves.refl (F W : Path → Prop) (t : Tree) : Evolves F W t t :=
  ⟨fun _ _ => rfl, fun _ _ _ h => h, fun _ f h => ⟨f, h⟩, fun _ s h => ⟨s, h⟩⟩

theorem Evolves.trans {F W : Path → Prop} {t t1 t2 : Tree} (h1 : Evolves F W t t1)
    (h2 : Evolves F W t1 t2) : Evolves F W t t2 := by
  refine ⟨?_, ?_, ?_, ?_⟩
  · intro p hp
    rw [h2.frame p hp, h1.frame p hp]
  · intro p hp f hf
    exact h1.files p hp f (h2.files p hp f hf)
  · intro p f hf
    obtain ⟨f1, hf1⟩ := h1.keepFile p f hf
    exact h2.keepFile p f1 hf1
  · intro p s hs
    obtain ⟨s1, hs1⟩ := h1.keepDir p s hs
    exact h2.keepDir p s1 hs1

theorem Evolves.mono {F W G V : Path → Prop} {t t1 : Tree} (h : Evolves F W t t1)
    (hF : ∀ q, F q → G q) (hW : ∀ q, W q → ∃ q1, V q1 ∧ q <+: q1) : Evolves G V t t1 := by
  refine ⟨?_, ?_, h.keepFile, h.keepDir⟩
  · intro p hp
    apply h.frame
    intro q hq hpq
    obtain ⟨q1, hq1, hqq⟩ := hW q hq
    exact hp q1 hq1 (hpq.trans hqq)
  · intro p hp f hf
    exact h.files p (fun hc => hp (hF p hc)) f hf

theorem mkdirAll_evolves (t t1 : Tree) (d : Path) (h : t.mkdirAll d = .ok t1) :
    Evolves (fun _ => False) (fun q => q = d) t t1 := by
  refine ⟨?_, ?_, ?_, ?_⟩
  · intro p hp
    exact Tree.mkdirAll_frame d t t1 h p (hp d rfl)
  · intro p _ f hf
    by_cases hpd : p <+: d
    · obtain ⟨s, hs⟩ := Tree.mkdirAll_dirs d t t1 h p hpd
      rw [hs] at hf
      cases hf
    · rw [← Tree.mkdirAll_frame d t t1 h p hpd]
      exact hf
  · intro p f hf
    by_cases hpd : p <+: d
    · rcases Tree.mkdirAll_before d t t1 h p hpd with h0 | ⟨s, hs⟩
      · rw [h0] at hf; cases hf
      · rw [hs] at hf; cases hf
    · exact ⟨f, by rw [Tree.mkdirAll_frame d t t1 h p hpd]; exact hf⟩
  · intro p s hs
    by_cases hpd : p <+: d
    · exact Tree.mkdirAll_dirs d t t1 h p hpd
    · exact ⟨s, by rw [Tree.mkdirAll_frame d t t1 h p hpd]; exact hs⟩

theorem writeFile_evolves (t t1 : Tree) (q : Path) (mode : Nat) (b : Bytes)
    (h : t.writeFile q mode b = .ok t1) :
    Evolves (fun p => p = q) (fun p => p = q) t t1 := by
  refine ⟨?_, ?_, ?_, ?_⟩
  · intro p hp
    exact Tree.writeFile_frame q mode b t t1 h p (hp q rfl)
  · intro p hne f hf
    by_cases hpq : p <+: q
    · obtain ⟨s, s1, _, hs1⟩ := Tree.writeFile_parents q mode b t t1 h p hpq hne
      rw [hs1] at hf
      cases hf
    · rw [← Tree.writeFile_frame q mode b t t1 h p hpq]
      exact hf
  · intro p f hf
    by_cases hpq : p <+: q
    · by_cases hne : p = q
      · subst hne
        rcases Tree.writeFile_at p mode b t t1 h with ⟨_, h1⟩ | ⟨g, _, _, h1⟩
        · exact ⟨_, h1⟩
        · exact ⟨_, h1⟩
      · obtain ⟨s, s1, hs, _⟩ := Tree.writeFile_parents q mode b t t1 h p hpq hne
        rw [hs] at hf
        cases hf
    · exact ⟨f, by rw [Tree.writeFile_frame q mode b t t1 h p hpq]; exact hf⟩
  · intro p s hs
    by_cases hpq : p <+: q
    · by_cases hne : p = q
      · subst hne
        rcases Tree.writeFile_at p mode b t t1 h with ⟨h0, _⟩ | ⟨g, h0, _, _⟩
        · rw [h0] at hs; cases hs
        · rw [h0] at hs; cases hs
      · obtain ⟨s0, s1, _, hs1⟩ := Tree.writeFile_parents q mode b t t1 h p hpq hne
        exact ⟨s1, hs1⟩
    · exact ⟨s, by rw [Tree.writeFile_frame q mode b t t1 h p hpq]; exact hs⟩

theorem hashFile_ok_iff (H : Bytes → Digest) (t : Tree) (p : Path) (d : Digest) :
    hashFile H t p = .ok d ↔
      ∃ f, t.lookup p = some (.file f) ∧ ownerRead f.mode = true ∧ H f.bytes = d := by
  unfold hashFile Tree.lookup
  cases hs : t.stat p with
  | error e => simp
  | ok e =>
    cases e with
    | dir s => simp
    | file f =>
      by_cases hr : ownerRead f.mode = true <;> simp [hr]

theorem hashFile_error_iff (H : Bytes → Digest) (t : Tree) (p : Path) :
    (∃ e, hashFile H t p = .error e) ↔
      ∀ f, t.lookup p = some (.file f) → ownerRead f.mode = false := by
  unfold hashFile Tree.lookup
  cases hs : t.stat p with
  | error e => simp
  | ok e =>
    cases e with
    | dir s => simp
    | file f =>
      by_cases hr : ownerRead f.mode = true <;> simp [hr]

theorem copyFile_ok_iff (src : Tree) (p : Path) (dst : Tree) (q : Path) (t1 : Tree) :
    copyFile src p dst q = .ok t1 ↔
      ∃ f, src.lookup p = some (.file f) ∧ ownerRead f.mode = true ∧
        dst.writeFile q f.mode f.bytes = .ok t1 := by
  unfold copyFile Tree.lookup
  cases hs : src.stat p with
  | error e => simp
  | ok e =>
    cases e with
    | dir s => simp
    | file f =>
      by_cases hr : ownerRead f.mode = true <;> simp [hr]

theorem copyFile_evolves (src : Tree) (p : Path) (dst : Tree) (q : Path) (t1 : Tree)
    (h : copyFile src p dst q = .ok t1) :
    Evolves (fun p => p = q) (fun p => p = q) dst t1 := by
  obtain ⟨f, _, _, hw⟩ := (copyFile_ok_iff src p dst q t1).1 h
  exact writeFile_evolves dst t1 q f.mode f.bytes hw

theorem mkdirParent_evolves (t t1 : Tree) (q : Path) (h : t.mkdirAll q.dropLast = .ok t1) :
    Evolves (fun p => p = q) (fun p => p = q) t t1 := by
  apply (mkdirAll_evolves t t1 q.dropLast h).mono
  · intro _ hf; exact hf.elim
  · intro d hd
    subst hd
    exact ⟨q, rfl, List.dropLast_prefix q⟩

theorem syncFile_evolves (H : Bytes → Digest) (tmp : Tree) (m : Manifest) (q : Path)
    (s : SyncState) :
    Evolves (fun p => p = q) (fun p => p = q) s.orig (syncFile H tmp m q s).orig := by
  unfold syncFile
  split
  · exact Evolves.refl _ _ _
  · split
    · split
      · exact Evolves.refl _ _ _
      · split
        · exact Evolves.refl _ _ _
        · split
          · split
            · exact Evolves.refl _ _ _
            · rename_i o1 hmk
              split
              · exact mkdirParent_evolves _ _ _ hmk
              · rename_i o2 hcp
                exact (mkdirParent_evolves _ _ _ hmk).trans (copyFile_evolves _ _ _ _ _ hcp)
          · exact Evolves.refl _ _ _
    · split
      · exact Evolves.refl _ _ _
      · rename_i o1 hmk
        split
        · exact mkdirParent_evolves _ _ _ hmk
        · rename_i o2 hcp
          exact (mkdirParent_evolves _ _ _ hmk).trans (copyFile_evolves _ _ _ _ _ hcp)

theorem syncAll_evolves (H : Bytes → Digest) (tmp : Tree) (m : Manifest) (l : List Path) :
    ∀ s : SyncState, Evolves (fun p => p ∈ l) (fun p => p ∈ l) s.orig (syncAll H tmp m l s).orig := by
  induction l with
  | nil => intro s; exact Evolves.refl _ _ _
  | cons q l ih =>
    intro s
    have h1 := (syncFile_evolves H tmp m q s).mono (G := fun p => p ∈ q :: l)
      (V := fun p => p ∈ q :: l) (by intro p hp; simp [hp])
      (by intro p hp; exact ⟨q, by simp, by rw [hp]⟩)
    have h2 := (ih (syncFile H tmp m q s)).mono (G := fun p => p ∈ q :: l)
      (V := fun p => p ∈ q :: l) (by intro p hp; simp [hp])
      (by intro p hp; exact ⟨p, by simp [hp], List.prefix_refl p⟩)
    exact h1.trans h2

theorem Tree.child_mem_names (t : Tree) (x : String) (h : t.child x ≠ none) : x ∈ t.names := by
  induction t with
  | nil => simp [Tree.child] at h
  | file n f rest ih =>
    by_cases hn : n = x
    · simp [Tree.names, hn]
    · simp only [Tree.child, hn, if_false] at h
      simp [Tree.names, ih h]
  | dir n s rest _ ih =>
    by_cases hn : n = x
    · simp [Tree.names, hn]
    · simp only [Tree.child, hn, if_false] at h
      simp [Tree.names, ih h]

theorem Tree.lookup_head_mem (t : Tree) (x : String) (r : Path) (h : t.lookup (x :: r) ≠ none) :
    x ∈ t.names := by
  apply Tree.child_mem_names
  intro hc
  rw [Tree.lookup_cons, hc] at h
  exact h rfl

theorem Tree.lookup_file_append (p : Path) : ∀ (t : Tree) (f : FileData) (r : Path),
    t.lookup p = some (.file f) → r ≠ [] → t.lookup (p ++ r) = none := by
  induction p with
  | nil => intro t f r h; simp at h
  | cons n p ih =>
    intro t f r h hr
    rw [Tree.lookup_cons] at h
    rw [List.cons_append, Tree.lookup_cons]
    cases hc : t.child n with
    | none => rfl
    | some e =>
      rw [hc] at h
      cases e with
      | file g =>
        by_cases hp : p = []
        · subst hp; simp [hr]
        · simp [hp] at h
      | dir s => exact ih s f r h hr

theorem kept_cons (n : String) (r : Path) (hr : r ≠ []) :
    kept (n :: r) = (!isHidden n && kept r) := by
  cases r with
  | nil => exact absurd rfl hr
  | cons y r => rfl

theorem mem_retained (t : Tree) : ∀ (pre q : Path), t.WF →
    (q ∈ retained t pre ↔
      ∃ r, q = pre ++ r ∧ kept r = true ∧ ∃ f, t.lookup r = some (.file f)) := by
  induction t with
  | nil =>
    intro pre q _
    simp only [retained, List.not_mem_nil, false_iff]
    rintro ⟨r, _, hk, f, hf⟩
    cases r with
    | nil => simp [kept] at hk
    | cons x r => simp [Tree.lookup_nil_cons] at hf
  | file n f rest ih =>
    intro pre q hwf
    obtain ⟨hn, hrest⟩ := hwf
    have key : q ∈ retained (Tree.file n f rest) pre ↔
        (skipFiles n = false ∧ q = pre ++ [n]) ∨ q ∈ retained rest pre := by
      by_cases hs : skipFiles n = true <;> simp [retained, hs]
    rw [key, ih pre q hrest]
    constructor
    · rintro (⟨hs, rfl⟩ | ⟨r, rfl, hk, g, hg⟩)
      · exact ⟨[n], rfl, by simp [kept, hs], f, by simp [Tree.lookup_cons, Tree.child]⟩
      · refine ⟨r, rfl, hk, g, ?_⟩
        cases r with
        | nil => simp [kept] at hk
        | cons x r =>
          have hx : x ∈ rest.names := Tree.lookup_head_mem rest x r (by rw [hg]; simp)
          have hne : n ≠ x := fun e => hn (e ▸ hx)
          rw [Tree.lookup_cons] at hg ⊢
          simpa [Tree.child, hne] using hg
    · rintro ⟨r, rfl, hk, g, hg⟩
      cases r with
      | nil => simp [kept] at hk
      | cons x r =>
        by_cases hx : n = x
        · subst hx
          left
          rw [Tree.lookup_cons] at hg
          simp only [Tree.child, if_true] at hg
          by_cases hr : r = []
          · subst hr
            simp [kept] at hk
            simp [hk]
          · simp [hr] at hg
        · right
          refine ⟨x :: r, rfl, hk, g, ?_⟩
          rw [Tree.lookup_cons] at hg ⊢
          simpa [Tree.child, hx] using hg
  | dir n sub rest ihs ihr =>
    intro pre q hwf
    obtain ⟨hn, hsub, hrest⟩ := hwf
    have key : q ∈ retained (Tree.dir n sub rest) pre ↔
        (isHidden n = false ∧ q ∈ retained sub (pre ++ [n])) ∨ q ∈ retained rest pre := by
      by_cases hs : isHidden n = true <;> simp [retained, hs]
    rw [key, ihs (pre ++ [n]) q hsub, ihr pre q hrest]
    constructor
    · rintro (⟨hs, r, rfl, hk, g, hg⟩ | ⟨r, rfl, hk, g, hg⟩)
      · have hr : r ≠ [] := by rintro rfl; simp [kept] at hk
        refine ⟨n :: r, by simp, by rw [kept_cons n r hr]; simp [hs, hk], g, ?_⟩
        rw [Tree.lookup_cons]
        simpa [Tree.child] using hg
      · refine ⟨r, rfl, hk, g, ?_⟩
        cases r with
        | nil => simp [kept] at hk
        | cons x r =>
          have hx : x ∈ rest.names := Tree.lookup_head_mem rest x r (by rw [hg]; simp)
          have hne : n ≠ x := fun e => hn (e ▸ hx)
          rw [Tree.lookup_cons] at hg ⊢
          simpa [Tree.child, hne] using hg
    · rintro ⟨r, rfl, hk, g, hg⟩
      cases r with
      | nil => simp [kept] at hk
      | cons x r =>
        by_cases hx : n = x
        · subst hx
          left
          rw [Tree.lookup_cons] at hg
          simp only [Tree.child, if_true] at hg
          have hr : r ≠ [] := by rintro rfl; simp at hg
          rw [kept_cons n r hr] at hk
          simp at hk
          exact ⟨hk.1, r, by simp, hk.2, g, hg⟩
        · right
          refine ⟨x :: r, rfl, hk, g, ?_⟩
          rw [Tree.lookup_cons] at hg ⊢
          simpa [Tree.child, hx] using hg

theorem mem_retained_root (t : Tree) (q : Path) (hwf : t.WF) :
    q ∈ retained t [] ↔ kept q = true ∧ ∃ f, t.lookup q = some (.file f) := by
  rw [mem_retained t [] q hwf]
  constructor
  · rintro ⟨r, rfl, hk, hf⟩
    exact ⟨hk, hf⟩
  · rintro ⟨hk, hf⟩
    exact ⟨q, rfl, hk, hf⟩

theorem retained_head (t : Tree) : ∀ (pre q : Path), q ∈ retained t pre →
    ∃ x r, q = pre ++ x :: r ∧ x ∈ t.names := by
  induction t with
  | nil => intro pre q h; simp [retained] at h
  | file n f rest ih =>
    intro pre q h
    cases hs : skipFiles n
    · simp only [retained, hs, Bool.false_eq_true, if_false, List.mem_cons] at h
      rcases h with rfl | h
      · exact ⟨n, [], rfl, by simp [Tree.names]⟩
      · obtain ⟨x, r, hq, hx⟩ := ih pre q h
        exact ⟨x, r, hq, by simp [Tree.names, hx]⟩
    · simp only [retained, hs, if_true] at h
      obtain ⟨x, r, hq, hx⟩ := ih pre q h
      exact ⟨x, r, hq, by simp [Tree.names, hx]⟩
  | dir n sub rest ihs ihr =>
    intro pre q h
    cases hs : isHidden n
    · simp only [retained, hs, Bool.false_eq_true, if_false, List.mem_append] at h
      rcases h with h | h
      · obtain ⟨x, r, hq, _⟩ := ihs (pre ++ [n]) q h
        exact ⟨n, x :: r, by simp [hq], by simp [Tree.names]⟩
      · obtain ⟨x, r, hq, hx⟩ := ihr pre q h
        exact ⟨x, r, hq, by simp [Tree.names, hx]⟩
    · simp only [retained, hs, if_true] at h
      obtain ⟨x, r, hq, hx⟩ := ihr pre q h
      exact ⟨x, r, hq, by simp [Tree.names, hx]⟩

theorem retained_nodup (t : Tree) : ∀ (pre : Path), t.WF → (retained t pre).Nodup := by
  induction t with
  | nil => intro pre _; simp [retained]
  | file n f rest ih =>
    intro pre hwf
    obtain ⟨hn, hrest⟩ := hwf
    cases hs : skipFiles n
    swap
    · simpa [retained, hs] using ih pre hrest
    · simp only [retained, hs, Bool.false_eq_true, if_false, List.nodup_cons]
      refine ⟨?_, ih pre hrest⟩
      intro hmem
      obtain ⟨x, r, hq, hx⟩ := retained_head rest pre _ hmem
      have := List.append_cancel_left hq
      simp at this
      exact hn (this.1 ▸ hx)
  | dir n sub rest ihs ihr =>
    intro pre hwf
    obtain ⟨hn, hsub, hrest⟩ := hwf
    cases hs : isHidden n
    swap
    · simpa [retained, hs] using ihr pre hrest
    · simp only [retained, hs, Bool.false_eq_true, if_false]
      rw [List.nodup_append]
      refine ⟨ihs _ hsub, ihr pre hrest, ?_⟩
      intro q h1 h2
      obtain ⟨x, r, hq, _⟩ := retained_head sub (pre ++ [n]) q h1
      obtain ⟨y, r1, hq1, hy⟩ := retained_head rest pre q h2
      rw [hq1, List.append_assoc] at hq
      have := List.append_cancel_left hq
      simp at this
      exact hn (this.1 ▸ hy)

theorem retained_antichain (t : Tree) (hwf : t.WF) (p q : Path) (hp : p ∈ retained t [])
    (hq : q ∈ retained t []) (hpq : p <+: q) : p = q := by
  obtain ⟨_, f, hf⟩ := (mem_retained_root t p hwf).1 hp
  obtain ⟨_, g, hg⟩ := (mem_retained_root t q hwf).1 hq
  obtain ⟨r, rfl⟩ := hpq
  by_cases hr : r = []
  · simp [hr]
  · rw [Tree.lookup_file_append p t f r hf hr] at hg
    cases hg

theorem walkEntries_sync (H : Bytes → Digest) (tmp : Tree) (m : Manifest) (t : Tree) :
    ∀ (pre : Path) (s : SyncState),
      walkEntries (syncVisit H tmp m) t pre s = (none, syncAll H tmp m (retained t pre) s) := by
  induction t with
  | nil => intro pre s; rfl
  | file n f rest ih =>
    intro pre s
    cases hs : skipFiles n
    · simp [walkEntries, syncVisit, retained, hs, ih, syncAll]
    · simp [walkEntries, syncVisit, retained, hs, ih, syncAll]
  | dir n sub rest ihs ihr =>
    intro pre s
    cases hs : isHidden n
    · simp [walkEntries, syncVisit, retained, hs, ihs, ihr, syncAll]
    · simp [walkEntries, syncVisit, retained, hs, ihs, ihr, syncAll]

theorem walkDir_sync (H : Bytes → Digest) (tmp : Tree) (m : Manifest) (rootName : String)
    (s : SyncState) :
    walkDir (syncVisit H tmp m) rootName tmp s = (none, syncAll H tmp m (retained tmp []) s) := by
  simp [walkDir, syncVisit, walkEntries_sync]

theorem syncBack_eq (H : Bytes → Digest) (rootName : String) (tmp orig : Tree) (m : Manifest) :
    syncBack H rootName tmp orig m =
      { syncAll H tmp m (retained tmp []) (SyncState.init orig) with
        out := (syncAll H tmp m (retained tmp []) (SyncState.init orig)).out ++
          reportDeleted tmp m } := by
  simp [syncBack, walkDir_sync]

theorem syncAll_cons (H : Bytes → Digest) (tmp : Tree) (m : Manifest) (q : Path) (l : List Path)
    (s : SyncState) :
    syncAll H tmp m (q :: l) s = syncAll H tmp m l (syncFile H tmp m q s) := rfl

theorem syncAll_append (H : Bytes → Digest) (tmp : Tree) (m : Manifest) (l1 l2 : List Path)
    (s : SyncState) :
    syncAll H tmp m (l1 ++ l2) s = syncAll H tmp m l2 (syncAll H tmp m l1 s) := by
  simp [syncAll, List.foldl_append]

/-- One callback run prints at most one line, about its own path, and deals with one file. -/
theorem syncFile_step (H : Bytes → Digest) (tmp : Tree) (m : Manifest) (q : Path)
    (s : SyncState) (hc : s.Consistent) :
    (syncFile H tmp m q s).Consistent ∧
    (syncFile H tmp m q s).handled = s.handled + 1 ∧
    (syncFile H tmp m q s).skipped ≥ s.skipped ∧
    ((syncFile H tmp m q s).out = s.out ∨
      ∃ ln, (syncFile H tmp m q s).out = s.out ++ [ln] ∧ ln.rel = q) := by
  obtain ⟨h1, h2, h3, h4, h5⟩ := hc
  unfold syncFile
  repeat' split
  all_goals
    refine ⟨⟨?_, ?_, ?_, ?_, ?_⟩, ?_, ?_, ?_⟩
  all_goals
    first
    | exact h5
    | (intro ln hln
       simp only [List.mem_append, List.mem_singleton] at hln
       rcases hln with hln | rfl
       · exact h5 ln hln
       · rfl)
    | (simp [SyncState.handled, List.filter_append, Line.isConflict, Line.isFailure,
        Line.isSynced, Line.isNew, Line.rel, h1, h2, h3, h4]; done)
    | (simp [SyncState.handled, List.filter_append, Line.isConflict, Line.isFailure,
        Line.isSynced, Line.isNew, Line.rel, h1, h2, h3, h4]; omega)

theorem init_consistent (orig : Tree) : (SyncState.init orig).Consistent :=
  ⟨by simp [SyncState.init], by simp [SyncState.init], by simp [SyncState.init],
    by simp [SyncState.init], by simp [SyncState.init]⟩

theorem syncAll_run (H : Bytes → Digest) (tmp : Tree) (m : Manifest) (l : List Path) :
    ∀ s : SyncState, s.Consistent →
      (syncAll H tmp m l s).Consistent ∧
      (syncAll H tmp m l s).handled = s.handled + l.length ∧
      (syncAll H tmp m l s).skipped ≥ s.skipped ∧
      ∃ extra, (syncAll H tmp m l s).out = s.out ++ extra ∧ ∀ ln ∈ extra, ln.rel ∈ l := by
  induction l with
  | nil =>
    intro s hc
    exact ⟨hc, rfl, le_refl _, [], by simp [syncAll], by simp⟩
  | cons q l ih =>
    intro s hc
    obtain ⟨hc1, hh1, hs1, ho1⟩ := syncFile_step H tmp m q s hc
    obtain ⟨hc2, hh2, hs2, extra, ho2, hx⟩ := ih _ hc1
    rw [syncAll_cons]
    refine ⟨hc2, by rw [hh2, hh1, List.length_cons]; omega, le_trans hs1 hs2, ?_⟩
    rcases ho1 with ho1 | ⟨ln, ho1, hln⟩
    · refine ⟨extra, by rw [ho2, ho1], ?_⟩
      intro x hxm
      exact List.mem_cons_of_mem _ (hx x hxm)
    · refine ⟨ln :: extra, by rw [ho2, ho1]; simp, ?_⟩
      intro x hxm
      rcases List.mem_cons.1 hxm with rfl | hxm
      · rw [hln]; exact List.mem_cons_self _ _
      · exact List.mem_cons_of_mem _ (hx x hxm)

theorem reportDeleted_isDeleted (tmp : Tree) (m : Manifest) :
    ∀ ln ∈ reportDeleted tmp m, ln.isDeleted = true := by
  induction m with
  | nil => intro ln h; simp [reportDeleted] at h
  | cons kv m ih =>
    obtain ⟨k, v⟩ := kv
    intro ln h
    unfold reportDeleted at h
    split at h
    · rcases List.mem_cons.1 h with rfl | h
      · rfl
      · exact ih ln h
    · exact ih ln h

theorem mem_reportDeleted (tmp : Tree) (m : Manifest) (rel : Path) :
    Line.deleted rel ∈ reportDeleted tmp m ↔
      (∃ d, (rel, d) ∈ m) ∧ tmp.stat rel = .error .ENOENT := by
  induction m with
  | nil => simp [reportDeleted]
  | cons kv m ih =>
    obtain ⟨k, v⟩ := kv
    unfold reportDeleted
    split
    · rename_i hst
      rw [List.mem_cons, ih]
      constructor
      · rintro (h | ⟨⟨d, hd⟩, h⟩)
        · cases h
          exact ⟨⟨v, by simp⟩, hst⟩
        · exact ⟨⟨d, by simp [hd]⟩, h⟩
      · rintro ⟨⟨d, hd⟩, h⟩
        rcases List.mem_cons.1 hd with hd | hd
        · cases hd
          exact Or.inl rfl
        · exact Or.inr ⟨⟨d, hd⟩, h⟩
    · rename_i hst
      rw [ih]
      constructor
      · rintro ⟨⟨d, hd⟩, h⟩
        exact ⟨⟨d, by simp [hd]⟩, h⟩
      · rintro ⟨⟨d, hd⟩, h⟩
        rcases List.mem_cons.1 hd with hd | hd
        · cases hd
          exact absurd h (hst)
        · exact ⟨⟨d, hd⟩, h⟩

theorem filter_reportDeleted (tmp : Tree) (m : Manifest) (P : Line → Bool)
    (hP : ∀ ln, ln.isDeleted = true → P ln = false) :
    (reportDeleted tmp m).filter P = [] := by
  rw [List.filter_eq_nil_iff]
  intro ln h
  simp [hP ln (reportDeleted_isDeleted tmp m ln h)]

/-- The walk, seen from one of the files it reaches: the files before it and the files after it
leave the original location untouched at that path. -/
theorem syncAll_focus (H : Bytes → Digest) (tmp : Tree) (m : Manifest) (l : List Path)
    (rel : Path) (hnd : l.Nodup) (hmem : rel ∈ l) (hanti : ∀ q ∈ l, rel <+: q → rel = q)
    (s0 : SyncState) :
    ∃ l1 l2, l = l1 ++ rel :: l2 ∧ rel ∉ l1 ∧ rel ∉ l2 ∧
      syncAll H tmp m l s0 =
        syncAll H tmp m l2 (syncFile H tmp m rel (syncAll H tmp m l1 s0)) ∧
      (syncAll H tmp m l1 s0).orig.lookup rel = s0.orig.lookup rel ∧
      (syncAll H tmp m l s0).orig.lookup rel =
        (syncFile H tmp m rel (syncAll H tmp m l1 s0)).orig.lookup rel := by
  obtain ⟨l1, l2, rfl⟩ := List.append_of_mem hmem
  have hnd1 := hnd
  rw [List.nodup_append] at hnd1
  obtain ⟨_, hnd2, hdisj⟩ := hnd1
  have h1 : rel ∉ l1 := fun h => hdisj h (List.mem_cons_self _ _)
  have h2 : rel ∉ l2 := (List.nodup_cons.1 hnd2).1
  have heq : syncAll H tmp m (l1 ++ rel :: l2) s0 =
      syncAll H tmp m l2 (syncFile H tmp m rel (syncAll H tmp m l1 s0)) := by
    rw [syncAll_append, syncAll_cons]
  refine ⟨l1, l2, rfl, h1, h2, heq, ?_, ?_⟩
  · apply (syncAll_evolves H tmp m l1 s0).frame
    intro q hq hpq
    have := hanti q (by simp [hq]) hpq
    exact h1 (this ▸ hq)
  · rw [heq]
    apply (syncAll_evolves H tmp m l2 _).frame
    intro q hq hpq
    have := hanti q (by simp [hq]) hpq
    exact h2 (this ▸ hq)

theorem syncBack_fields (H : Bytes → Digest) (rootName : String) (tmp orig : Tree)
    (m : Manifest) :
    (syncBack H rootName tmp orig m).orig =
      (syncAll H tmp m (retained tmp []) (SyncState.init orig)).orig ∧
    (syncBack H rootName tmp orig m).synced =
      (syncAll H tmp m (retained tmp []) (SyncState.init orig)).synced ∧
    (syncBack H rootName tmp orig m).skipped =
      (syncAll H tmp m (retained tmp []) (SyncState.init orig)).skipped ∧
    (syncBack H rootName tmp orig m).newFiles =
      (syncAll H tmp m (retained tmp []) (SyncState.init orig)).newFiles ∧
    (syncBack H rootName tmp orig m).conflicts =
      (syncAll H tmp m (retained tmp []) (SyncState.init orig)).conflicts ∧
    (syncBack H rootName tmp orig m).keepTmp =
      (syncAll H tmp m (retained tmp []) (SyncState.init orig)).keepTmp ∧
    (syncBack H rootName tmp orig m).out =
      (syncAll H tmp m (retained tmp []) (SyncState.init orig)).out ++ reportDeleted tmp m := by
  rw [syncBack_eq]
  exact ⟨rfl, rfl, rfl, rfl, rfl, rfl, rfl⟩

/-- The counters and the flag `syncBack` returns, against what it printed. -/
theorem syncBack_counters (H : Bytes → Digest) (rootName : String) (tmp orig : Tree)
    (m : Manifest) :
    ((syncBack H rootName tmp orig m).keepTmp = true ↔
      0 < (syncBack H rootName tmp orig m).conflicts) ∧
    (syncBack H rootName tmp orig m).conflicts =
      ((syncBack H rootName tmp orig m).out.filter Line.isConflict).length ∧
    (syncBack H rootName tmp orig m).synced =
      ((syncBack H rootName tmp orig m).out.filter Line.isSynced).length ∧
    (syncBack H rootName tmp orig m).newFiles =
      ((syncBack H rootName tmp orig m).out.filter Line.isNew).length ∧
    (syncBack H rootName tmp orig m).handled = (retained tmp []).length := by
  obtain ⟨hc, hh, _, _⟩ :=
    syncAll_run H tmp m (retained tmp []) (SyncState.init orig) (init_consistent orig)
  obtain ⟨_, h2, h3, h4, h5, h6, h7⟩ := syncBack_fields H rootName tmp orig m
  have e1 := filter_reportDeleted tmp m Line.isConflict (by intro ln; cases ln <;> simp [Line.isDeleted, Line.isConflict])
  have e2 := filter_reportDeleted tmp m Line.isSynced (by intro ln; cases ln <;> simp [Line.isDeleted, Line.isSynced])
  have e3 := filter_reportDeleted tmp m Line.isNew (by intro ln; cases ln <;> simp [Line.isDeleted, Line.isNew])
  have e4 := filter_reportDeleted tmp m Line.isFailure (by intro ln; cases ln <;> simp [Line.isDeleted, Line.isFailure])
  refine ⟨?_, ?_, ?_, ?_, ?_⟩
  · rw [h6, h5]; exact hc.keep
  · rw [h5, h7, List.filter_append, e1, List.append_nil]; exact hc.conflicts
  · rw [h2, h7, List.filter_append, e2, List.append_nil]; exact hc.synced
  · rw [h4, h7, List.filter_append, e3, List.append_nil]; exact hc.newFiles
  · have : (syncBack H rootName tmp orig m).handled =
        (syncAll H tmp m (retained tmp []) (SyncState.init orig)).handled := by
      simp only [SyncState.handled, h2, h3, h4, h5, h7, List.filter_append, e4, List.append_nil]
    rw [this, hh]
    simp [SyncState.handled, SyncState.init]

theorem hashFile_error_congr (H : Bytes → Digest) (t t1 : Tree) (p : Path)
    (h : t1.lookup p = t.lookup p) (he : ∃ e, hashFile H t p = .error e) :
    ∃ e, hashFile H t1 p = .error e := by
  rw [hashFile_error_iff] at he ⊢
  rw [h]
  exact he

theorem hashFile_ok_congr (H : Bytes → Digest) (t t1 : Tree) (p : Path) (d : Digest)
    (h : t1.lookup p = t.lookup p) (he : hashFile H t p = .ok d) :
    hashFile H t1 p = .ok d := by
  rw [hashFile_ok_iff] at he ⊢
  rw [h]
  exact he

theorem stat_ok_of_hashFile (H : Bytes → Digest) (t : Tree) (p : Path) (d : Digest)
    (h : hashFile H t p = .ok d) : ∃ f, t.lookup p = some (.file f) := by
  obtain ⟨f, hf, _⟩ := (hashFile_ok_iff H t p d).1 h
  exact ⟨f, hf⟩

theorem not_deleted_of_lookup (tmp : Tree) (m : Manifest) (rel : Path) (e : Entry)
    (h : tmp.lookup rel = some e) : Line.deleted rel ∉ reportDeleted tmp m := by
  intro hd
  obtain ⟨_, hst⟩ := (mem_reportDeleted tmp m rel).1 hd
  simp [Tree.lookup, hst] at h

theorem Tree.lookup_parent_dir (p : Path) : ∀ (t : Tree) (r : Path) (e : Entry),
    t.lookup (p ++ r) = some e → r ≠ [] → ∃ s, t.lookup p = some (.dir s) := by
  induction p with
  | nil => intro t r e _ _; exact ⟨t, rfl⟩
  | cons n p ih =>
    intro t r e h hr
    rw [List.cons_append, Tree.lookup_cons] at h
    rw [Tree.lookup_cons]
    cases hc : t.child n with
    | none => rw [hc] at h; cases h
    | some e1 =>
      rw [hc] at h
      cases e1 with
      | file g => simp [hr] at h
      | dir s => exact ih s r e h hr

theorem Tree.lookup_ancestor_dir (t : Tree) (p q : Path) (e : Entry)
    (h : t.lookup q = some e) (hp : p <+: q) (hne : p ≠ q) : ∃ s, t.lookup p = some (.dir s) := by
  obtain ⟨r, rfl⟩ := hp
  apply Tree.lookup_parent_dir p t r e h
  rintro rfl
  simp at hne

theorem dropLast_ne_self (q : Path) (hq : q ≠ []) : q.dropLast ≠ q := by
  intro h
  have := congrArg List.length h
  rw [List.length_dropLast] at this
  have := List.length_pos.2 hq
  omega

theorem not_self_le_dropLast (q : Path) (hq : q ≠ []) : ¬ q <+: q.dropLast := by
  intro h
  have h1 := h.length_le
  rw [List.length_dropLast] at h1
  have := List.length_pos.2 hq
  omega

theorem kept_ne_nil (q : Path) (h : kept q = true) : q ≠ [] := by
  rintro rfl
  simp [kept] at h

/-- The run of `syncBack`, seen from one retained workspace file `rel`: the state `s1` in which
the callback reaches `rel` has the original location as it was at `rel`, and what the callback
does there is what `syncBack` ends with at `rel`. -/
theorem syncBack_focus (H : Bytes → Digest) (rootName : String) (tmp orig : Tree)
    (m : Manifest) (rel : Path) (hwf : tmp.WF) (hk : kept rel = true) (f : FileData)
    (hf : tmp.lookup rel = some (.file f)) :
    ∃ s1 : SyncState,
      s1.orig.lookup rel = orig.lookup rel ∧
      (∀ p : Path, p <+: rel → p ≠ rel → ∀ g, s1.orig.lookup p = some (.file g) →
        orig.lookup p = some (.file g)) ∧
      (∀ (p : Path) (s : Tree), orig.lookup p = some (.dir s) →
        ∃ s2, s1.orig.lookup p = some (.dir s2)) ∧
      (∀ ln ∈ s1.out, ln.rel ≠ rel) ∧
      (syncBack H rootName tmp orig m).orig.lookup rel =
        (syncFile H tmp m rel s1).orig.lookup rel ∧
      (∀ ln : Line, ln.rel = rel →
        (ln ∈ (syncBack H rootName tmp orig m).out ↔ ln ∈ (syncFile H tmp m rel s1).out)) := by
  have hmem : rel ∈ retained tmp [] := (mem_retained_root tmp rel hwf).2 ⟨hk, f, hf⟩
  have hanti : ∀ q ∈ retained tmp [], rel <+: q → rel = q :=
    fun q hq hpq => retained_antichain tmp hwf rel q hmem hq hpq
  obtain ⟨l1, l2, hl, h1, h2, heq, hlk1, hlk⟩ :=
    syncAll_focus H tmp m (retained tmp []) rel (retained_nodup tmp [] hwf) hmem hanti
      (SyncState.init orig)
  obtain ⟨hf1, hf2, hf3, hf4, hf5, hf6, hf7⟩ := syncBack_fields H rootName tmp orig m
  have hev := syncAll_evolves H tmp m l1 (SyncState.init orig)
  obtain ⟨hc1, _, _, extra1, ho1, hx1⟩ :=
    syncAll_run H tmp m l1 (SyncState.init orig) (init_consistent orig)
  obtain ⟨hcs, _, _, _⟩ := syncFile_step H tmp m rel _ hc1
  obtain ⟨_, _, _, extra2, ho2, hx2⟩ := syncAll_run H tmp m l2 _ hcs
  refine ⟨syncAll H tmp m l1 (SyncState.init orig), hlk1, ?_, ?_, ?_, ?_, ?_⟩
  · intro p hp hne g hg
    apply hev.files p _ g hg
    intro hpl
    have hpm : p ∈ retained tmp [] := by rw [hl]; simp [hpl]
    exact hne (retained_antichain tmp hwf p rel hpm hmem hp)
  · intro p s hs
    exact hev.keepDir p s hs
  · intro ln hln
    rw [ho1] at hln
    simp only [SyncState.init, List.nil_append] at hln
    intro e
    exact h1 (e ▸ hx1 ln hln)
  · rw [hf1]; exact hlk
  · intro ln hrel
    rw [hf7, heq, ho2, List.mem_append, List.mem_append]
    constructor
    · rintro ((h | h) | h)
      · exact h
      · exact absurd (hrel ▸ hx2 ln h) h2
      · exfalso
        have hd := reportDeleted_isDeleted tmp m ln h
        cases ln <;> simp [Line.isDeleted] at hd
        simp only [Line.rel] at hrel
        subst hrel
        exact not_deleted_of_lookup tmp m _ _ hf h
    · intro h
      exact Or.inl (Or.inl h)

theorem syncFile_conflict_keys (H : Bytes → Digest) (tmp : Tree) (m : Manifest) (q : Path)
    (s : SyncState) (h : ∀ ln ∈ s.out, ln.isConflict = true → m.get ln.rel ≠ none) :
    ∀ ln ∈ (syncFile H tmp m q s).out, ln.isConflict = true → m.get ln.rel ≠ none := by
  unfold syncFile
  repeat' split
  all_goals
    first
    | exact h
    | (intro ln hln hc
       simp only [List.mem_append, List.mem_singleton] at hln
       rcases hln with hln | rfl
       · exact h ln hln hc
       · first
         | (simp [Line.isConflict] at hc; done)
         | (simp only [Line.rel]; simp_all))

theorem syncAll_conflict_keys (H : Bytes → Digest) (tmp : Tree) (m : Manifest) (l : List Path) :
    ∀ s : SyncState, (∀ ln ∈ s.out, ln.isConflict = true → m.get ln.rel ≠ none) →
      ∀ ln ∈ (syncAll H tmp m l s).out, ln.isConflict = true → m.get ln.rel ≠ none := by
  induction l with
  | nil => intro s h; exact h
  | cons q l ih =>
    intro s h
    rw [syncAll_cons]
    exact ih _ (syncFile_conflict_keys H tmp m q s h)

/-- Every conflict `syncBack` reports is about a key of the manifest. -/
theorem syncBack_conflict_keys (H : Bytes → Digest) (rootName : String) (tmp orig : Tree)
    (m : Manifest) :
    ∀ ln ∈ (syncBack H rootName tmp orig m).out, ln.isConflict = true → m.get ln.rel ≠ none := by
  intro ln hln hc
  rw [(syncBack_fields H rootName tmp orig m).2.2.2.2.2.2, List.mem_append] at hln
  rcases hln with h | h
  · exact syncAll_conflict_keys H tmp m _ (SyncState.init orig) (by simp [SyncState.init]) ln h hc
  · have := reportDeleted_isDeleted tmp m ln h
    cases ln <;> simp [Line.isDeleted, Line.isConflict] at this hc

theorem writeFile_readonly (t : Tree) (q : Path) (mode : Nat) (b : Bytes) (g : FileData)
    (hg : t.lookup q = some (.file g)) (hw : ownerWrite g.mode = false) :
    ∃ e, t.writeFile q mode b = .error e := by
  cases h : t.writeFile q mode b with
  | error e => exact ⟨e, rfl⟩
  | ok t1 =>
    exfalso
    rcases Tree.writeFile_at q mode b t t1 h with ⟨h0, _⟩ | ⟨g1, h0, h1, _⟩
    · rw [h0] at hg; cases hg
    · rw [h0] at hg
      cases hg
      rw [hw] at h1
      cases h1

theorem copyFile_eq_writeFile (src : Tree) (p : Path) (f : FileData) (dst : Tree) (q : Path)
    (hf : src.lookup p = some (.file f)) (hr : ownerRead f.mode = true) :
    copyFile src p dst q = dst.writeFile q f.mode f.bytes := by
  unfold copyFile
  unfold Tree.lookup at hf
  cases hs : src.stat p with
  | error e => rw [hs] at hf; cases hf
  | ok e =>
    rw [hs] at hf
    cases hf
    simp [hr]

theorem copyVisit_file (H : Bytes → Digest) (src : Tree) (rel : Path) (n : String)
    (s s1 : CopyState) (r : WalkRet) (hn : skipFiles n = false)
    (h : copyVisit H src rel n false s = (r, s1)) :
    (r = .ok ∧ copyStep H src s (rel, false) = .ok s1) ∨ ∃ e, r = .err e := by
  simp only [copyVisit, copyStep, hn, Bool.false_and, Bool.not_false, Bool.and_false,
    Bool.false_eq_true, if_false, and_false] at h ⊢
  cases h1 : s.tmp.mkdirAll rel.dropLast with
  | error e => rw [h1] at h; simp at h; exact Or.inr ⟨e, h.1.symm⟩
  | ok t1 =>
    rw [h1] at h
    simp only at h ⊢
    cases h2 : copyFile src rel t1 rel with
    | error e => rw [h2] at h; simp at h; exact Or.inr ⟨e, h.1.symm⟩
    | ok t2 =>
      rw [h2] at h
      simp only at h ⊢
      cases h3 : hashFile H src rel with
      | error e => rw [h3] at h; simp at h; exact Or.inr ⟨e, h.1.symm⟩
      | ok d =>
        rw [h3] at h
        simp at h
        exact Or.inl ⟨h.1.symm, by simp [h.2]⟩

theorem copyVisit_dir (H : Bytes → Digest) (src : Tree) (rel : Path) (n : String)
    (s s1 : CopyState) (r : WalkRet) (hn : isHidden n = false)
    (h : copyVisit H src rel n true s = (r, s1)) :
    (r = .ok ∧ copyStep H src s (rel, true) = .ok s1) ∨ ∃ e, r = .err e := by
  simp only [copyVisit, copyStep, hn, Bool.true_and, Bool.false_and, Bool.not_true,
    Bool.false_eq_true, if_false, if_true] at h ⊢
  cases h1 : s.tmp.mkdirAll rel with
  | error e => rw [h1] at h; simp at h; exact Or.inr ⟨e, h.1.symm⟩
  | ok t1 =>
    rw [h1] at h
    simp at h
    exact Or.inl ⟨h.1.symm, by simp [h.2]⟩

theorem copyAll_append (H : Bytes → Digest) (src : Tree) (l1 l2 : List (Path × Bool)) :
    ∀ (s s2 : CopyState), copyAll H src (l1 ++ l2) s = .ok s2 ↔
      ∃ s1, copyAll H src l1 s = .ok s1 ∧ copyAll H src l2 s1 = .ok s2 := by
  induction l1 with
  | nil => intro s s2; simp [copyAll]
  | cons a l1 ih =>
    intro s s2
    simp only [List.cons_append, copyAll]
    cases h : copyStep H src s a with
    | error e => simp
    | ok s0 => simp only; exact ih s0 s2

theorem walkEntries_copy (H : Bytes → Digest) (src : Tree) (t : Tree) :
    ∀ (pre : Path) (s s1 : CopyState),
      walkEntries (copyVisit H src) t pre s = (none, s1) →
      copyAll H src (visited t pre) s = .ok s1 := by
  induction t with
  | nil =>
    intro pre s s1 h
    simp [walkEntries] at h
    simp [visited, copyAll, h]
  | file n f rest ih =>
    intro pre s s1 h
    cases hn : skipFiles n
    · simp only [walkEntries] at h
      cases hv : copyVisit H src (pre ++ [n]) n false s with
      | mk r s0 =>
        rw [hv] at h
        rcases copyVisit_file H src _ n s s0 r hn hv with ⟨rfl, hstep⟩ | ⟨e, rfl⟩
        · simp only at h
          simp only [visited, hn, Bool.false_eq_true, if_false, copyAll, hstep]
          exact ih pre s0 s1 h
        · simp at h
    · simp only [walkEntries, copyVisit, hn, Bool.false_and, Bool.not_false, Bool.true_and,
        Bool.false_eq_true, if_false, if_true] at h
      simp only [visited, hn, if_true]
      exact ih pre s s1 h
  | dir n sub rest ihs ihr =>
    intro pre s s1 h
    cases hn : isHidden n
    · simp only [walkEntries] at h
      cases hv : copyVisit H src (pre ++ [n]) n true s with
      | mk r s0 =>
        rw [hv] at h
        rcases copyVisit_dir H src _ n s s0 r hn hv with ⟨rfl, hstep⟩ | ⟨e, rfl⟩
        · simp only at h
          cases hw : walkEntries (copyVisit H src) sub (pre ++ [n]) s0 with
          | mk o s2 =>
            rw [hw] at h
            cases o with
            | some e => simp at h
            | none =>
              simp only at h
              simp only [visited, hn, Bool.false_eq_true, if_false, copyAll, hstep]
              rw [copyAll_append]
              exact ⟨s2, ihs _ _ _ hw, ihr _ _ _ h⟩
        · simp at h
    · have hne : (pre ++ [n] != []) = true := by simp
      simp only [walkEntries, copyVisit, hn, Bool.true_and, hne, if_true] at h
      simp only [visited, hn, if_true]
      exact ihr pre s s1 h

theorem copyToTemp_dir (H : Bytes → Digest) (src : Tree) (rootName : String) (tmp : Tree)
    (m : Manifest) (ws : Tree) (h : copyToTemp H src (.dir rootName) tmp = .ok (m, ws)) :
    copyAll H src (visited src []) { tmp := tmp, manifest := [] } =
      .ok { tmp := ws, manifest := m } := by
  have hroot : copyVisit H src [] rootName true { tmp := tmp, manifest := [] } =
      (.ok, { tmp := tmp, manifest := [] }) := by
    simp [copyVisit, Tree.mkdirAll]
  simp only [copyToTemp, walkDir, hroot] at h
  cases hw : walkEntries (copyVisit H src) src [] { tmp := tmp, manifest := [] } with
  | mk o s =>
    rw [hw] at h
    cases o with
    | some e => simp at h
    | none =>
      simp at h
      have := walkEntries_copy H src src [] _ s hw
      rw [this]
      cases s
      simp at h
      simp [h]

namespace Tree

theorem names_cons (x : String) (e : Entry) (rest : Tree) :
    (cons x e rest).names = x :: rest.names := by
  cases e <;> rfl

theorem WF_cons (x : String) (e : Entry) (rest : Tree) :
    (cons x e rest).WF ↔ x ∉ rest.names ∧ (∀ s, e = .dir s → s.WF) ∧ rest.WF := by
  cases e with
  | file f => simp [cons, WF]
  | dir s => simp [cons, WF]

theorem names_setChild (t : Tree) (x : String) (e : Entry) :
    (t.setChild x e).names = if x ∈ t.names then t.names else t.names ++ [x] := by
  induction t with
  | nil => simp [setChild, names_cons, names]
  | file n f rest ih =>
    by_cases hn : n = x
    · subst hn
      simp [setChild, names_cons, names]
    · have hx : x ≠ n := fun h => hn h.symm
      simp only [setChild, hn, if_false, names, ih, List.mem_cons, hx, false_or]
      split <;> simp
  | dir n s rest _ ih =>
    by_cases hn : n = x
    · subst hn
      simp [setChild, names_cons, names]
    · have hx : x ≠ n := fun h => hn h.symm
      simp only [setChild, hn, if_false, names, ih, List.mem_cons, hx, false_or]
      split <;> simp

theorem not_mem_names_setChild (t : Tree) (x n : String) (e : Entry) (hn : n ∉ t.names)
    (hx : n ≠ x) : n ∉ (t.setChild x e).names := by
  rw [names_setChild]
  split
  · exact hn
  · simp [hn, hx]

theorem WF_setChild (t : Tree) (x : String) (e : Entry) (ht : t.WF)
    (he : ∀ s, e = .dir s → s.WF) : (t.setChild x e).WF := by
  induction t with
  | nil =>
    simp only [setChild]
    rw [WF_cons]
    exact ⟨by simp [names], he, trivial⟩
  | file n f rest ih =>
    obtain ⟨h1, h2⟩ := ht
    by_cases hn : n = x
    · subst hn
      simp only [setChild, if_true]
      rw [WF_cons]
      exact ⟨h1, he, h2⟩
    · simp only [setChild, hn, if_false]
      exact ⟨not_mem_names_setChild rest x n e h1 hn, ih h2⟩
  | dir n s rest _ ih =>
    obtain ⟨h1, h2, h3⟩ := ht
    by_cases hn : n = x
    · subst hn
      simp only [setChild, if_true]
      rw [WF_cons]
      exact ⟨h1, he, h3⟩
    · simp only [setChild, hn, if_false]
      exact ⟨not_mem_names_setChild rest x n e h1 hn, h2, ih h3⟩

theorem WF_child (t : Tree) (x : String) (s : Tree) (ht : t.WF)
    (h : t.child x = some (.dir s)) : s.WF := by
  induction t with
  | nil => simp [child] at h
  | file n f rest ih =>
    by_cases hn : n = x
    · simp [child, hn] at h
    · simp only [child, hn, if_false] at h
      exact ih ht.2 h
  | dir n s0 rest _ ih =>
    by_cases hn : n = x
    · simp only [child, hn, if_true, Option.some.injEq, Entry.dir.injEq] at h
      subst h
      exact ht.2.1
    · simp only [child, hn, if_false] at h
      exact ih ht.2.2 h

theorem WF_mkdirAll (d : Path) : ∀ (t t1 : Tree), t.WF → t.mkdirAll d = .ok t1 → t1.WF := by
  induction d with
  | nil =>
    intro t t1 ht h
    simp [mkdirAll] at h
    subst h
    exact ht
  | cons n d ih =>
    intro t t1 ht h
    simp only [mkdirAll] at h
    cases hc : t.child n with
    | none =>
      rw [hc] at h
      cases hm : Tree.nil.mkdirAll d with
      | error e => rw [hm] at h; simp at h
      | ok s =>
        rw [hm] at h
        simp at h
        subst h
        apply WF_setChild t n _ ht
        intro s0 hs0
        cases hs0
        exact ih Tree.nil _ trivial hm
    | some e =>
      rw [hc] at h
      cases e with
      | file f => simp at h
      | dir s =>
        simp only at h
        cases hm : s.mkdirAll d with
        | error e => rw [hm] at h; simp at h
        | ok s1 =>
          rw [hm] at h
          simp at h
          subst h
          apply WF_setChild t n _ ht
          intro s0 hs0
          cases hs0
          exact ih _ _ (WF_child t n s ht hc) hm

theorem WF_writeFile (q : Path) (mode : Nat) (b : Bytes) : ∀ (t t1 : Tree), t.WF →
    t.writeFile q mode b = .ok t1 → t1.WF := by
  induction q with
  | nil => intro t t1 _ h; simp [writeFile] at h
  | cons n r ih =>
    intro t t1 ht h
    cases r with
    | nil =>
      rw [writeFile_single] at h
      cases hc : t.child n with
      | none =>
        rw [hc] at h
        simp at h
        subst h
        exact WF_setChild t n _ ht (by intro s hs; cases hs)
      | some e =>
        rw [hc] at h
        cases e with
        | dir s => simp at h
        | file g =>
          by_cases hw : ownerWrite g.mode = true
          · simp [hw] at h
            subst h
            exact WF_setChild t n _ ht (by intro s hs; cases hs)
          · simp [hw] at h
    | cons y r1 =>
      rw [writeFile_deeper] at h
      cases hc : t.child n with
      | none => rw [hc] at h; simp at h
      | some e =>
        rw [hc] at h
        cases e with
        | file g => simp at h
        | dir s =>
          simp only at h
          cases hm : s.writeFile (y :: r1) mode b with
          | error e => rw [hm] at h; simp at h
          | ok s1 =>
            rw [hm] at h
            simp at h
            subst h
            apply WF_setChild t n _ ht
            intro s0 hs0
            cases hs0
            exact ih _ _ (WF_child t n s ht hc) hm

end Tree

theorem copyStep_WF (H : Bytes → Digest) (src : Tree) (s s1 : CopyState) (a : Path × Bool)
    (hs : s.tmp.WF) (h : copyStep H src s a = .ok s1) : s1.tmp.WF := by
  unfold copyStep at h
  split at h
  · split at h
    · cases h
    · rename_i t1 hmk
      cases h
      exact Tree.WF_mkdirAll _ _ _ hs hmk
  · split at h
    · cases h
    · rename_i t1 hmk
      split at h
      · cases h
      · rename_i t2 hcp
        split at h
        · cases h
        · cases h
          obtain ⟨f, _, _, hw⟩ := (copyFile_ok_iff _ _ _ _ _).1 hcp
          exact Tree.WF_writeFile _ _ _ _ _ (Tree.WF_mkdirAll _ _ _ hs hmk) hw

theorem copyAll_WF (H : Bytes → Digest) (src : Tree) (l : List (Path × Bool)) :
    ∀ (s s1 : CopyState), s.tmp.WF → copyAll H src l s = .ok s1 → s1.tmp.WF := by
  induction l with
  | nil =>
    intro s s1 hs h
    simp [copyAll] at h
    subst h
    exact hs
  | cons a l ih =>
    intro s s1 hs h
    simp only [copyAll] at h
    cases hst : copyStep H src s a with
    | error e => rw [hst] at h; cases h
    | ok s0 =>
      rw [hst] at h
      exact ih s0 s1 (copyStep_WF H src s s0 a hs hst) h

theorem fileList_append (l1 l2 : List (Path × Bool)) :
    fileList (l1 ++ l2) = fileList l1 ++ fileList l2 := by
  simp [fileList]

theorem mem_fileList (l : List (Path × Bool)) (q : Path) :
    q ∈ fileList l ↔ (q, false) ∈ l := by
  simp only [fileList, List.mem_map, List.mem_filter]
  constructor
  · rintro ⟨⟨p, b⟩, ⟨hm, hb⟩, rfl⟩
    cases b
    · exact hm
    · simp at hb
  · intro h
    exact ⟨(q, false), ⟨h, rfl⟩, rfl⟩

theorem fileList_visited (t : Tree) : ∀ pre : Path, fileList (visited t pre) = retained t pre := by
  induction t with
  | nil => intro pre; rfl
  | file n f rest ih =>
    intro pre
    cases hn : skipFiles n
    · simp only [visited, retained, hn, Bool.false_eq_true, if_false]
      rw [← ih pre]
      simp [fileList]
    · simp only [visited, retained, hn, if_true]
      exact ih pre
  | dir n sub rest ihs ihr =>
    intro pre
    cases hn : isHidden n
    · simp only [visited, retained, hn, Bool.false_eq_true, if_false]
      rw [← ihs, ← ihr, ← fileList_append]
      simp [fileList]
    · simp only [visited, retained, hn, if_true]
      exact ihr pre

theorem visited_clean (t : Tree) : ∀ (pre : Path) (a : Path × Bool), a ∈ visited t pre →
    ∃ r, a.1 = pre ++ r ∧ r ≠ [] ∧ (∀ x ∈ r.dropLast, isHidden x = false) ∧
      (a.2 = false → kept r = true) := by
  induction t with
  | nil => intro pre a h; simp [visited] at h
  | file n f rest ih =>
    intro pre a h
    cases hn : skipFiles n
    · simp only [visited, hn, Bool.false_eq_true, if_false, List.mem_cons] at h
      rcases h with rfl | h
      · exact ⟨[n], rfl, by simp, by simp, fun _ => by simp [kept, hn]⟩
      · exact ih pre a h
    · simp only [visited, hn, if_true] at h
      exact ih pre a h
  | dir n sub rest ihs ihr =>
    intro pre a h
    cases hn : isHidden n
    · simp only [visited, hn, Bool.false_eq_true, if_false, List.mem_cons, List.mem_append] at h
      rcases h with rfl | h | h
      · exact ⟨[n], rfl, by simp, by simp, fun h => by simp at h⟩
      · obtain ⟨r, h1, h2, h3, h4⟩ := ihs (pre ++ [n]) a h
        refine ⟨n :: r, by simp [h1], by simp, ?_, ?_⟩
        · intro x hx
          rw [List.dropLast_cons_of_ne_nil h2, List.mem_cons] at hx
          rcases hx with rfl | hx
          · exact hn
          · exact h3 x hx
        · intro hb
          rw [kept_cons n r h2]
          simp [hn, h4 hb]
      · exact ihr pre a h
    · simp only [visited, hn, if_true] at h
      exact ihr pre a h

theorem kept_clean (r : Path) : kept r = true → ∀ x ∈ r.dropLast, isHidden x = false := by
  induction r with
  | nil => intro h; simp [kept] at h
  | cons n r ih =>
    intro h x hx
    by_cases hr : r = []
    · subst hr; simp at hx
    · rw [kept_cons n r hr] at h
      simp only [Bool.and_eq_true, Bool.not_eq_true'] at h
      rw [List.dropLast_cons_of_ne_nil hr, List.mem_cons] at hx
      rcases hx with rfl | hx
      · exact h.1
      · exact ih h.2 x hx

theorem kept_not_junk (r : Path) : kept r = true → junkNamed r = false := by
  induction r with
  | nil => intro h; simp [kept] at h
  | cons n r ih =>
    intro h
    by_cases hr : r = []
    · subst hr
      simpa [kept, junkNamed] using h
    · rw [kept_cons n r hr] at h
      simp only [Bool.and_eq_true] at h
      have := ih h.2
      cases r with
      | nil => exact absurd rfl hr
      | cons y r =>
        simp only [junkNamed, List.getLast?_cons_cons] at this ⊢
        exact this

theorem dropLast_mono (p a : Path) (h : p <+: a) : p.dropLast <+: a.dropLast := by
  obtain ⟨r, rfl⟩ := h
  by_cases hr : r = []
  · subst hr
    simp
  · rw [List.dropLast_append_of_ne_nil _ hr]
    exact (List.dropLast_prefix p).trans (List.prefix_append p _)

theorem underHidden_not_le (p a : Path) (hp : underHidden p = true)
    (ha : ∀ x ∈ a.dropLast, isHidden x = false) : ¬ p <+: a := by
  intro h
  simp only [underHidden, List.any_eq_true] at hp
  obtain ⟨x, hx, hh⟩ := hp
  have := ha x ((dropLast_mono p a h).subset hx)
  rw [hh] at this
  cases this

theorem Tree.lookup_rest_file (n : String) (f : FileData) (rest : Tree) (r : Path) (e : Entry)
    (hn : n ∉ rest.names) (hr : r ≠ []) (h : rest.lookup r = some e) :
    (Tree.file n f rest).lookup r = some e := by
  cases r with
  | nil => exact absurd rfl hr
  | cons x r =>
    have hx : x ∈ rest.names := Tree.lookup_head_mem rest x r (by rw [h]; simp)
    have hne : n ≠ x := fun e => hn (e ▸ hx)
    rw [Tree.lookup_cons] at h ⊢
    simpa [Tree.child, hne] using h

theorem Tree.lookup_rest_dir (n : String) (s : Tree) (rest : Tree) (r : Path) (e : Entry)
    (hn : n ∉ rest.names) (hr : r ≠ []) (h : rest.lookup r = some e) :
    (Tree.dir n s rest).lookup r = some e := by
  cases r with
  | nil => exact absurd rfl hr
  | cons x r =>
    have hx : x ∈ rest.names := Tree.lookup_head_mem rest x r (by rw [h]; simp)
    have hne : n ≠ x := fun e => hn (e ▸ hx)
    rw [Tree.lookup_cons] at h ⊢
    simpa [Tree.child, hne] using h

theorem visited_dir_lookup (t : Tree) : ∀ (pre a : Path), t.WF → (a, true) ∈ visited t pre →
    ∃ r s, a = pre ++ r ∧ r ≠ [] ∧ t.lookup r = some (.dir s) := by
  induction t with
  | nil => intro pre a _ h; simp [visited] at h
  | file n f rest ih =>
    intro pre a hwf h
    have h1 : (a, true) ∈ visited rest pre := by
      cases hn : skipFiles n
      · simpa [visited, hn] using h
      · simpa [visited, hn] using h
    obtain ⟨r, s, hr1, hr2, hr3⟩ := ih pre a hwf.2 h1
    exact ⟨r, s, hr1, hr2, Tree.lookup_rest_file n f rest r _ hwf.1 hr2 hr3⟩
  | dir n sub rest ihs ihr =>
    intro pre a hwf h
    have h1 : (isHidden n = false ∧ (a = pre ++ [n] ∨ (a, true) ∈ visited sub (pre ++ [n]))) ∨
        (a, true) ∈ visited rest pre := by
      cases hn : isHidden n
      · simp only [visited, hn, Bool.false_eq_true, if_false, List.mem_cons, List.mem_append,
          Prod.mk.injEq, and_true] at h
        rcases h with h | h | h
        · exact Or.inl ⟨rfl, Or.inl h⟩
        · exact Or.inl ⟨rfl, Or.inr h⟩
        · exact Or.inr h
      · simp only [visited, hn, if_true] at h
        exact Or.inr h
    rcases h1 with ⟨_, rfl | h2⟩ | h2
    · exact ⟨[n], sub, rfl, by simp, by simp [Tree.lookup_cons, Tree.child]⟩
    · obtain ⟨r, s, hr1, hr2, hr3⟩ := ihs (pre ++ [n]) a hwf.2.1 h2
      refine ⟨n :: r, s, by simp [hr1], by simp, ?_⟩
      rw [Tree.lookup_cons]
      simpa [Tree.child] using hr3
    · obtain ⟨r, s, hr1, hr2, hr3⟩ := ihr pre a hwf.2.2 h2
      exact ⟨r, s, hr1, hr2, Tree.lookup_rest_dir n sub rest r _ hwf.1 hr2 hr3⟩

theorem copyStep_evolves (H : Bytes → Digest) (src : Tree) (s s1 : CopyState) (a : Path × Bool)
    (h : copyStep H src s a = .ok s1) :
    Evolves (fun p => (p, false) = a) (fun p => p = a.1) s.tmp s1.tmp := by
  obtain ⟨q, b⟩ := a
  unfold copyStep at h
  cases b with
  | true =>
    simp only [if_true] at h
    split at h
    · cases h
    · rename_i t1 hmk
      cases h
      exact (mkdirAll_evolves _ _ _ hmk).mono (fun _ hf => hf.elim)
        (fun d hd => ⟨q, rfl, by rw [hd]⟩)
  | false =>
    simp only [Bool.false_eq_true, if_false] at h
    split at h
    · cases h
    · rename_i t1 hmk
      split at h
      · cases h
      · rename_i t2 hcp
        split at h
        · cases h
        · cases h
          exact ((mkdirParent_evolves _ _ _ hmk).trans (copyFile_evolves _ _ _ _ _ hcp)).mono
            (fun p hp => by rw [hp]) (fun p hp => ⟨q, rfl, by rw [hp]⟩)

theorem copyAll_evolves (H : Bytes → Digest) (src : Tree) (l : List (Path × Bool)) :
    ∀ (s s1 : CopyState), copyAll H src l s = .ok s1 →
      Evolves (fun p => (p, false) ∈ l) (fun p => ∃ b, (p, b) ∈ l) s.tmp s1.tmp := by
  induction l with
  | nil =>
    intro s s1 h
    simp [copyAll] at h
    subst h
    exact Evolves.refl _ _ _
  | cons a l ih =>
    intro s s1 h
    simp only [copyAll] at h
    cases hst : copyStep H src s a with
    | error e => rw [hst] at h; cases h
    | ok s0 =>
      rw [hst] at h
      have h1 := (copyStep_evolves H src s s0 a hst).mono
        (G := fun p => (p, false) ∈ a :: l) (V := fun p => ∃ b, (p, b) ∈ a :: l)
        (by intro p hp; simp [hp])
        (by intro p hp; exact ⟨p, ⟨a.2, by simp [hp]⟩, List.prefix_refl p⟩)
      have h2 := (ih s0 s1 h).mono
        (G := fun p => (p, false) ∈ a :: l) (V := fun p => ∃ b, (p, b) ∈ a :: l)
        (by intro p hp; simp [hp])
        (by rintro p ⟨b, hb⟩; exact ⟨p, ⟨b, by simp [hb]⟩, List.prefix_refl p⟩)
      exact h1.trans h2

theorem Manifest.get_set (m : Manifest) (rel : Path) (d : Digest) (k : Path) :
    (m.set rel d).get k = if rel = k then some d else m.get k := by
  induction m with
  | nil => simp [Manifest.set, Manifest.get]
  | cons kv m ih =>
    obtain ⟨k0, v0⟩ := kv
    by_cases h0 : k0 = rel
    · subst h0
      by_cases hk : k0 = k <;> simp [Manifest.set, Manifest.get, hk]
    · by_cases hk : k0 = k
      · subst hk
        simp [Manifest.set, Manifest.get, h0, Ne.symm h0]
      · simp [Manifest.set, Manifest.get, h0, hk, ih]

theorem Manifest.set_new (m : Manifest) (rel : Path) (d : Digest)
    (h : rel ∉ m.map Prod.fst) : m.set rel d = m ++ [(rel, d)] := by
  induction m with
  | nil => rfl
  | cons kv m ih =>
    obtain ⟨k0, v0⟩ := kv
    simp only [List.map_cons, List.mem_cons, not_or] at h
    have h0 : k0 ≠ rel := fun e => h.1 e.symm
    simp [Manifest.set, h0, ih h.2]

theorem Manifest.get_eq_none (m : Manifest) (k : Path) :
    m.get k = none ↔ k ∉ m.map Prod.fst := by
  induction m with
  | nil => simp [Manifest.get]
  | cons kv m ih =>
    obtain ⟨k0, v0⟩ := kv
    by_cases h0 : k0 = k
    · simp [Manifest.get, h0]
    · have : k ≠ k0 := fun e => h0 e.symm
      simp [Manifest.get, h0, ih, this]

theorem copyStep_manifest (H : Bytes → Digest) (src : Tree) (s s1 : CopyState)
    (a : Path × Bool) (h : copyStep H src s a = .ok s1) :
    (a.2 = true → s1.manifest = s.manifest) ∧
    (a.2 = false → ∃ f, src.lookup a.1 = some (.file f) ∧ ownerRead f.mode = true ∧
      s1.manifest = s.manifest.set a.1 (H f.bytes)) := by
  obtain ⟨q, b⟩ := a
  unfold copyStep at h
  cases b with
  | true =>
    simp only [if_true] at h
    split at h
    · cases h
    · cases h
      refine ⟨fun _ => rfl, ?_⟩
      intro hb
      cases hb
  | false =>
    simp only [Bool.false_eq_true, if_false] at h
    split at h
    · cases h
    · split at h
      · cases h
      · split at h
        · cases h
        · rename_i d hd
          cases h
          obtain ⟨f, hf, hr, hH⟩ := (hashFile_ok_iff H src q d).1 hd
          refine ⟨?_, fun _ => ⟨f, hf, hr, by rw [hH]⟩⟩
          intro hb
          cases hb

theorem digestOf_file (H : Bytes → Digest) (src : Tree) (q : Path) (f : FileData)
    (h : src.lookup q = some (.file f)) : digestOf H src q = H f.bytes := by
  simp [digestOf, h]

theorem copyAll_manifest (H : Bytes → Digest) (src : Tree) (l : List (Path × Bool)) :
    ∀ (s s1 : CopyState), copyAll H src l s = .ok s1 →
      (∀ q ∈ fileList l, ∃ f, src.lookup q = some (.file f) ∧ ownerRead f.mode = true) ∧
      (∀ k, s1.manifest.get k =
        if k ∈ fileList l then some (digestOf H src k) else s.manifest.get k) ∧
      ((s.manifest.map Prod.fst ++ fileList l).Nodup →
        s1.manifest.map Prod.fst = s.manifest.map Prod.fst ++ fileList l) := by
  induction l with
  | nil =>
    intro s s1 h
    simp [copyAll] at h
    subst h
    simp [fileList]
  | cons a l ih =>
    intro s s1 h
    simp only [copyAll] at h
    cases hst : copyStep H src s a with
    | error e => rw [hst] at h; cases h
    | ok s0 =>
      rw [hst] at h
      obtain ⟨ih1, ih2, ih3⟩ := ih s0 s1 h
      obtain ⟨hm1, hm2⟩ := copyStep_manifest H src s s0 a hst
      obtain ⟨q, b⟩ := a
      cases b with
      | true =>
        have hfl : fileList ((q, true) :: l) = fileList l := by simp [fileList]
        rw [hfl, ← hm1 rfl]
        exact ⟨ih1, ih2, ih3⟩
      | false =>
        have hfl : fileList ((q, false) :: l) = q :: fileList l := by simp [fileList]
        obtain ⟨f, hf, hr, hset⟩ := hm2 rfl
        rw [hfl]
        refine ⟨?_, ?_, ?_⟩
        · intro k hk
          rcases List.mem_cons.1 hk with rfl | hk
          · exact ⟨f, hf, hr⟩
          · exact ih1 k hk
        · intro k
          rw [ih2 k, hset, Manifest.get_set]
          by_cases hk : k ∈ fileList l
          · simp [hk]
          · by_cases hq : q = k
            · subst hq
              simp [hk, digestOf_file H src q f hf]
            · have : k ≠ q := fun e => hq e.symm
              simp [hk, hq, this]
        · intro hnd
          have hq : q ∉ s.manifest.map Prod.fst := by
            intro hmem
            rw [List.nodup_append] at hnd
            exact hnd.2.2 hmem (List.mem_cons_self _ _)
          have hs0 : s0.manifest.map Prod.fst = s.manifest.map Prod.fst ++ [q] := by
            rw [hset, Manifest.set_new _ _ _ hq]
            simp
          rw [ih3 (by rw [hs0]; simpa using hnd), hs0]
          simp

/-- The workspace entry `copyToTemp` leaves at a file it visited. -/
theorem copyAll_at (H : Bytes → Digest) (src : Tree) (l : List (Path × Bool)) (q : Path)
    (s0 s2 : CopyState) (h : copyAll H src l s0 = .ok s2) (hq : (q, false) ∈ l)
    (hnd : (fileList l).Nodup) (hanti : ∀ a ∈ l, q <+: a.1 → a = (q, false)) :
    ∃ f, src.lookup q = some (.file f) ∧ ownerRead f.mode = true ∧
      ((s0.tmp.lookup q = none ∧ s2.tmp.lookup q = some (.file ⟨f.mode, f.bytes⟩)) ∨
        ∃ g, s0.tmp.lookup q = some (.file g) ∧
          s2.tmp.lookup q = some (.file ⟨g.mode, f.bytes⟩)) := by
  obtain ⟨l1, l2, rfl⟩ := List.append_of_mem hq
  have hfl : fileList (l1 ++ (q, false) :: l2) = fileList l1 ++ q :: fileList l2 := by
    simp [fileList]
  rw [hfl, List.nodup_append] at hnd
  obtain ⟨_, hnd2, hdisj⟩ := hnd
  have hq1 : (q, false) ∉ l1 := fun hm =>
    hdisj ((mem_fileList l1 q).2 hm) (List.mem_cons_self _ _)
  have hq2 : (q, false) ∉ l2 := fun hm =>
    (List.nodup_cons.1 hnd2).1 ((mem_fileList l2 q).2 hm)
  obtain ⟨s1, h1, h2⟩ := (copyAll_append H src l1 _ s0 s2).1 h
  simp only [copyAll] at h2
  cases hst : copyStep H src s1 (q, false) with
  | error e => rw [hst] at h2; cases h2
  | ok s3 =>
    rw [hst] at h2
    simp only at h2
    have hfr1 : s1.tmp.lookup q = s0.tmp.lookup q := by
      apply (copyAll_evolves H src l1 s0 s1 h1).frame
      rintro p ⟨b, hb⟩ hle
      have := hanti (p, b) (by simp [hb]) hle
      rw [this] at hb
      exact hq1 hb
    have hfr2 : s2.tmp.lookup q = s3.tmp.lookup q := by
      apply (copyAll_evolves H src l2 s3 s2 h2).frame
      rintro p ⟨b, hb⟩ hle
      have := hanti (p, b) (by simp [hb]) hle
      rw [this] at hb
      exact hq2 hb
    unfold copyStep at hst
    simp only [Bool.false_eq_true, if_false] at hst
    split at hst
    · cases hst
    · rename_i t1 hmk
      split at hst
      · cases hst
      · rename_i t2 hcp
        split at hst
        · cases hst
        · cases hst
          obtain ⟨f, hf, hr, hw⟩ := (copyFile_ok_iff src q t1 q t2).1 hcp
          have hq0 : q ≠ [] := by
            rintro rfl
            simp [Tree.writeFile] at hw
          have hfr : t1.lookup q = s1.tmp.lookup q :=
            Tree.mkdirAll_frame _ _ _ hmk q (not_self_le_dropLast q hq0)
          refine ⟨f, hf, hr, ?_⟩
          rw [hfr2, ← hfr1, ← hfr]
          rcases Tree.writeFile_at q f.mode f.bytes t1 t2 hw with ⟨h0, h3⟩ | ⟨g, h0, _, h3⟩
          · exact Or.inl ⟨h0, h3⟩
          · exact Or.inr ⟨g, h0, h3⟩

/-- Under a well-formed source, nothing the walk visits lies at or below a visited file except
that file itself. -/
theorem visited_antichain (src : Tree) (hwf : src.WF) (q : Path)
    (hq : (q, false) ∈ visited src []) :
    ∀ a ∈ visited src [], q <+: a.1 → a = (q, false) := by
  have hqr : q ∈ retained src [] := by
    rw [← fileList_visited, mem_fileList]
    exact hq
  obtain ⟨_, f, hf⟩ := (mem_retained_root src q hwf).1 hqr
  rintro ⟨p, b⟩ ha hle
  obtain ⟨r, rfl⟩ := hle
  have hr : r = [] := by
    by_contra hr
    have hnone := Tree.lookup_file_append q src f r hf hr
    cases b with
    | false =>
      have : q ++ r ∈ retained src [] := by
        rw [← fileList_visited, mem_fileList]
        exact ha
      obtain ⟨_, g, hg⟩ := (mem_retained_root src _ hwf).1 this
      rw [hnone] at hg
      cases hg
    | true =>
      obtain ⟨r1, s, h1, _, h3⟩ := visited_dir_lookup src [] _ hwf ha
      simp only [List.nil_append] at h1
      rw [← h1, hnone] at h3
      cases h3
  subst hr
  simp only [List.append_nil] at ha ⊢
  cases b with
  | false => rfl
  | true =>
    obtain ⟨r1, s, h1, _, h3⟩ := visited_dir_lookup src [] _ hwf ha
    simp only [List.nil_append] at h1
    rw [← h1, hf] at h3
    cases h3

/-- What a successful directory snapshot leaves behind, entry by entry. -/
theorem copyToTemp_dir_entries (H : Bytes → Digest) (src : Tree) (rootName : String)
    (tmp : Tree) (m : Manifest) (ws : Tree) (hwf : src.WF)
    (h : copyToTemp H src (.dir rootName) tmp = .ok (m, ws)) :
    m.map Prod.fst = retained src [] ∧
    (∀ rel ∈ retained src [], ∃ f, src.lookup rel = some (.file f) ∧ ownerRead f.mode = true ∧
      m.get rel = some (H f.bytes) ∧
      ((tmp.lookup rel = none ∧ ws.lookup rel = some (.file ⟨f.mode, f.bytes⟩)) ∨
        ∃ g, tmp.lookup rel = some (.file g) ∧
          ws.lookup rel = some (.file ⟨g.mode, f.bytes⟩))) := by
  have hall := copyToTemp_dir H src rootName tmp m ws h
  obtain ⟨_, hget, hkeys⟩ := copyAll_manifest H src _ _ _ hall
  have hnd := retained_nodup src [] hwf
  rw [fileList_visited] at hget hkeys
  refine ⟨by simpa using hkeys (by simpa using hnd), ?_⟩
  intro rel hrel
  have hv : (rel, false) ∈ visited src [] := by
    rw [← mem_fileList, fileList_visited]
    exact hrel
  obtain ⟨f, hf, hr, hws⟩ := copyAll_at H src _ rel _ _ hall hv
    (by rw [fileList_visited]; exact hnd) (visited_antichain src hwf rel hv)
  refine ⟨f, hf, hr, ?_, hws⟩
  have := hget rel
  simp only [hrel, if_true] at this
  rw [this, digestOf_file H src rel f hf]

theorem syncAll_unchanged (H : Bytes → Digest) (tmp : Tree) (m : Manifest) (l : List Path) :
    ∀ s : SyncState, (∀ q ∈ l, ∃ d, hashFile H tmp q = .ok d ∧ m.get q = some d) →
      syncAll H tmp m l s = { s with skipped := s.skipped + l.length } := by
  induction l with
  | nil => intro s _; rfl
  | cons q l ih =>
    intro s h
    obtain ⟨d, hd, hm⟩ := h q (List.mem_cons_self _ _)
    rw [syncAll_cons]
    have hstep : syncFile H tmp m q s = { s with skipped := s.skipped + 1 } := by
      simp [syncFile, hd, hm]
    rw [hstep, ih _ (fun q1 hq1 => h q1 (List.mem_cons_of_mem _ hq1))]
    simp only [List.length_cons]
    congr 1
    omega

theorem reportDeleted_nil (tmp : Tree) (m : Manifest)
    (h : ∀ kv ∈ m, ∃ e, tmp.lookup kv.1 = some e) : reportDeleted tmp m = [] := by
  induction m with
  | nil => rfl
  | cons kv m ih =>
    obtain ⟨k, v⟩ := kv
    obtain ⟨e, he⟩ := h (k, v) (List.mem_cons_self _ _)
    have ih1 := ih (fun kv hkv => h kv (List.mem_cons_of_mem _ hkv))
    unfold reportDeleted
    split
    · rename_i hst
      simp [Tree.lookup, hst] at he
    · exact ih1

theorem retained_kept (t : Tree) (q : Path) (h : q ∈ retained t []) : kept q = true := by
  rw [← fileList_visited, mem_fileList] at h
  obtain ⟨r, h1, _, _, h4⟩ := visited_clean t [] _ h
  simp only [List.nil_append] at h1
  rw [h1]
  exact h4 rfl

theorem kept_not_underHidden (r : Path) (h : kept r = true) : underHidden r = false := by
  have := kept_clean r h
  cases hu : underHidden r
  · rfl
  · simp only [underHidden, List.any_eq_true] at hu
    obtain ⟨x, hx, hh⟩ := hu
    rw [this x hx] at hh
    cases hh

theorem filtered_not_kept (p : Path) (hp : underHidden p = true ∨ junkNamed p = true) :
    kept p ≠ true := by
  intro hk
  rcases hp with h | h
  · rw [kept_not_underHidden p hk] at h
    cases h
  · rw [kept_not_junk p hk] at h
    cases h

theorem syncAll_lines (H : Bytes → Digest) (tmp : Tree) (m : Manifest) (rel : Path)
    (l : List Path) : ∀ s : SyncState, s.Consistent → l.Nodup →
      ((syncAll H tmp m l s).out.filter (fun ln => decide (ln.rel = rel))).length ≤
        (s.out.filter (fun ln => decide (ln.rel = rel))).length + (if rel ∈ l then 1 else 0) := by
  induction l with
  | nil => intro s _ _; simp [syncAll]
  | cons q l ih =>
    intro s hc hnd
    obtain ⟨hq, hnd1⟩ := List.nodup_cons.1 hnd
    obtain ⟨hc1, _, _, ho⟩ := syncFile_step H tmp m q s hc
    rw [syncAll_cons]
    have h1 := ih _ hc1 hnd1
    rcases ho with ho | ⟨ln, ho, hln⟩
    · rw [ho] at h1
      refine le_trans h1 ?_
      by_cases hr : rel ∈ l
      · simp [hr]
      · simp only [hr, if_false, List.mem_cons]
        split <;> omega
    · rw [ho, List.filter_append, List.length_append] at h1
      refine le_trans h1 ?_
      by_cases hqr : q = rel
      · subst hqr
        simp [hq, hln]
      · have : ¬ ln.rel = rel := by rw [hln]; exact hqr
        have hne : rel ≠ q := fun e => hqr e.symm
        simp [this, hne]

theorem reportDeleted_lines (tmp : Tree) (rel : Path) (m : Manifest)
    (hnd : (m.map Prod.fst).Nodup) :
    ((reportDeleted tmp m).filter (fun ln => decide (ln.rel = rel))).length ≤ 1 := by
  induction m with
  | nil => simp [reportDeleted]
  | cons kv m ih =>
    obtain ⟨k, v⟩ := kv
    simp only [List.map_cons, List.nodup_cons] at hnd
    have ih1 := ih hnd.2
    unfold reportDeleted
    split
    · by_cases hk : k = rel
      · subst hk
        have : (reportDeleted tmp m).filter (fun ln => decide (ln.rel = k)) = [] := by
          rw [List.filter_eq_nil_iff]
          intro ln hln
          have hd := reportDeleted_isDeleted tmp m ln hln
          cases ln <;> simp [Line.isDeleted] at hd
          rename_i r
          simp only [Line.rel, decide_eq_true_eq]
          rintro rfl
          obtain ⟨⟨d, hdm⟩, _⟩ := (mem_reportDeleted tmp m r).1 hln
          exact hnd.1 (List.mem_map_of_mem Prod.fst hdm)
        have hpos : (fun ln : Line => decide (ln.rel = k)) (Line.deleted k) = true := by
          simp [Line.rel]
        rw [List.filter_cons_of_pos (p := fun ln : Line => decide (ln.rel = k)) hpos, this]
        simp
      · have hneg : ¬ (fun ln : Line => decide (ln.rel = rel)) (Line.deleted k) = true := by
          simp [Line.rel, hk]
        rw [List.filter_cons_of_neg (p := fun ln : Line => decide (ln.rel = rel)) hneg]
        exact ih1
    · exact ih1

theorem hashFile_agree (H : Bytes → Digest) (t t1 : Tree) (p : Path)
    (h : t1.lookup p = t.lookup p) :
    (∀ d, hashFile H t1 p = .ok d ↔ hashFile H t p = .ok d) ∧
    ((∃ e, hashFile H t1 p = .error e) ↔ ∃ e, hashFile H t p = .error e) :=
  ⟨fun d => ⟨hashFile_ok_congr H t1 t p d h.symm, hashFile_ok_congr H t t1 p d h⟩,
    ⟨hashFile_error_congr H t1 t p h.symm, hashFile_error_congr H t t1 p h⟩⟩

/-- What one run of the callback body does, read off the workspace, the manifest and the
original location as `syncBack` found it, when the original is still as found at that path. -/
theorem syncFile_outcome (H : Bytes → Digest) (tmp orig : Tree) (m : Manifest) (q : Path)
    (s : SyncState) (hagree : s.orig.lookup q = orig.lookup q) :
    (syncFile H tmp m q s).conflicts =
      s.conflicts + (if isConflictPath H tmp orig m q = true then 1 else 0) ∧
    (syncFile H tmp m q s).keepTmp = (s.keepTmp || isConflictPath H tmp orig m q) ∧
    (syncFile H tmp m q s).skipped =
      s.skipped + (if isUnchangedPath H tmp m q = true then 1 else 0) ∧
    ∃ ls, (syncFile H tmp m q s).out = s.out ++ ls ∧
      ((isUnchangedPath H tmp m q = true ∧ isConflictPath H tmp orig m q = false ∧ ls = []) ∨
       (isUnchangedPath H tmp m q = false ∧ isConflictPath H tmp orig m q = true ∧
          ls = [conflictLine H orig q]) ∨
       (isUnchangedPath H tmp m q = false ∧ isConflictPath H tmp orig m q = false ∧
          ∃ ln, ls = [ln] ∧ ln.rel = q ∧ ln.isConflict = false ∧ ln.isDeleted = false ∧
            (ln = Line.warnHash q ↔ ∃ e, hashFile H tmp q = .error e) ∧
            (m.get q ≠ none → ln.isNew = false) ∧
            (m.get q = none → ln.isSynced = false))) := by
  obtain ⟨hok, herr⟩ := hashFile_agree H orig s.orig q hagree
  cases hw : hashFile H tmp q with
  | error e =>
    refine ⟨by simp [syncFile, isConflictPath, hw], by simp [syncFile, isConflictPath, hw],
      by simp [syncFile, isUnchangedPath, hw], [Line.warnHash q], by simp [syncFile, hw], ?_⟩
    right; right
    refine ⟨by simp [isUnchangedPath, hw], by simp [isConflictPath, hw], Line.warnHash q, rfl,
      rfl, rfl, rfl, ?_, fun _ => rfl, fun _ => rfl⟩
    simp
  | ok dw =>
    cases hm : m.get q with
    | none =>
      have hu : isUnchangedPath H tmp m q = false := by simp [isUnchangedPath, hw, hm]
      have hc : isConflictPath H tmp orig m q = false := by simp [isConflictPath, hw, hm]
      rw [hu, hc]
      cases hmk : s.orig.mkdirAll q.dropLast with
      | error e =>
        refine ⟨by simp [syncFile, hw, hm, hmk], by simp [syncFile, hw, hm, hmk],
          by simp [syncFile, hw, hm, hmk], [Line.errDir q], by simp [syncFile, hw, hm, hmk], ?_⟩
        right; right
        exact ⟨rfl, rfl, Line.errDir q, rfl, rfl, rfl, rfl, by simp, fun h => absurd rfl h,
          fun _ => rfl⟩
      | ok o1 =>
        cases hcp : copyFile tmp q o1 q with
        | error e =>
          refine ⟨by simp [syncFile, hw, hm, hmk, hcp], by simp [syncFile, hw, hm, hmk, hcp],
            by simp [syncFile, hw, hm, hmk, hcp], [Line.errSyncNew q],
            by simp [syncFile, hw, hm, hmk, hcp], ?_⟩
          right; right
          exact ⟨rfl, rfl, Line.errSyncNew q, rfl, rfl, rfl, rfl, by simp,
            fun h => absurd rfl h, fun _ => rfl⟩
        | ok o2 =>
          refine ⟨by simp [syncFile, hw, hm, hmk, hcp], by simp [syncFile, hw, hm, hmk, hcp],
            by simp [syncFile, hw, hm, hmk, hcp], [Line.newFile q],
            by simp [syncFile, hw, hm, hmk, hcp], ?_⟩
          right; right
          exact ⟨rfl, rfl, Line.newFile q, rfl, rfl, rfl, rfl, by simp,
            fun h => absurd rfl h, fun _ => rfl⟩
    | some d0 =>
      by_cases hd : dw = d0
      · have hu : isUnchangedPath H tmp m q = true := by simp [isUnchangedPath, hw, hm, hd]
        have hc : isConflictPath H tmp orig m q = false := by simp [isConflictPath, hw, hm, hd]
        rw [hu, hc]
        refine ⟨by simp [syncFile, hw, hm, hd], by simp [syncFile, hw, hm, hd],
          by simp [syncFile, hw, hm, hd], [], by simp [syncFile, hw, hm, hd], ?_⟩
        left
        exact ⟨rfl, rfl, rfl⟩
      · have hu : isUnchangedPath H tmp m q = false := by simp [isUnchangedPath, hw, hm, hd]
        rw [hu]
        cases hso : hashFile H s.orig q with
        | error e =>
          obtain ⟨e0, he0⟩ := herr.1 ⟨e, hso⟩
          have hc : isConflictPath H tmp orig m q = true := by
            simp [isConflictPath, hw, hm, hd, he0]
          have hl : conflictLine H orig q = Line.conflictDeleted q := by
            simp [conflictLine, he0]
          rw [hc, hl]
          refine ⟨by simp [syncFile, hw, hm, hd, hso], by simp [syncFile, hw, hm, hd, hso],
            by simp [syncFile, hw, hm, hd, hso], [Line.conflictDeleted q],
            by simp [syncFile, hw, hm, hd, hso], ?_⟩
          right; left
          exact ⟨rfl, rfl, rfl⟩
        | ok dc =>
          have hoo := (hok dc).1 hso
          by_cases hdc : dc = d0
          · have hc : isConflictPath H tmp orig m q = false := by
              simp [isConflictPath, hw, hm, hd, hoo, hdc]
            rw [hc]
            cases hmk : s.orig.mkdirAll q.dropLast with
            | error e =>
              refine ⟨by simp [syncFile, hw, hm, hd, hso, hdc, hmk],
                by simp [syncFile, hw, hm, hd, hso, hdc, hmk],
                by simp [syncFile, hw, hm, hd, hso, hdc, hmk], [Line.errDir q],
                by simp [syncFile, hw, hm, hd, hso, hdc, hmk], ?_⟩
              right; right
              exact ⟨rfl, rfl, Line.errDir q, rfl, rfl, rfl, rfl, by simp, fun _ => rfl,
                fun h => by cases h⟩
            | ok o1 =>
              cases hcp : copyFile tmp q o1 q with
              | error e =>
                refine ⟨by simp [syncFile, hw, hm, hd, hso, hdc, hmk, hcp],
                  by simp [syncFile, hw, hm, hd, hso, hdc, hmk, hcp],
                  by simp [syncFile, hw, hm, hd, hso, hdc, hmk, hcp], [Line.errSync q],
                  by simp [syncFile, hw, hm, hd, hso, hdc, hmk, hcp], ?_⟩
                right; right
                exact ⟨rfl, rfl, Line.errSync q, rfl, rfl, rfl, rfl, by simp, fun _ => rfl,
                  fun h => by cases h⟩
              | ok o2 =>
                refine ⟨by simp [syncFile, hw, hm, hd, hso, hdc, hmk, hcp],
                  by simp [syncFile, hw, hm, hd, hso, hdc, hmk, hcp],
                  by simp [syncFile, hw, hm, hd, hso, hdc, hmk, hcp], [Line.synced q],
                  by simp [syncFile, hw, hm, hd, hso, hdc, hmk, hcp], ?_⟩
                right; right
                exact ⟨rfl, rfl, Line.synced q, rfl, rfl, rfl, rfl, by simp, fun _ => rfl,
                  fun h => by cases h⟩
          · have hc : isConflictPath H tmp orig m q = true := by
              simp [isConflictPath, hw, hm, hd, hoo, hdc]
            have hl : conflictLine H orig q = Line.conflictModified q := by
              simp [conflictLine, hoo]
            rw [hc, hl]
            refine ⟨by simp [syncFile, hw, hm, hd, hso, hdc],
              by simp [syncFile, hw, hm, hd, hso, hdc],
              by simp [syncFile, hw, hm, hd, hso, hdc], [Line.conflictModified q],
              by simp [syncFile, hw, hm, hd, hso, hdc], ?_⟩
            right; left
            exact ⟨rfl, rfl, rfl⟩

theorem conflictLine_rel (H : Bytes → Digest) (orig : Tree) (q : Path) :
    (conflictLine H orig q).rel = q := by
  unfold conflictLine
  split <;> rfl

theorem conflictLine_isConflict (H : Bytes → Digest) (orig : Tree) (q : Path) :
    (conflictLine H orig q).isConflict = true := by
  unfold conflictLine
  split <;> rfl

/-- The walk over a list of pairwise unrelated paths, none met twice: the conflict counter, the
flag, the unchanged counter and the conflict lines, read off the workspace, the manifest and the
original location as it was before the walk. -/
theorem syncAll_classify (H : Bytes → Digest) (tmp orig : Tree) (m : Manifest) (l : List Path) :
    l.Nodup → (∀ p ∈ l, ∀ q ∈ l, p <+: q → p = q) →
    ∀ s : SyncState, (∀ q ∈ l, s.orig.lookup q = orig.lookup q) →
      (syncAll H tmp m l s).conflicts =
        s.conflicts + (l.filter (isConflictPath H tmp orig m)).length ∧
      (syncAll H tmp m l s).keepTmp = (s.keepTmp || l.any (isConflictPath H tmp orig m)) ∧
      (syncAll H tmp m l s).skipped =
        s.skipped + (l.filter (isUnchangedPath H tmp m)).length ∧
      (syncAll H tmp m l s).out.filter Line.isConflict =
        s.out.filter Line.isConflict ++
          (l.filter (isConflictPath H tmp orig m)).map (conflictLine H orig) := by
  induction l with
  | nil =>
    intro _ _ s _
    simp [syncAll]
  | cons q l ih =>
    intro hnd hanti s hag
    obtain ⟨hq, hnd1⟩ := List.nodup_cons.1 hnd
    have hanti1 : ∀ p ∈ l, ∀ r ∈ l, p <+: r → p = r := fun p hp r hr h =>
      hanti p (List.mem_cons_of_mem _ hp) r (List.mem_cons_of_mem _ hr) h
    have hag1 : ∀ p ∈ l, (syncFile H tmp m q s).orig.lookup p = orig.lookup p := by
      intro p hp
      rw [← hag p (List.mem_cons_of_mem _ hp)]
      apply (syncFile_evolves H tmp m q s).frame
      intro r hr hpr
      subst hr
      have := hanti p (List.mem_cons_of_mem _ hp) r (List.mem_cons_self _ _) hpr
      exact hq (this ▸ hp)
    obtain ⟨h1, h2, h3, h4⟩ := ih hnd1 hanti1 (syncFile H tmp m q s) hag1
    obtain ⟨g1, g2, g3, ls, g4, g5⟩ :=
      syncFile_outcome H tmp orig m q s (hag q (List.mem_cons_self _ _))
    rw [syncAll_cons, h1, h2, h3, h4, g1, g2, g3, g4, List.filter_append]
    rcases g5 with ⟨hu, hc, hls⟩ | ⟨hu, hc, hls⟩ | ⟨hu, hc, ln, hls, _, hnc, _⟩
    · subst hls
      refine ⟨by simp [List.filter_cons, hc], by simp [hc], ?_, by simp [List.filter_cons, hc]⟩
      simp only [List.filter_cons, hu, if_true, List.length_cons]
      omega
    · subst hls
      refine ⟨?_, by simp [hc], by simp [List.filter_cons, hu],
        by simp [List.filter_cons, hc, conflictLine_isConflict]⟩
      simp only [List.filter_cons, hc, if_true, List.length_cons]
      omega
    · subst hls
      exact ⟨by simp [List.filter_cons, hc], by simp [hc], by simp [List.filter_cons, hu],
        by simp [List.filter_cons, hc, hnc]⟩

theorem filter_rel_singleton (ln : Line) (rel : Path) (h : ln.rel = rel) :
    [ln].filter (fun x => decide (x.rel = rel)) = [ln] := by
  simp [List.filter_cons, h]

theorem filter_rel_eq_self (ls : List Line) (rel : Path) (h : ∀ ln ∈ ls, ln.rel = rel) :
    ls.filter (fun x => decide (x.rel = rel)) = ls := by
  rw [List.filter_eq_self]
  intro ln hln
  simp [h ln hln]

theorem filter_rel_eq_nil (ls : List Line) (rel : Path) (h : ∀ ln ∈ ls, ln.rel ≠ rel) :
    ls.filter (fun x => decide (x.rel = rel)) = [] := by
  rw [List.filter_eq_nil_iff]
  intro ln hln
  simp [h ln hln]

/-- The run of `syncBack`, seen from one retained workspace file `rel`, with the lines it prints
about `rel`: they are the lines the callback prints when it reaches `rel`. -/
theorem syncBack_focus_lines (H : Bytes → Digest) (rootName : String) (tmp orig : Tree)
    (m : Manifest) (rel : Path) (hwf : tmp.WF) (hk : kept rel = true) (f : FileData)
    (hf : tmp.lookup rel = some (.file f)) :
    ∃ s1 : SyncState,
      s1.orig.lookup rel = orig.lookup rel ∧
      (∀ p : Path, p <+: rel → p ≠ rel → ∀ g, s1.orig.lookup p = some (.file g) →
        orig.lookup p = some (.file g)) ∧
      (∀ (p : Path) (g : FileData), orig.lookup p = some (.file g) →
        ∃ g1, s1.orig.lookup p = some (.file g1)) ∧
      (∀ (p : Path) (s : Tree), orig.lookup p = some (.dir s) →
        ∃ s2, s1.orig.lookup p = some (.dir s2)) ∧
      (syncBack H rootName tmp orig m).orig.lookup rel =
        (syncFile H tmp m rel s1).orig.lookup rel ∧
      (∀ ls : List Line, (syncFile H tmp m rel s1).out = s1.out ++ ls →
        (∀ ln ∈ ls, ln.rel = rel) →
        (syncBack H rootName tmp orig m).out.filter (fun ln => decide (ln.rel = rel)) = ls) := by
  have hmem : rel ∈ retained tmp [] := (mem_retained_root tmp rel hwf).2 ⟨hk, f, hf⟩
  have hanti : ∀ q ∈ retained tmp [], rel <+: q → rel = q :=
    fun q hq hpq => retained_antichain tmp hwf rel q hmem hq hpq
  obtain ⟨l1, l2, hl, h1, h2, heq, hlk1, hlk⟩ :=
    syncAll_focus H tmp m (retained tmp []) rel (retained_nodup tmp [] hwf) hmem hanti
      (SyncState.init orig)
  obtain ⟨hf1, _, _, _, _, _, hf7⟩ := syncBack_fields H rootName tmp orig m
  have hev := syncAll_evolves H tmp m l1 (SyncState.init orig)
  obtain ⟨hc1, _, _, extra1, ho1, hx1⟩ :=
    syncAll_run H tmp m l1 (SyncState.init orig) (init_consistent orig)
  obtain ⟨hcs, _, _, _⟩ := syncFile_step H tmp m rel _ hc1
  obtain ⟨_, _, _, extra2, ho2, hx2⟩ := syncAll_run H tmp m l2 _ hcs
  refine ⟨syncAll H tmp m l1 (SyncState.init orig), hlk1, ?_, ?_, ?_, ?_, ?_⟩
  · intro p hp hne g hg
    apply hev.files p _ g hg
    intro hpl
    have hpm : p ∈ retained tmp [] := by rw [hl]; simp [hpl]
    exact hne (retained_antichain tmp hwf p rel hpm hmem hp)
  · intro p g hg
    exact hev.keepFile p g hg
  · intro p s hs
    exact hev.keepDir p s hs
  · rw [hf1]; exact hlk
  · intro ls hls hrel
    have e1 : (syncAll H tmp m l1 (SyncState.init orig)).out.filter
        (fun ln => decide (ln.rel = rel)) = [] := by
      apply filter_rel_eq_nil
      intro ln hln
      rw [ho1] at hln
      simp only [SyncState.init, List.nil_append] at hln
      intro e
      exact h1 (e ▸ hx1 ln hln)
    have e2 : extra2.filter (fun ln => decide (ln.rel = rel)) = [] := by
      apply filter_rel_eq_nil
      intro ln hln e
      exact h2 (e ▸ hx2 ln hln)
    have e3 : (reportDeleted tmp m).filter (fun ln => decide (ln.rel = rel)) = [] := by
      apply filter_rel_eq_nil
      intro ln hln e
      have hd := reportDeleted_isDeleted tmp m ln hln
      cases ln <;> simp [Line.isDeleted] at hd
      simp only [Line.rel] at e
      subst e
      exact not_deleted_of_lookup tmp m _ _ hf hln
    rw [hf7, heq, ho2, hls, List.filter_append, List.filter_append, List.filter_append, e1, e2,
      e3, filter_rel_eq_self ls rel hrel]
    simp

/-- Splitting the lines of one class into those about `rel` and the others. -/
theorem filter_split_rel (P : Line → Bool) (rel : Path) (l : List Line) :
    (l.filter P).length =
      (l.filter (fun ln => P ln && !decide (ln.rel = rel))).length +
        ((l.filter (fun ln => decide (ln.rel = rel))).filter P).length := by
  induction l with
  | nil => rfl
  | cons a l ih =>
    by_cases hp : P a = true <;> by_cases hr : a.rel = rel <;>
      simp [List.filter_cons, hp, hr, ih] <;> omega

theorem Tree.mkdirAll_error_iff (t : Tree) (d : Path) :
    (∃ e, t.mkdirAll d = .error e) ↔ ∃ p, p <+: d ∧ ∃ g, t.lookup p = some (.file g) := by
  constructor
  · rintro ⟨e, he⟩
    by_contra hno
    obtain ⟨t1, h1⟩ := Tree.mkdirAll_succeeds d t (by
      intro p hp g hg
      exact hno ⟨p, hp, g, hg⟩)
    rw [h1] at he
    cases he
  · rintro ⟨p, hp, g, hg⟩
    cases h : t.mkdirAll d with
    | error e => exact ⟨e, rfl⟩
    | ok t1 =>
      exfalso
      rcases Tree.mkdirAll_before d t t1 h p hp with h0 | ⟨s, h0⟩
      · rw [h0] at hg; cases hg
      · rw [h0] at hg; cases hg

theorem Tree.writeFile_ok_iff (t : Tree) (q : Path) (mode : Nat) (b : Bytes) :
    (∃ t1, t.writeFile q mode b = .ok t1) ↔
      q ≠ [] ∧ (∃ s, t.lookup q.dropLast = some (.dir s)) ∧
        (t.lookup q = none ∨ ∃ g, t.lookup q = some (.file g) ∧ ownerWrite g.mode = true) := by
  constructor
  · rintro ⟨t1, h⟩
    have hq : q ≠ [] := by
      rintro rfl
      simp [Tree.writeFile] at h
    refine ⟨hq, ?_, ?_⟩
    · obtain ⟨s, _, hs, _⟩ := Tree.writeFile_parents q mode b t t1 h q.dropLast
        (List.dropLast_prefix q) (dropLast_ne_self q hq)
      exact ⟨s, hs⟩
    · rcases Tree.writeFile_at q mode b t t1 h with ⟨h0, _⟩ | ⟨g, h0, h1, _⟩
      · exact Or.inl h0
      · exact Or.inr ⟨g, h0, h1⟩
  · rintro ⟨hq, hd, hc⟩
    exact Tree.writeFile_succeeds q mode b t hq hd hc

/-- Whether the parent directories of `rel` can be made does not depend on what the walk did
before it reached `rel`. -/
theorem mkdirParent_transfer (orig o : Tree) (rel : Path) (hrel : rel ≠ [])
    (hfiles : ∀ p : Path, p <+: rel → p ≠ rel → ∀ g, o.lookup p = some (.file g) →
      orig.lookup p = some (.file g))
    (hkeep : ∀ (p : Path) (g : FileData), orig.lookup p = some (.file g) →
      ∃ g1, o.lookup p = some (.file g1)) :
    (∃ e, o.mkdirAll rel.dropLast = .error e) ↔ (∃ e, orig.mkdirAll rel.dropLast = .error e) := by
  rw [Tree.mkdirAll_error_iff, Tree.mkdirAll_error_iff]
  constructor
  · rintro ⟨p, hp, g, hg⟩
    have hp1 : p <+: rel := hp.trans (List.dropLast_prefix rel)
    have hp2 : p ≠ rel := by
      rintro rfl
      exact not_self_le_dropLast p hrel hp
    exact ⟨p, hp, g, hfiles p hp1 hp2 g hg⟩
  · rintro ⟨p, hp, g, hg⟩
    obtain ⟨g1, hg1⟩ := hkeep p g hg
    exact ⟨p, hp, g1, hg1⟩

/-- Whether the copy to `rel` succeeds, once the parent directories are made, depends only on
what is at `rel`. -/
theorem copyFile_transfer (tmp : Tree) (rel : Path) (a b a1 b1 : Tree)
    (hrel : rel ≠ []) (hab : a.lookup rel = b.lookup rel)
    (ha : a.mkdirAll rel.dropLast = .ok a1) (hb : b.mkdirAll rel.dropLast = .ok b1) :
    (∃ t, copyFile tmp rel a1 rel = .ok t) ↔ (∃ t, copyFile tmp rel b1 rel = .ok t) := by
  have hla : a1.lookup rel = a.lookup rel :=
    Tree.mkdirAll_frame _ _ _ ha rel (not_self_le_dropLast rel hrel)
  have hlb : b1.lookup rel = b.lookup rel :=
    Tree.mkdirAll_frame _ _ _ hb rel (not_self_le_dropLast rel hrel)
  have hda := Tree.mkdirAll_dirs _ _ _ ha rel.dropLast (List.prefix_refl _)
  have hdb := Tree.mkdirAll_dirs _ _ _ hb rel.dropLast (List.prefix_refl _)
  have key : ∀ (x y : Tree), x.lookup rel = y.lookup rel →
      (∃ s, y.lookup rel.dropLast = some (.dir s)) →
      (∃ t, copyFile tmp rel x rel = .ok t) → ∃ t, copyFile tmp rel y rel = .ok t := by
    intro x y hxy hdy ⟨t, ht⟩
    obtain ⟨f, hf, hr, hw⟩ := (copyFile_ok_iff tmp rel x rel t).1 ht
    obtain ⟨_, _, hc⟩ := (Tree.writeFile_ok_iff x rel f.mode f.bytes).1 ⟨t, hw⟩
    obtain ⟨t2, ht2⟩ := (Tree.writeFile_ok_iff y rel f.mode f.bytes).2
      ⟨hrel, hdy, by rw [← hxy]; exact hc⟩
    exact ⟨t2, (copyFile_ok_iff tmp rel y rel t2).2 ⟨f, hf, hr, ht2⟩⟩
  exact ⟨key a1 b1 (by rw [hla, hlb, hab]) hdb, key b1 a1 (by rw [hla, hlb, hab]) hda⟩

theorem except_ok_or_error {ε α : Type} (x : Except ε α) :
    (∃ a, x = .ok a) ∨ ∃ e, x = .error e := by
  cases x with
  | ok a => exact Or.inl ⟨a, rfl⟩
  | error e => exact Or.inr ⟨e, rfl⟩

/-- The four ways `syncBack` deals with a retained workspace file that is not a manifest key,
told apart by the outcome of hashing the workspace file, making the parent directories in the
original location and copying the file there. -/
theorem syncBack_new_cases (H : Bytes → Digest) (rootName : String) (tmp orig : Tree)
    (m : Manifest) (rel : Path) (f : FileData)
    (hwf : tmp.WF) (hm : m.get rel = none) (hk : kept rel = true)
    (hf : tmp.lookup rel = some (.file f)) :
    ((∃ e, hashFile H tmp rel = .error e) ∧
      (syncBack H rootName tmp orig m).out.filter (fun ln => decide (ln.rel = rel)) =
        [Line.warnHash rel] ∧
      (syncBack H rootName tmp orig m).orig.lookup rel = orig.lookup rel) ∨
    ((∃ d, hashFile H tmp rel = .ok d) ∧ (∃ e, orig.mkdirAll rel.dropLast = .error e) ∧
      (syncBack H rootName tmp orig m).out.filter (fun ln => decide (ln.rel = rel)) =
        [Line.errDir rel] ∧
      (syncBack H rootName tmp orig m).orig.lookup rel = orig.lookup rel) ∨
    ((∃ d, hashFile H tmp rel = .ok d) ∧
      (∃ o1, orig.mkdirAll rel.dropLast = .ok o1 ∧ ∃ e, copyFile tmp rel o1 rel = .error e) ∧
      (syncBack H rootName tmp orig m).out.filter (fun ln => decide (ln.rel = rel)) =
        [Line.errSyncNew rel] ∧
      (syncBack H rootName tmp orig m).orig.lookup rel = orig.lookup rel) ∨
    ((∃ d, hashFile H tmp rel = .ok d) ∧
      (∃ o1, orig.mkdirAll rel.dropLast = .ok o1 ∧ ∃ o2, copyFile tmp rel o1 rel = .ok o2) ∧
      (syncBack H rootName tmp orig m).out.filter (fun ln => decide (ln.rel = rel)) =
        [Line.newFile rel] ∧
      ∃ mode, (syncBack H rootName tmp orig m).orig.lookup rel =
        some (.file ⟨mode, f.bytes⟩)) := by
  obtain ⟨s1, hs1, hfiles, hkeepF, _, hfin, hlines⟩ :=
    syncBack_focus_lines H rootName tmp orig m rel hwf hk f hf
  have hrel : rel ≠ [] := kept_ne_nil rel hk
  have htr := mkdirParent_transfer orig s1.orig rel hrel hfiles hkeepF
  cases hw : hashFile H tmp rel with
  | error e =>
    left
    have hsout : (syncFile H tmp m rel s1).out = s1.out ++ [Line.warnHash rel] := by
      simp [syncFile, hw]
    have hso : (syncFile H tmp m rel s1).orig = s1.orig := by
      simp [syncFile, hw]
    exact ⟨⟨e, rfl⟩, hlines _ hsout (by simp [Line.rel]), by rw [hfin, hso, hs1]⟩
  | ok d =>
    right
    cases hmk : s1.orig.mkdirAll rel.dropLast with
    | error e =>
      left
      have hsout : (syncFile H tmp m rel s1).out = s1.out ++ [Line.errDir rel] := by
        simp [syncFile, hw, hm, hmk]
      have hso : (syncFile H tmp m rel s1).orig = s1.orig := by
        simp [syncFile, hw, hm, hmk]
      exact ⟨⟨d, rfl⟩, htr.1 ⟨e, hmk⟩, hlines _ hsout (by simp [Line.rel]),
        by rw [hfin, hso, hs1]⟩
    | ok o1 =>
      right
      obtain ⟨b1, hb1⟩ : ∃ b1, orig.mkdirAll rel.dropLast = .ok b1 := by
        rcases except_ok_or_error (orig.mkdirAll rel.dropLast) with h | h
        · exact h
        · obtain ⟨e, he⟩ := htr.2 h
          rw [hmk] at he
          cases he
      have hcpt := copyFile_transfer tmp rel s1.orig orig o1 b1 hrel hs1 hmk hb1
      have hl1 : o1.lookup rel = orig.lookup rel := by
        rw [Tree.mkdirAll_frame _ _ _ hmk rel (not_self_le_dropLast rel hrel), hs1]
      cases hcp : copyFile tmp rel o1 rel with
      | error e =>
        left
        have hsout : (syncFile H tmp m rel s1).out = s1.out ++ [Line.errSyncNew rel] := by
          simp [syncFile, hw, hm, hmk, hcp]
        have hso : (syncFile H tmp m rel s1).orig = o1 := by
          simp [syncFile, hw, hm, hmk, hcp]
        refine ⟨⟨d, rfl⟩, ⟨b1, hb1, ?_⟩, hlines _ hsout (by simp [Line.rel]),
          by rw [hfin, hso, hl1]⟩
        rcases except_ok_or_error (copyFile tmp rel b1 rel) with h | h
        · obtain ⟨t, ht⟩ := hcpt.2 h
          rw [hcp] at ht
          cases ht
        · exact h
      | ok o2 =>
        right
        have hsout : (syncFile H tmp m rel s1).out = s1.out ++ [Line.newFile rel] := by
          simp [syncFile, hw, hm, hmk, hcp]
        have hso : (syncFile H tmp m rel s1).orig = o2 := by
          simp [syncFile, hw, hm, hmk, hcp]
        obtain ⟨f1, hf1, _, hwr⟩ := (copyFile_ok_iff tmp rel o1 rel o2).1 hcp
        rw [hf] at hf1
        cases hf1
        refine ⟨⟨d, rfl⟩, ⟨b1, hb1, hcpt.1 ⟨o2, hcp⟩⟩, hlines _ hsout (by simp [Line.rel]), ?_⟩
        rcases Tree.writeFile_at rel f.mode f.bytes o1 o2 hwr with ⟨_, h1⟩ | ⟨g1, _, _, h1⟩
        · exact ⟨_, by rw [hfin, hso, h1]⟩
        · exact ⟨_, by rw [hfin, hso, h1]⟩

/-- The lines `syncBack` prints about a retained workspace file: none when the file is unchanged,
the conflict line when the three-way test finds a conflict, and otherwise one line that is
neither a conflict line nor a deleted line. -/
theorem syncBack_path_lines (H : Bytes → Digest) (rootName : String) (tmp orig : Tree)
    (m : Manifest) (rel : Path) (hwf : tmp.WF) (hmem : rel ∈ retained tmp []) :
    (isUnchangedPath H tmp m rel = true ∧ isConflictPath H tmp orig m rel = false ∧
      (syncBack H rootName tmp orig m).out.filter (fun ln => decide (ln.rel = rel)) = []) ∨
    (isUnchangedPath H tmp m rel = false ∧ isConflictPath H tmp orig m rel = true ∧
      (syncBack H rootName tmp orig m).out.filter (fun ln => decide (ln.rel = rel)) =
        [conflictLine H orig rel]) ∨
    (isUnchangedPath H tmp m rel = false ∧ isConflictPath H tmp orig m rel = false ∧
      ∃ ln, (syncBack H rootName tmp orig m).out.filter (fun ln => decide (ln.rel = rel)) =
          [ln] ∧
        ln.rel = rel ∧ ln.isConflict = false ∧ ln.isDeleted = false ∧
        (ln = Line.warnHash rel ↔ ∃ e, hashFile H tmp rel = .error e) ∧
        (m.get rel ≠ none → ln.isNew = false) ∧
        (m.get rel = none → ln.isSynced = false)) := by
  obtain ⟨hk, f, hf⟩ := (mem_retained_root tmp rel hwf).1 hmem
  obtain ⟨s1, hs1, _, _, _, _, hlines⟩ :=
    syncBack_focus_lines H rootName tmp orig m rel hwf hk f hf
  obtain ⟨_, _, _, ls, hls, hcase⟩ := syncFile_outcome H tmp orig m rel s1 hs1
  rcases hcase with ⟨hu, hc, h⟩ | ⟨hu, hc, h⟩ | ⟨hu, hc, ln, h, hr, hrest⟩
  · left
    subst h
    exact ⟨hu, hc, hlines [] hls (by simp)⟩
  · right; left
    subst h
    exact ⟨hu, hc, hlines _ hls (by simp [conflictLine_rel])⟩
  · right; right
    subst h
    exact ⟨hu, hc, ln, hlines _ hls (by simp [hr]), hr, hrest⟩

theorem mem_filter_rel (l : List Line) (ln : Line) (h : ln ∈ l) :
    ln ∈ l.filter (fun x => decide (x.rel = ln.rel)) := by
  simp [List.mem_filter, h]

/-- The lines of the walk are about retained workspace files. -/
theorem syncBack_walk_lines (H : Bytes → Digest) (rootName : String) (tmp orig : Tree)
    (m : Manifest) (ln : Line) (hln : ln ∈ (syncBack H rootName tmp orig m).out)
    (hd : ln.isDeleted = false) : ln.rel ∈ retained tmp [] := by
  obtain ⟨_, _, _, extra, hex, hxl⟩ :=
    syncAll_run H tmp m (retained tmp []) (SyncState.init orig) (init_consistent orig)
  have hex1 : (syncAll H tmp m (retained tmp []) (SyncState.init orig)).out = extra := by
    rw [hex]
    rfl
  rw [(syncBack_fields H rootName tmp orig m).2.2.2.2.2.2, List.mem_append] at hln
  rcases hln with h | h
  · rw [hex1] at h
    exact hxl ln h
  · rw [reportDeleted_isDeleted tmp m ln h] at hd
    cases hd

theorem statNotExist_iff (tmp : Tree) (rel : Path) :
    statNotExist tmp rel = true ↔ tmp.stat rel = .error .ENOENT := by
  unfold statNotExist
  cases h : tmp.stat rel with
  | ok e => simp
  | error e => cases e <;> simp

theorem reportDeleted_eq (tmp : Tree) (m : Manifest) :
    reportDeleted tmp m =
      (m.filter (fun kv => statNotExist tmp kv.1)).map (fun kv => Line.deleted kv.1) := by
  induction m with
  | nil => rfl
  | cons kv m ih =>
    obtain ⟨k, v⟩ := kv
    unfold reportDeleted
    split
    · rename_i hst
      have : statNotExist tmp k = true := (statNotExist_iff tmp k).2 hst
      simp [List.filter_cons, this, ih]
    · rename_i hst
      have : statNotExist tmp k = false := by
        cases h : statNotExist tmp k
        · rfl
        · exact absurd ((statNotExist_iff tmp k).1 h) hst
      simp [List.filter_cons, this, ih]

theorem conflictLine_isDeleted (H : Bytes → Digest) (orig : Tree) (q : Path) :
    (conflictLine H orig q).isDeleted = false := by
  unfold conflictLine
  split <;> rfl

theorem conflictLine_isNew (H : Bytes → Digest) (orig : Tree) (q : Path) :
    (conflictLine H orig q).isNew = false := by
  unfold conflictLine
  split <;> rfl

theorem isConflictPath_key (H : Bytes → Digest) (tmp orig : Tree) (m : Manifest) (q : Path)
    (h : isConflictPath H tmp orig m q = true) : m.get q ≠ none := by
  intro hn
  unfold isConflictPath at h
  rw [hn] at h
  split at h <;> simp_all

/-- The lines `syncBack` prints about a path that is not a retained workspace file are lines of
the loop over the manifest. -/
theorem syncBack_lines_not_retained (H : Bytes → Digest) (rootName : String) (tmp orig : Tree)
    (m : Manifest) (rel : Path) (hrel : rel ∉ retained tmp []) :
    (syncBack H rootName tmp orig m).out.filter (fun ln => decide (ln.rel = rel)) =
      (reportDeleted tmp m).filter (fun ln => decide (ln.rel = rel)) := by
  obtain ⟨_, _, _, extra, hex, hxl⟩ :=
    syncAll_run H tmp m (retained tmp []) (SyncState.init orig) (init_consistent orig)
  have hex1 : (syncAll H tmp m (retained tmp []) (SyncState.init orig)).out = extra := by
    rw [hex]
    rfl
  rw [(syncBack_fields H rootName tmp orig m).2.2.2.2.2.2, List.filter_append, hex1,
    filter_rel_eq_nil extra rel (fun ln hln e => hrel (e ▸ hxl ln hln)), List.nil_append]

theorem reportDeleted_filter_key (tmp : Tree) (m : Manifest) (rel : Path) (d : Digest)
    (hnd : (m.map Prod.fst).Nodup) (hm : (rel, d) ∈ m) (hst : tmp.stat rel = .error .ENOENT) :
    (reportDeleted tmp m).filter (fun ln => decide (ln.rel = rel)) = [Line.deleted rel] := by
  have hmem : Line.deleted rel ∈ (reportDeleted tmp m).filter (fun ln => decide (ln.rel = rel)) :=
    List.mem_filter.2 ⟨(mem_reportDeleted tmp m rel).2 ⟨⟨d, hm⟩, hst⟩, by simp [Line.rel]⟩
  have hlen := reportDeleted_lines tmp rel m hnd
  cases hl : (reportDeleted tmp m).filter (fun ln => decide (ln.rel = rel)) with
  | nil => rw [hl] at hmem; cases hmem
  | cons a l =>
    rw [hl] at hmem hlen
    cases l with
    | nil =>
      rw [List.mem_singleton] at hmem
      rw [hmem]
    | cons b l => simp at hlen

/-! ## C1: a conflict leaves the original untouched -/

/-- C1. A retained workspace file that is a manifest key, whose digest differs from the manifest
digest, and whose original is unreadable or has a digest different from the manifest digest:
`syncBack` leaves what is at `originalBase/rel` (an entry, or nothing) as it was, prints a
conflict line for the path and nothing else about it, counts a conflict and returns true. -/
theorem syncBack_conflict_leaves_original (H : Bytes → Digest) (rootName : String)
    (tmp orig : Tree) (m : Manifest) (rel : Path) (d0 dw : Digest)
    (hwf : tmp.WF) (hm : m.get rel = some d0) (hk : kept rel = true)
    (hw : hashFile H tmp rel = .ok dw) (hne : dw ≠ d0)
    (ho : (∃ e, hashFile H orig rel = .error e) ∨
      ∃ dc, hashFile H orig rel = .ok dc ∧ dc ≠ d0 ∧ dc ≠ dw) :
    (syncBack H rootName tmp orig m).orig.lookup rel = orig.lookup rel ∧
    ((∃ e, hashFile H orig rel = .error e) →
      Line.conflictDeleted rel ∈ (syncBack H rootName tmp orig m).out) ∧
    ((∃ dc, hashFile H orig rel = .ok dc) →
      Line.conflictModified rel ∈ (syncBack H rootName tmp orig m).out) ∧
    (∀ ln ∈ (syncBack H rootName tmp orig m).out, ln.rel = rel → ln.isConflict = true) ∧
    0 < (syncBack H rootName tmp orig m).conflicts ∧
    (syncBack H rootName tmp orig m).keepTmp = true := by
  obtain ⟨f, hf⟩ := stat_ok_of_hashFile H tmp rel dw hw
  obtain ⟨s1, hs1, _, _, hout1, hfin, hlines⟩ :=
    syncBack_focus H rootName tmp orig m rel hwf hk f hf
  obtain ⟨hkeep, hcnt, _, _, _⟩ := syncBack_counters H rootName tmp orig m
  have hstep : ∃ cl : Line, cl.rel = rel ∧ cl.isConflict = true ∧
      (syncFile H tmp m rel s1).orig = s1.orig ∧
      (syncFile H tmp m rel s1).out = s1.out ++ [cl] ∧
      ((∃ e, hashFile H orig rel = .error e) → cl = Line.conflictDeleted rel) ∧
      ((∃ dc, hashFile H orig rel = .ok dc) → cl = Line.conflictModified rel) := by
    rcases ho with he | ⟨dc, hdc, hdc0, _⟩
    · obtain ⟨e1, he1⟩ := hashFile_error_congr H orig s1.orig rel hs1 he
      refine ⟨Line.conflictDeleted rel, rfl, rfl, ?_, ?_, fun _ => rfl, ?_⟩
      · simp [syncFile, hw, hm, hne, he1]
      · simp [syncFile, hw, hm, hne, he1]
      · rintro ⟨dc, hdc⟩
        obtain ⟨e, he⟩ := he
        rw [he] at hdc
        cases hdc
    · have h1 := hashFile_ok_congr H orig s1.orig rel dc hs1 hdc
      refine ⟨Line.conflictModified rel, rfl, rfl, ?_, ?_, ?_, fun _ => rfl⟩
      · simp [syncFile, hw, hm, hne, h1, hdc0]
      · simp [syncFile, hw, hm, hne, h1, hdc0]
      · rintro ⟨e, he⟩
        rw [he] at hdc
        cases hdc
  obtain ⟨cl, hclrel, hclc, hso, hsout, hcd, hcm⟩ := hstep
  have hclmem : cl ∈ (syncBack H rootName tmp orig m).out := by
    apply (hlines cl hclrel).2
    rw [hsout]
    simp
  have hpos : 0 < (syncBack H rootName tmp orig m).conflicts := by
    rw [hcnt]
    exact List.length_pos_of_mem (List.mem_filter.2 ⟨hclmem, hclc⟩)
  refine ⟨?_, ?_, ?_, ?_, hpos, hkeep.2 hpos⟩
  · rw [hfin, hso, hs1]
  · intro he
    rw [← hcd he]
    exact hclmem
  · intro he
    rw [← hcm he]
    exact hclmem
  · intro ln hln hrel
    have := (hlines ln hrel).1 hln
    rw [hsout, List.mem_append, List.mem_singleton] at this
    rcases this with h | h
    · exact absurd hrel (hout1 ln h)
    · rw [h]; exact hclc

/-- C1 at a concrete input: `a.txt` edited in the workspace and, differently, at the original
location. -/
theorem syncBack_conflict_leaves_original_witness :
    (syncBack testHash "ws" (.file "a.txt" ⟨420, [2]⟩ .nil) (.file "a.txt" ⟨420, [3]⟩ .nil)
        [(["a.txt"], "one")]).orig.lookup ["a.txt"] =
      (Tree.file "a.txt" ⟨420, [3]⟩ .nil).lookup ["a.txt"] ∧
    ((∃ e, hashFile testHash (.file "a.txt" ⟨420, [3]⟩ .nil) ["a.txt"] = .error e) →
      Line.conflictDeleted ["a.txt"] ∈ (syncBack testHash "ws" (.file "a.txt" ⟨420, [2]⟩ .nil)
        (.file "a.txt" ⟨420, [3]⟩ .nil) [(["a.txt"], "one")]).out) ∧
    ((∃ dc, hashFile testHash (.file "a.txt" ⟨420, [3]⟩ .nil) ["a.txt"] = .ok dc) →
      Line.conflictModified ["a.txt"] ∈ (syncBack testHash "ws" (.file "a.txt" ⟨420, [2]⟩ .nil)
        (.file "a.txt" ⟨420, [3]⟩ .nil) [(["a.txt"], "one")]).out) ∧
    (∀ ln ∈ (syncBack testHash "ws" (.file "a.txt" ⟨420, [2]⟩ .nil)
        (.file "a.txt" ⟨420, [3]⟩ .nil) [(["a.txt"], "one")]).out,
      ln.rel = ["a.txt"] → ln.isConflict = true) ∧
    0 < (syncBack testHash "ws" (.file "a.txt" ⟨420, [2]⟩ .nil)
        (.file "a.txt" ⟨420, [3]⟩ .nil) [(["a.txt"], "one")]).conflicts ∧
    (syncBack testHash "ws" (.file "a.txt" ⟨420, [2]⟩ .nil)
        (.file "a.txt" ⟨420, [3]⟩ .nil) [(["a.txt"], "one")]).keepTmp = true :=
  syncBack_conflict_leaves_original testHash "ws" (.file "a.txt" ⟨420, [2]⟩ .nil)
    (.file "a.txt" ⟨420, [3]⟩ .nil) [(["a.txt"], "one")] ["a.txt"] "one" "two"
    (by simp [Tree.WF, Tree.names]) (by decide) (by decide) rfl (by decide)
    (Or.inr ⟨"other", rfl, by decide, by decide⟩)

/-! ## C2: an edited file whose original is unchanged -/

/-- C2 (counterexample). The original `a.txt` is unchanged since the snapshot (its digest is
the manifest digest) and the workspace copy was edited, but the original is read-only: the copy
fails, `syncBack` prints an error instead of `SYNCED`, and the original keeps its old bytes. -/
theorem syncBack_synced_counterexample :
    Manifest.get [(["a.txt"], "one")] ["a.txt"] = some "one" ∧
    kept ["a.txt"] = true ∧
    hashFile testHash (.file "a.txt" ⟨420, [2]⟩ .nil) ["a.txt"] = .ok "two" ∧
    hashFile testHash (.file "a.txt" ⟨292, [1]⟩ .nil) ["a.txt"] = .ok "one" ∧
    (syncBack testHash "ws" (.file "a.txt" ⟨420, [2]⟩ .nil) (.file "a.txt" ⟨292, [1]⟩ .nil)
      [(["a.txt"], "one")]).out = [Line.errSync ["a.txt"]] ∧
    (syncBack testHash "ws" (.file "a.txt" ⟨420, [2]⟩ .nil) (.file "a.txt" ⟨292, [1]⟩ .nil)
      [(["a.txt"], "one")]).synced = 0 ∧
    (syncBack testHash "ws" (.file "a.txt" ⟨420, [2]⟩ .nil) (.file "a.txt" ⟨292, [1]⟩ .nil)
      [(["a.txt"], "one")]).orig.lookup ["a.txt"] = some (.file ⟨292, [1]⟩) :=
  ⟨by decide, by decide, rfl, rfl, by decide, by decide, by decide⟩

/-- C2 (amended). A retained workspace file that is a manifest key, whose digest differs from
the manifest digest while the current digest of `originalBase/rel` equals the manifest digest:
`syncBack` never reports it as a conflict and prints exactly one line about it, and the counter
`synced` is the number of `SYNCED` lines.  When the original file is writable the line is
`SYNCED`, the path is counted as synced exactly once and the original then holds the workspace
file's bytes; when the original file is read-only the line is the copy error, no `SYNCED` line
is printed about the path, the path is not counted as synced and the original is left as it
was. -/
theorem syncBack_synced_when_writable (H : Bytes → Digest) (rootName : String)
    (tmp orig : Tree) (m : Manifest) (rel : Path) (d0 : Digest) (f : FileData)
    (hwf : tmp.WF) (hm : m.get rel = some d0) (hk : kept rel = true)
    (hf : tmp.lookup rel = some (.file f)) (hr : ownerRead f.mode = true)
    (hne : H f.bytes ≠ d0) (ho : hashFile H orig rel = .ok d0) :
    (∀ ln ∈ (syncBack H rootName tmp orig m).out, ln.rel = rel → ln.isConflict = false) ∧
    (syncBack H rootName tmp orig m).synced =
      ((syncBack H rootName tmp orig m).out.filter Line.isSynced).length ∧
    (∀ g, orig.lookup rel = some (.file g) → ownerWrite g.mode = true →
      Line.synced rel ∈ (syncBack H rootName tmp orig m).out ∧
      0 < (syncBack H rootName tmp orig m).synced ∧
      (syncBack H rootName tmp orig m).orig.lookup rel = some (.file ⟨g.mode, f.bytes⟩) ∧
      (syncBack H rootName tmp orig m).out.filter (fun ln => decide (ln.rel = rel)) =
        [Line.synced rel] ∧
      (syncBack H rootName tmp orig m).synced =
        ((syncBack H rootName tmp orig m).out.filter
          (fun ln => ln.isSynced && !decide (ln.rel = rel))).length + 1) ∧
    (∀ g, orig.lookup rel = some (.file g) → ownerWrite g.mode = false →
      Line.errSync rel ∈ (syncBack H rootName tmp orig m).out ∧
      (syncBack H rootName tmp orig m).orig.lookup rel = orig.lookup rel ∧
      (syncBack H rootName tmp orig m).out.filter (fun ln => decide (ln.rel = rel)) =
        [Line.errSync rel] ∧
      Line.synced rel ∉ (syncBack H rootName tmp orig m).out ∧
      (syncBack H rootName tmp orig m).synced =
        ((syncBack H rootName tmp orig m).out.filter
          (fun ln => ln.isSynced && !decide (ln.rel = rel))).length) := by
  have hw : hashFile H tmp rel = .ok (H f.bytes) := (hashFile_ok_iff H tmp rel _).2 ⟨f, hf, hr, rfl⟩
  obtain ⟨s1, hs1, _, _, _, hfin, hlines⟩ :=
    syncBack_focus_lines H rootName tmp orig m rel hwf hk f hf
  obtain ⟨_, _, hsyn, _, _⟩ := syncBack_counters H rootName tmp orig m
  have hsplit := filter_split_rel Line.isSynced rel (syncBack H rootName tmp orig m).out
  have ho1 := hashFile_ok_congr H orig s1.orig rel d0 hs1 ho
  obtain ⟨g0, hg0⟩ := stat_ok_of_hashFile H orig rel d0 ho
  have hrel : rel ≠ [] := kept_ne_nil rel hk
  have hg1 : s1.orig.lookup rel = some (.file g0) := by rw [hs1]; exact hg0
  obtain ⟨sd, hsd⟩ := Tree.lookup_ancestor_dir s1.orig rel.dropLast rel _ hg1
    (List.dropLast_prefix rel) (dropLast_ne_self rel hrel)
  have hmk : s1.orig.mkdirAll rel.dropLast = .ok s1.orig := Tree.mkdirAll_existing _ _ _ hsd
  have hcp := copyFile_eq_writeFile tmp rel f s1.orig rel hf hr
  have hmemf : ∀ ln : Line, ln ∈ (syncBack H rootName tmp orig m).out ∧ ln.rel = rel ↔
      ln ∈ (syncBack H rootName tmp orig m).out.filter (fun ln => decide (ln.rel = rel)) := by
    intro ln
    simp [List.mem_filter]
  by_cases hwr : ownerWrite g0.mode = true
  · obtain ⟨o2, ho2⟩ := Tree.writeFile_succeeds rel f.mode f.bytes s1.orig hrel ⟨sd, hsd⟩
      (Or.inr ⟨g0, hg1, hwr⟩)
    have hat : o2.lookup rel = some (.file ⟨g0.mode, f.bytes⟩) := by
      rcases Tree.writeFile_at rel f.mode f.bytes s1.orig o2 ho2 with ⟨h0, _⟩ | ⟨g1, h0, _, h1⟩
      · rw [h0] at hg1; cases hg1
      · rw [h0] at hg1
        cases hg1
        exact h1
    rw [← hcp] at ho2
    have hso : (syncFile H tmp m rel s1).orig = o2 := by
      simp [syncFile, hw, hm, hne, ho1, hmk, ho2]
    have hsout : (syncFile H tmp m rel s1).out = s1.out ++ [Line.synced rel] := by
      simp [syncFile, hw, hm, hne, ho1, hmk, ho2]
    have hfl := hlines [Line.synced rel] hsout (by simp [Line.rel])
    have hmem : Line.synced rel ∈ (syncBack H rootName tmp orig m).out := by
      apply ((hmemf (Line.synced rel)).2 _).1
      rw [hfl]
      simp
    refine ⟨?_, hsyn, ?_, ?_⟩
    · intro ln hln hlr
      have := (hmemf ln).1 ⟨hln, hlr⟩
      rw [hfl, List.mem_singleton] at this
      rw [this]; rfl
    · intro g hg _
      rw [hg0] at hg
      cases hg
      refine ⟨hmem, ?_, ?_, hfl, ?_⟩
      · rw [hsyn]
        exact List.length_pos_of_mem (List.mem_filter.2 ⟨hmem, rfl⟩)
      · rw [hfin, hso, hat]
      · rw [hsyn, hsplit, hfl]
        rfl
    · intro g hg hro
      rw [hg0] at hg
      cases hg
      rw [hwr] at hro
      cases hro
  · have hwr0 : ownerWrite g0.mode = false := by simpa using hwr
    obtain ⟨e, he⟩ := writeFile_readonly s1.orig rel f.mode f.bytes g0 hg1 hwr0
    rw [← hcp] at he
    have hso : (syncFile H tmp m rel s1).orig = s1.orig := by
      simp [syncFile, hw, hm, hne, ho1, hmk, he]
    have hsout : (syncFile H tmp m rel s1).out = s1.out ++ [Line.errSync rel] := by
      simp [syncFile, hw, hm, hne, ho1, hmk, he]
    have hfl := hlines [Line.errSync rel] hsout (by simp [Line.rel])
    have hmem : Line.errSync rel ∈ (syncBack H rootName tmp orig m).out := by
      apply ((hmemf (Line.errSync rel)).2 _).1
      rw [hfl]
      simp
    refine ⟨?_, hsyn, ?_, ?_⟩
    · intro ln hln hlr
      have := (hmemf ln).1 ⟨hln, hlr⟩
      rw [hfl, List.mem_singleton] at this
      rw [this]; rfl
    · intro g hg hw1
      rw [hg0] at hg
      cases hg
      rw [hwr0] at hw1
      cases hw1
    · intro g _ _
      refine ⟨hmem, by rw [hfin, hso, hs1], hfl, ?_, ?_⟩
      · intro hsy
        have := (hmemf (Line.synced rel)).1 ⟨hsy, rfl⟩
        rw [hfl, List.mem_singleton] at this
        cases this
      · rw [hsyn, hsplit, hfl]
        rfl

/-- C2 (amended) at two concrete inputs: `a.txt` edited in the workspace and unchanged in the
original location, once with a writable original and once with a read-only one. -/
theorem syncBack_synced_when_writable_witness :
    ((syncBack testHash "ws" (.file "a.txt" ⟨420, [2]⟩ .nil) (.file "a.txt" ⟨420, [1]⟩ .nil)
        [(["a.txt"], "one")]).out.filter (fun ln => decide (ln.rel = ["a.txt"])) =
        [Line.synced ["a.txt"]] ∧
      (syncBack testHash "ws" (.file "a.txt" ⟨420, [2]⟩ .nil) (.file "a.txt" ⟨420, [1]⟩ .nil)
        [(["a.txt"], "one")]).orig.lookup ["a.txt"] = some (.file ⟨420, [2]⟩) ∧
      (syncBack testHash "ws" (.file "a.txt" ⟨420, [2]⟩ .nil) (.file "a.txt" ⟨420, [1]⟩ .nil)
        [(["a.txt"], "one")]).synced =
        ((syncBack testHash "ws" (.file "a.txt" ⟨420, [2]⟩ .nil)
          (.file "a.txt" ⟨420, [1]⟩ .nil) [(["a.txt"], "one")]).out.filter
          (fun ln => ln.isSynced && !decide (ln.rel = ["a.txt"]))).length + 1) ∧
    ((syncBack testHash "ws" (.file "a.txt" ⟨420, [2]⟩ .nil) (.file "a.txt" ⟨292, [1]⟩ .nil)
        [(["a.txt"], "one")]).out.filter (fun ln => decide (ln.rel = ["a.txt"])) =
        [Line.errSync ["a.txt"]] ∧
      (syncBack testHash "ws" (.file "a.txt" ⟨420, [2]⟩ .nil) (.file "a.txt" ⟨292, [1]⟩ .nil)
        [(["a.txt"], "one")]).orig.lookup ["a.txt"] =
        (Tree.file "a.txt" ⟨292, [1]⟩ .nil).lookup ["a.txt"] ∧
      Line.synced ["a.txt"] ∉ (syncBack testHash "ws" (.file "a.txt" ⟨420, [2]⟩ .nil)
        (.file "a.txt" ⟨292, [1]⟩ .nil) [(["a.txt"], "one")]).out ∧
      (syncBack testHash "ws" (.file "a.txt" ⟨420, [2]⟩ .nil) (.file "a.txt" ⟨292, [1]⟩ .nil)
        [(["a.txt"], "one")]).synced =
        ((syncBack testHash "ws" (.file "a.txt" ⟨420, [2]⟩ .nil)
          (.file "a.txt" ⟨292, [1]⟩ .nil) [(["a.txt"], "one")]).out.filter
          (fun ln => ln.isSynced && !decide (ln.rel = ["a.txt"]))).length) := by
  have h1 := (syncBack_synced_when_writable testHash "ws" (.file "a.txt" ⟨420, [2]⟩ .nil)
    (.file "a.txt" ⟨420, [1]⟩ .nil) [(["a.txt"], "one")] ["a.txt"] "one" ⟨420, [2]⟩
    (by simp [Tree.WF, Tree.names]) (by decide) (by decide) (by decide) (by decide)
    (by decide) rfl).2.2.1 ⟨420, [1]⟩ (by decide) (by decide)
  have h2 := (syncBack_synced_when_writable testHash "ws" (.file "a.txt" ⟨420, [2]⟩ .nil)
    (.file "a.txt" ⟨292, [1]⟩ .nil) [(["a.txt"], "one")] ["a.txt"] "one" ⟨420, [2]⟩
    (by simp [Tree.WF, Tree.names]) (by decide) (by decide) (by decide) (by decide)
    (by decide) rfl).2.2.2 ⟨292, [1]⟩ (by decide) (by decide)
  exact ⟨⟨h1.2.2.2.1, h1.2.2.1, h1.2.2.2.2⟩, ⟨h2.2.2.1, h2.2.1, h2.2.2.2.1, h2.2.2.2.2⟩⟩

/-! ## C3: changes made outside the session -/

/-- C3 (failing input). `new.txt` did not exist at snapshot time (the manifest is empty); it
was created externally during the session and the agent created a file of the same name in the
workspace.  `syncBack` takes the new-file branch, which does not look at the original: the
externally created file is overwritten, `NEW` is printed and the flag is false. -/
theorem syncBack_overwrites_external_file :
    (Tree.file "new.txt" ⟨420, [3]⟩ .nil).lookup ["new.txt"] = some (.file ⟨420, [3]⟩) ∧
    (syncBack testHash "ws" (.file "new.txt" ⟨420, [2]⟩ .nil) (.file "new.txt" ⟨420, [3]⟩ .nil)
      []).orig.lookup ["new.txt"] = some (.file ⟨420, [2]⟩) ∧
    (syncBack testHash "ws" (.file "new.txt" ⟨420, [2]⟩ .nil) (.file "new.txt" ⟨420, [3]⟩ .nil)
      []).out = [Line.newFile ["new.txt"]] ∧
    (syncBack testHash "ws" (.file "new.txt" ⟨420, [2]⟩ .nil) (.file "new.txt" ⟨420, [3]⟩ .nil)
      []).keepTmp = false :=
  ⟨by decide, by decide, by decide, by decide⟩

/-! ## C4: new files -/

/-- C4 (counterexample). The workspace holds a new file `notes`, not in the manifest, while the
original location holds a directory `notes`: the copy fails, nothing is counted as new and the
original does not hold the workspace file. -/
theorem syncBack_new_counterexample :
    kept ["notes"] = true ∧
    (Tree.file "notes" ⟨420, [2]⟩ .nil).lookup ["notes"] = some (.file ⟨420, [2]⟩) ∧
    Manifest.get [] ["notes"] = none ∧
    (syncBack testHash "ws" (.file "notes" ⟨420, [2]⟩ .nil) (.dir "notes" .nil .nil) []).out =
      [Line.errSyncNew ["notes"]] ∧
    (syncBack testHash "ws" (.file "notes" ⟨420, [2]⟩ .nil) (.dir "notes" .nil .nil)
      []).newFiles = 0 ∧
    (syncBack testHash "ws" (.file "notes" ⟨420, [2]⟩ .nil) (.dir "notes" .nil .nil)
      []).orig.lookup ["notes"] = some (.dir .nil) :=
  ⟨by decide, by decide, by decide, by decide, by decide, by decide⟩

/-- C4 (amended). A retained workspace file whose path is not a manifest key gets exactly one
line, never a conflict line, and `syncBack` returns true only if it reports a conflict about
another path, a key of the manifest; the counter `newFiles` is the number of `NEW` lines.  When
the workspace file cannot be hashed the line is the warning; when the parent directories of
`originalBase/rel` cannot be made it is the directory error; when the copy fails it is the copy
error; in these three cases the path is not counted as new and what is at `originalBase/rel` is
left as it was.  When hashing, `MkdirAll` and the copy succeed and nothing was at
`originalBase/rel`, the line is `NEW`, the path is counted as new exactly once, and afterwards
`originalBase/rel` is a regular file with the workspace file's bytes, all its parent directories
existing. -/
theorem syncBack_new_file (H : Bytes → Digest) (rootName : String) (tmp orig : Tree)
    (m : Manifest) (rel : Path) (f : FileData)
    (hwf : tmp.WF) (hm : m.get rel = none) (hk : kept rel = true)
    (hf : tmp.lookup rel = some (.file f)) :
    (∀ ln ∈ (syncBack H rootName tmp orig m).out, ln.rel = rel → ln.isConflict = false) ∧
    ((syncBack H rootName tmp orig m).keepTmp = true →
      ∃ ln ∈ (syncBack H rootName tmp orig m).out,
        ln.isConflict = true ∧ ln.rel ≠ rel ∧ m.get ln.rel ≠ none) ∧
    (syncBack H rootName tmp orig m).newFiles =
      ((syncBack H rootName tmp orig m).out.filter Line.isNew).length ∧
    (∃ ln, (syncBack H rootName tmp orig m).out.filter (fun ln => decide (ln.rel = rel)) = [ln] ∧
      (ln = Line.warnHash rel ∨ ln = Line.errDir rel ∨ ln = Line.errSyncNew rel ∨
        ln = Line.newFile rel)) ∧
    ((∃ e, hashFile H tmp rel = .error e) →
      (syncBack H rootName tmp orig m).out.filter (fun ln => decide (ln.rel = rel)) =
        [Line.warnHash rel] ∧
      (syncBack H rootName tmp orig m).orig.lookup rel = orig.lookup rel ∧
      (syncBack H rootName tmp orig m).newFiles =
        ((syncBack H rootName tmp orig m).out.filter
          (fun ln => ln.isNew && !decide (ln.rel = rel))).length) ∧
    (∀ d, hashFile H tmp rel = .ok d → (∃ e, orig.mkdirAll rel.dropLast = .error e) →
      (syncBack H rootName tmp orig m).out.filter (fun ln => decide (ln.rel = rel)) =
        [Line.errDir rel] ∧
      (syncBack H rootName tmp orig m).orig.lookup rel = orig.lookup rel ∧
      (syncBack H rootName tmp orig m).newFiles =
        ((syncBack H rootName tmp orig m).out.filter
          (fun ln => ln.isNew && !decide (ln.rel = rel))).length) ∧
    (∀ d o1, hashFile H tmp rel = .ok d → orig.mkdirAll rel.dropLast = .ok o1 →
      (∃ e, copyFile tmp rel o1 rel = .error e) →
      (syncBack H rootName tmp orig m).out.filter (fun ln => decide (ln.rel = rel)) =
        [Line.errSyncNew rel] ∧
      (syncBack H rootName tmp orig m).orig.lookup rel = orig.lookup rel ∧
      (syncBack H rootName tmp orig m).newFiles =
        ((syncBack H rootName tmp orig m).out.filter
          (fun ln => ln.isNew && !decide (ln.rel = rel))).length) ∧
    (∀ d o1 o2, hashFile H tmp rel = .ok d → orig.mkdirAll rel.dropLast = .ok o1 →
      copyFile tmp rel o1 rel = .ok o2 → orig.lookup rel = none →
      (syncBack H rootName tmp orig m).out.filter (fun ln => decide (ln.rel = rel)) =
        [Line.newFile rel] ∧
      (syncBack H rootName tmp orig m).newFiles =
        ((syncBack H rootName tmp orig m).out.filter
          (fun ln => ln.isNew && !decide (ln.rel = rel))).length + 1 ∧
      (∃ mode, (syncBack H rootName tmp orig m).orig.lookup rel =
        some (.file ⟨mode, f.bytes⟩)) ∧
      (∀ p : Path, p <+: rel → p ≠ rel →
        ∃ s, (syncBack H rootName tmp orig m).orig.lookup p = some (.dir s))) := by
  obtain ⟨hkeep, hcnt, _, hnew, _⟩ := syncBack_counters H rootName tmp orig m
  have hkeys := syncBack_conflict_keys H rootName tmp orig m
  have hsplit := filter_split_rel Line.isNew rel (syncBack H rootName tmp orig m).out
  have hcases := syncBack_new_cases H rootName tmp orig m rel f hwf hm hk hf
  refine ⟨?_, ?_, hnew, ?_, ?_, ?_, ?_, ?_⟩
  · intro ln hln hlr
    cases hc : ln.isConflict
    · rfl
    · exact absurd (hlr ▸ hm) (hkeys ln hln hc)
  · intro hkt
    have hpos := hkeep.1 hkt
    rw [hcnt] at hpos
    obtain ⟨ln, hln⟩ := List.exists_mem_of_length_pos hpos
    obtain ⟨hln1, hln2⟩ := List.mem_filter.1 hln
    refine ⟨ln, hln1, hln2, ?_, hkeys ln hln1 hln2⟩
    intro e
    exact hkeys ln hln1 hln2 (e ▸ hm)
  · rcases hcases with ⟨_, h, _⟩ | ⟨_, _, h, _⟩ | ⟨_, _, h, _⟩ | ⟨_, _, h, _⟩
    · exact ⟨_, h, Or.inl rfl⟩
    · exact ⟨_, h, Or.inr (Or.inl rfl)⟩
    · exact ⟨_, h, Or.inr (Or.inr (Or.inl rfl))⟩
    · exact ⟨_, h, Or.inr (Or.inr (Or.inr rfl))⟩
  · rintro ⟨e, he⟩
    rcases hcases with ⟨_, h, h2⟩ | ⟨⟨d, hd⟩, _⟩ | ⟨⟨d, hd⟩, _⟩ | ⟨⟨d, hd⟩, _⟩
    · refine ⟨h, h2, ?_⟩
      rw [hnew, hsplit, h]
      rfl
    all_goals (rw [he] at hd; cases hd)
  · rintro d hd ⟨e, he⟩
    rcases hcases with ⟨⟨e1, h1⟩, _⟩ | ⟨_, _, h, h2⟩ | ⟨_, ⟨o1, ho1, _⟩, _⟩ | ⟨_, ⟨o1, ho1, _⟩, _⟩
    · rw [hd] at h1; cases h1
    · refine ⟨h, h2, ?_⟩
      rw [hnew, hsplit, h]
      rfl
    all_goals (rw [he] at ho1; cases ho1)
  · rintro d o1 hd ho1 ⟨e, he⟩
    rcases hcases with ⟨⟨e1, h1⟩, _⟩ | ⟨_, ⟨e1, h1⟩, _⟩ | ⟨_, _, h, h2⟩ |
      ⟨_, ⟨b1, hb1, o2, ho2⟩, _⟩
    · rw [hd] at h1; cases h1
    · rw [ho1] at h1; cases h1
    · refine ⟨h, h2, ?_⟩
      rw [hnew, hsplit, h]
      rfl
    · rw [ho1] at hb1
      cases hb1
      rw [he] at ho2
      cases ho2
  · rintro d o1 o2 hd ho1 ho2 _
    rcases hcases with ⟨⟨e1, h1⟩, _⟩ | ⟨_, ⟨e1, h1⟩, _⟩ | ⟨_, ⟨b1, hb1, e1, h1⟩, _⟩ |
      ⟨_, _, h, mode, hmode⟩
    · rw [hd] at h1; cases h1
    · rw [ho1] at h1; cases h1
    · rw [ho1] at hb1
      cases hb1
      rw [ho2] at h1
      cases h1
    · refine ⟨h, ?_, ⟨mode, hmode⟩, ?_⟩
      · rw [hnew, hsplit, h]
        rfl
      · intro p hp hne
        exact Tree.lookup_ancestor_dir _ p rel _ hmode hp hne

/-- C4 (amended) at two concrete inputs: the new workspace file `sub/new.txt` with an empty
manifest and an empty original location, where hashing, `MkdirAll` and the copy succeed; and the
new workspace file `notes` where the original location holds a directory `notes`, so that the
copy fails. -/
theorem syncBack_new_file_witness :
    ((syncBack testHash "ws" (.dir "sub" (.file "new.txt" ⟨420, [2]⟩ .nil) .nil) .nil
        []).out.filter (fun ln => decide (ln.rel = ["sub", "new.txt"])) =
        [Line.newFile ["sub", "new.txt"]] ∧
      (syncBack testHash "ws" (.dir "sub" (.file "new.txt" ⟨420, [2]⟩ .nil) .nil) .nil
        []).newFiles =
        ((syncBack testHash "ws" (.dir "sub" (.file "new.txt" ⟨420, [2]⟩ .nil) .nil) .nil
          []).out.filter (fun ln => ln.isNew && !decide (ln.rel = ["sub", "new.txt"]))).length +
          1 ∧
      (∃ mode, (syncBack testHash "ws" (.dir "sub" (.file "new.txt" ⟨420, [2]⟩ .nil) .nil) .nil
        []).orig.lookup ["sub", "new.txt"] = some (.file ⟨mode, [2]⟩)) ∧
      (∀ p : Path, p <+: ["sub", "new.txt"] → p ≠ ["sub", "new.txt"] →
        ∃ s, (syncBack testHash "ws" (.dir "sub" (.file "new.txt" ⟨420, [2]⟩ .nil) .nil) .nil
          []).orig.lookup p = some (.dir s))) ∧
    ((syncBack testHash "ws" (.file "notes" ⟨420, [2]⟩ .nil) (.dir "notes" .nil .nil)
        []).out.filter (fun ln => decide (ln.rel = ["notes"])) = [Line.errSyncNew ["notes"]] ∧
      (syncBack testHash "ws" (.file "notes" ⟨420, [2]⟩ .nil) (.dir "notes" .nil .nil)
        []).orig.lookup ["notes"] = (Tree.dir "notes" .nil .nil).lookup ["notes"] ∧
      (syncBack testHash "ws" (.file "notes" ⟨420, [2]⟩ .nil) (.dir "notes" .nil .nil)
        []).newFiles =
        ((syncBack testHash "ws" (.file "notes" ⟨420, [2]⟩ .nil) (.dir "notes" .nil .nil)
          []).out.filter (fun ln => ln.isNew && !decide (ln.rel = ["notes"]))).length) := by
  have h1 := (syncBack_new_file testHash "ws" (.dir "sub" (.file "new.txt" ⟨420, [2]⟩ .nil) .nil)
    .nil [] ["sub", "new.txt"] ⟨420, [2]⟩ (by simp [Tree.WF, Tree.names]) (by decide)
    (by decide) (by decide)).2.2.2.2.2.2.2 "two" (.dir "sub" .nil .nil)
    (.dir "sub" (.file "new.txt" ⟨420, [2]⟩ .nil) .nil) rfl rfl rfl (by decide)
  have h2 := (syncBack_new_file testHash "ws" (.file "notes" ⟨420, [2]⟩ .nil)
    (.dir "notes" .nil .nil) [] ["notes"] ⟨420, [2]⟩ (by simp [Tree.WF, Tree.names])
    (by decide) (by decide) (by decide)).2.2.2.2.2.2.1 "two" (.dir "notes" .nil .nil) rfl rfl
    ⟨Errno.EISDIR, rfl⟩
  exact ⟨h1, h2⟩

/-! ## C5: files deleted in session -/

/-- C5 (failing input). The manifest has the key `sub/b.txt`; during the session the agent
replaced the directory `sub` by a regular file.  Nothing exists at `tmpDir/sub/b.txt`, but
`os.Stat` fails there with `ENOTDIR`, which `os.IsNotExist` does not accept: the key is not
reported as deleted in session.  (The original `sub/b.txt` is kept.) -/
theorem syncBack_deleted_not_reported :
    Manifest.get [(["sub", "b.txt"], "one")] ["sub", "b.txt"] = some "one" ∧
    (Tree.file "sub" ⟨420, [2]⟩ .nil).lookup ["sub", "b.txt"] = none ∧
    (Tree.file "sub" ⟨420, [2]⟩ .nil).stat ["sub", "b.txt"] = .error .ENOTDIR ∧
    Line.deleted ["sub", "b.txt"] ∉ (syncBack testHash "ws" (.file "sub" ⟨420, [2]⟩ .nil)
      (.dir "sub" (.file "b.txt" ⟨420, [1]⟩ .nil) .nil) [(["sub", "b.txt"], "one")]).out ∧
    (syncBack testHash "ws" (.file "sub" ⟨420, [2]⟩ .nil)
      (.dir "sub" (.file "b.txt" ⟨420, [1]⟩ .nil) .nil) [(["sub", "b.txt"], "one")]).out =
      [Line.errSyncNew ["sub"]] ∧
    (syncBack testHash "ws" (.file "sub" ⟨420, [2]⟩ .nil)
      (.dir "sub" (.file "b.txt" ⟨420, [1]⟩ .nil) .nil)
      [(["sub", "b.txt"], "one")]).orig.lookup ["sub", "b.txt"] = some (.file ⟨420, [1]⟩) :=
  ⟨by decide, by decide, rfl, by decide, by decide, by decide⟩

/-! ## C6: snapshot, then reconcile without mutation -/

/-- C6. Snapshot of a directory tree into a fresh workspace, then reconcile with the workspace
untouched: every manifest entry is counted unchanged, nothing else is counted or printed, the
original location (whatever it holds at that moment) is left exactly as it is, and `syncBack`
returns false. -/
theorem snapshot_then_syncBack_noop (H : Bytes → Digest) (src : Tree)
    (rootName wsName : String) (m : Manifest) (ws orig : Tree) (hwf : src.WF)
    (h : copyToTemp H src (.dir rootName) .nil = .ok (m, ws)) :
    (syncBack H wsName ws orig m).skipped = m.length ∧
    (syncBack H wsName ws orig m).synced = 0 ∧
    (syncBack H wsName ws orig m).newFiles = 0 ∧
    (syncBack H wsName ws orig m).conflicts = 0 ∧
    (syncBack H wsName ws orig m).orig = orig ∧
    (syncBack H wsName ws orig m).keepTmp = false ∧
    (syncBack H wsName ws orig m).out = [] := by
  have hall := copyToTemp_dir H src rootName .nil m ws h
  have hwsWF : ws.WF :=
    copyAll_WF H src (visited src []) { tmp := .nil, manifest := [] } { tmp := ws, manifest := m }
      trivial hall
  obtain ⟨hkeys, hent⟩ := copyToTemp_dir_entries H src rootName .nil m ws hwf h
  have hev := copyAll_evolves H src _ _ _ hall
  -- the workspace holds exactly the retained files of the source
  have hsame : ∀ q, q ∈ retained ws [] ↔ q ∈ retained src [] := by
    intro q
    constructor
    · intro hq
      obtain ⟨_, g, hg⟩ := (mem_retained_root ws q hwsWF).1 hq
      by_contra hn
      have hnv : ¬ (q, false) ∈ visited src [] := by
        rw [← mem_fileList, fileList_visited]
        exact hn
      have := hev.files q hnv g hg
      cases q with
      | nil => simp at this
      | cons x r => simp [Tree.lookup_nil_cons] at this
    · intro hq
      obtain ⟨hk, _⟩ := (mem_retained_root src q hwf).1 hq
      obtain ⟨f, _, _, _, hws⟩ := hent q hq
      rcases hws with ⟨_, h1⟩ | ⟨g, _, h1⟩
      · exact (mem_retained_root ws q hwsWF).2 ⟨hk, _, h1⟩
      · exact (mem_retained_root ws q hwsWF).2 ⟨hk, _, h1⟩
  have hlen : (retained ws []).length = m.length := by
    have hperm : (retained ws []).Perm (retained src []) :=
      (List.perm_ext_iff_of_nodup (retained_nodup ws [] hwsWF) (retained_nodup src [] hwf)).2
        hsame
    rw [hperm.length_eq, ← hkeys, List.length_map]
  have hunch : ∀ q ∈ retained ws [], ∃ d, hashFile H ws q = .ok d ∧ m.get q = some d := by
    intro q hq
    obtain ⟨f, _, hr, hget, hws⟩ := hent q ((hsame q).1 hq)
    refine ⟨H f.bytes, ?_, hget⟩
    rcases hws with ⟨_, h1⟩ | ⟨g, h0, _⟩
    · exact (hashFile_ok_iff H ws q _).2 ⟨_, h1, hr, rfl⟩
    · cases q with
      | nil => simp at h0
      | cons x r => simp [Tree.lookup_nil_cons] at h0
  have hdel : reportDeleted ws m = [] := by
    apply reportDeleted_nil
    intro kv hkv
    have hk : kv.1 ∈ retained src [] := by
      rw [← hkeys]
      exact List.mem_map_of_mem _ hkv
    obtain ⟨f, _, _, _, hws⟩ := hent kv.1 hk
    rcases hws with ⟨_, h1⟩ | ⟨g, _, h1⟩
    · exact ⟨_, h1⟩
    · exact ⟨_, h1⟩
  rw [syncBack_eq, syncAll_unchanged H ws m _ _ hunch, hdel, hlen]
  simp [SyncState.init]

/-- C6 at a concrete input: a snapshot of `a.txt`, `sub/b.txt` and a hidden `.git` directory,
reconciled against an original whose `a.txt` has changed meanwhile. -/
theorem snapshot_then_syncBack_noop_witness :
    (syncBack testHash "ws"
      (.file "a.txt" ⟨420, [1]⟩ (.dir "sub" (.file "b.txt" ⟨420, [2]⟩ .nil) .nil))
      (.file "a.txt" ⟨420, [7]⟩ .nil)
      [(["a.txt"], "one"), (["sub", "b.txt"], "two")]).skipped =
        [(["a.txt"], "one"), (["sub", "b.txt"], "two")].length ∧
    (syncBack testHash "ws"
      (.file "a.txt" ⟨420, [1]⟩ (.dir "sub" (.file "b.txt" ⟨420, [2]⟩ .nil) .nil))
      (.file "a.txt" ⟨420, [7]⟩ .nil)
      [(["a.txt"], "one"), (["sub", "b.txt"], "two")]).synced = 0 ∧
    (syncBack testHash "ws"
      (.file "a.txt" ⟨420, [1]⟩ (.dir "sub" (.file "b.txt" ⟨420, [2]⟩ .nil) .nil))
      (.file "a.txt" ⟨420, [7]⟩ .nil)
      [(["a.txt"], "one"), (["sub", "b.txt"], "two")]).newFiles = 0 ∧
    (syncBack testHash "ws"
      (.file "a.txt" ⟨420, [1]⟩ (.dir "sub" (.file "b.txt" ⟨420, [2]⟩ .nil) .nil))
      (.file "a.txt" ⟨420, [7]⟩ .nil)
      [(["a.txt"], "one"), (["sub", "b.txt"], "two")]).conflicts = 0 ∧
    (syncBack testHash "ws"
      (.file "a.txt" ⟨420, [1]⟩ (.dir "sub" (.file "b.txt" ⟨420, [2]⟩ .nil) .nil))
      (.file "a.txt" ⟨420, [7]⟩ .nil)
      [(["a.txt"], "one"), (["sub", "b.txt"], "two")]).orig = .file "a.txt" ⟨420, [7]⟩ .nil ∧
    (syncBack testHash "ws"
      (.file "a.txt" ⟨420, [1]⟩ (.dir "sub" (.file "b.txt" ⟨420, [2]⟩ .nil) .nil))
      (.file "a.txt" ⟨420, [7]⟩ .nil)
      [(["a.txt"], "one"), (["sub", "b.txt"], "two")]).keepTmp = false ∧
    (syncBack testHash "ws"
      (.file "a.txt" ⟨420, [1]⟩ (.dir "sub" (.file "b.txt" ⟨420, [2]⟩ .nil) .nil))
      (.file "a.txt" ⟨420, [7]⟩ .nil)
      [(["a.txt"], "one"), (["sub", "b.txt"], "two")]).out = [] :=
  snapshot_then_syncBack_noop testHash
    (.file "a.txt" ⟨420, [1]⟩ (.dir "sub" (.file "b.txt" ⟨420, [2]⟩ .nil)
      (.dir ".git" (.file "config" ⟨420, [3]⟩ .nil) .nil)))
    "notes" "ws" [(["a.txt"], "one"), (["sub", "b.txt"], "two")]
    (.file "a.txt" ⟨420, [1]⟩ (.dir "sub" (.file "b.txt" ⟨420, [2]⟩ .nil) .nil))
    (.file "a.txt" ⟨420, [7]⟩ .nil)
    (by simp [Tree.WF, Tree.names]) rfl

/-! ## C7: the returned flag -/

/-- C7. The flag `syncBack` returns is true exactly when the conflict counter is positive, and
the conflict counter is the number of conflict lines printed.  The walk is never aborted:
every retained workspace file is dealt with, as one of the four counted outcomes or as one
per-path failure (hash warning, directory error, copy error).  For a well-formed workspace the
conflict counter is the number of retained workspace files on which the three-way test finds a
conflict, the flag says whether there is such a file, and the conflict lines are the lines of
these files; a failure line is the only line about its path, and that path is not among them; a
retained workspace file that cannot be hashed gets the warning and nothing else.  So a failure
is never counted as a conflict and never raises the flag. -/
theorem syncBack_flag_iff_conflicts (H : Bytes → Digest) (rootName : String)
    (tmp orig : Tree) (m : Manifest) :
    ((syncBack H rootName tmp orig m).keepTmp = true ↔
      0 < (syncBack H rootName tmp orig m).conflicts) ∧
    (syncBack H rootName tmp orig m).keepTmp =
      decide (0 < (syncBack H rootName tmp orig m).conflicts) ∧
    (syncBack H rootName tmp orig m).conflicts =
      ((syncBack H rootName tmp orig m).out.filter Line.isConflict).length ∧
    (walkDir (syncVisit H tmp m) rootName tmp (SyncState.init orig)).1 = none ∧
    (syncBack H rootName tmp orig m).synced + (syncBack H rootName tmp orig m).newFiles +
        (syncBack H rootName tmp orig m).skipped + (syncBack H rootName tmp orig m).conflicts +
        ((syncBack H rootName tmp orig m).out.filter Line.isFailure).length =
      (retained tmp []).length ∧
    (∀ ln ∈ (syncBack H rootName tmp orig m).out, ln.isFailure = true → ln.isConflict = false) ∧
    ((∀ ln ∈ (syncBack H rootName tmp orig m).out, ln.isConflict = false) →
      (syncBack H rootName tmp orig m).keepTmp = false) ∧
    (tmp.WF →
      (syncBack H rootName tmp orig m).conflicts =
        ((retained tmp []).filter (isConflictPath H tmp orig m)).length ∧
      (syncBack H rootName tmp orig m).keepTmp =
        (retained tmp []).any (isConflictPath H tmp orig m) ∧
      (syncBack H rootName tmp orig m).out.filter Line.isConflict =
        ((retained tmp []).filter (isConflictPath H tmp orig m)).map (conflictLine H orig) ∧
      (∀ ln ∈ (syncBack H rootName tmp orig m).out, ln.isFailure = true →
        ln.rel ∈ retained tmp [] ∧ isConflictPath H tmp orig m ln.rel = false ∧
        (syncBack H rootName tmp orig m).out.filter (fun x => decide (x.rel = ln.rel)) =
          [ln]) ∧
      (∀ rel ∈ retained tmp [], (∃ e, hashFile H tmp rel = .error e) →
        isConflictPath H tmp orig m rel = false ∧
        (syncBack H rootName tmp orig m).out.filter (fun x => decide (x.rel = rel)) =
          [Line.warnHash rel])) := by
  obtain ⟨hkeep, hcnt, _, _, hh⟩ := syncBack_counters H rootName tmp orig m
  refine ⟨hkeep, ?_, hcnt, by rw [walkDir_sync], hh, ?_, ?_, ?_⟩
  · cases hk : (syncBack H rootName tmp orig m).keepTmp
    · have : ¬ 0 < (syncBack H rootName tmp orig m).conflicts := fun hp => by
        rw [hkeep.2 hp] at hk
        cases hk
      simp [this]
    · simp [hkeep.1 hk]
  · intro ln _ hf
    cases ln <;> simp [Line.isFailure, Line.isConflict] at hf ⊢
  · intro hall
    cases hk : (syncBack H rootName tmp orig m).keepTmp
    · rfl
    · exfalso
      have hpos := hkeep.1 hk
      rw [hcnt] at hpos
      obtain ⟨ln, hln⟩ := List.exists_mem_of_length_pos hpos
      obtain ⟨h1, h2⟩ := List.mem_filter.1 hln
      rw [hall ln h1] at h2
      cases h2
  · intro hwf
    obtain ⟨_, _, _, _, hf5, hf6, hf7⟩ := syncBack_fields H rootName tmp orig m
    obtain ⟨c1, c2, _, c4⟩ := syncAll_classify H tmp orig m (retained tmp [])
      (retained_nodup tmp [] hwf)
      (fun p hp q hq hpq => retained_antichain tmp hwf p q hp hq hpq)
      (SyncState.init orig) (fun _ _ => rfl)
    have e1 := filter_reportDeleted tmp m Line.isConflict
      (by intro ln; cases ln <;> simp [Line.isDeleted, Line.isConflict])
    refine ⟨?_, ?_, ?_, ?_, ?_⟩
    · rw [hf5, c1]
      simp [SyncState.init]
    · rw [hf6, c2]
      simp [SyncState.init]
    · rw [hf7, List.filter_append, e1, List.append_nil, c4]
      simp [SyncState.init]
    · intro ln hln hfl
      have hnd : ln.isDeleted = false := by
        cases ln <;> simp [Line.isFailure, Line.isDeleted] at hfl ⊢
      have hret := syncBack_walk_lines H rootName tmp orig m ln hln hnd
      have hmf := mem_filter_rel _ ln hln
      rcases syncBack_path_lines H rootName tmp orig m ln.rel hwf hret with
        ⟨_, _, h⟩ | ⟨_, _, h⟩ | ⟨_, hc, ln1, h, _⟩
      · rw [h] at hmf
        cases hmf
      · rw [h, List.mem_singleton] at hmf
        have hcl := conflictLine_isConflict H orig ln.rel
        rw [← hmf] at hcl
        cases ln <;> simp [Line.isFailure, Line.isConflict] at hfl hcl
      · rw [h, List.mem_singleton] at hmf
        subst hmf
        exact ⟨hret, hc, h⟩
    · intro rel hrel herr
      rcases syncBack_path_lines H rootName tmp orig m rel hwf hrel with
        ⟨hu, _, _⟩ | ⟨_, hc, _⟩ | ⟨_, hc, ln1, h, _, _, _, hiff, _⟩
      · obtain ⟨e, he⟩ := herr
        simp [isUnchangedPath, he] at hu
      · obtain ⟨e, he⟩ := herr
        simp [isConflictPath, he] at hc
      · rw [hiff.2 herr] at h
        exact ⟨hc, h⟩

/-- C7 at a concrete input with three failures and no conflict: `a.txt` cannot be hashed, the
copy of the edited `b.txt` fails on a read-only original, and the parent directory of the new
`c/new.txt` cannot be made because the original location holds a regular file `c`.  Three
failure lines are printed, no path is a conflict, the conflict counter is 0 and the flag is
false. -/
theorem syncBack_flag_iff_conflicts_witness :
    (syncBack testHash "ws"
      (.file "a.txt" ⟨0, [2]⟩ (.file "b.txt" ⟨420, [2]⟩
        (.dir "c" (.file "new.txt" ⟨420, [2]⟩ .nil) .nil)))
      (.file "b.txt" ⟨292, [1]⟩ (.file "c" ⟨420, [3]⟩ .nil))
      [(["a.txt"], "one"), (["b.txt"], "one")]).out =
      [Line.warnHash ["a.txt"], Line.errSync ["b.txt"], Line.errDir ["c", "new.txt"]] ∧
    (retained (Tree.file "a.txt" ⟨0, [2]⟩ (.file "b.txt" ⟨420, [2]⟩
        (.dir "c" (.file "new.txt" ⟨420, [2]⟩ .nil) .nil))) []).any
      (isConflictPath testHash
        (.file "a.txt" ⟨0, [2]⟩ (.file "b.txt" ⟨420, [2]⟩
          (.dir "c" (.file "new.txt" ⟨420, [2]⟩ .nil) .nil)))
        (.file "b.txt" ⟨292, [1]⟩ (.file "c" ⟨420, [3]⟩ .nil))
        [(["a.txt"], "one"), (["b.txt"], "one")]) = false ∧
    (syncBack testHash "ws"
      (.file "a.txt" ⟨0, [2]⟩ (.file "b.txt" ⟨420, [2]⟩
        (.dir "c" (.file "new.txt" ⟨420, [2]⟩ .nil) .nil)))
      (.file "b.txt" ⟨292, [1]⟩ (.file "c" ⟨420, [3]⟩ .nil))
      [(["a.txt"], "one"), (["b.txt"], "one")]).conflicts =
      ((retained (Tree.file "a.txt" ⟨0, [2]⟩ (.file "b.txt" ⟨420, [2]⟩
        (.dir "c" (.file "new.txt" ⟨420, [2]⟩ .nil) .nil))) []).filter
        (isConflictPath testHash
          (.file "a.txt" ⟨0, [2]⟩ (.file "b.txt" ⟨420, [2]⟩
            (.dir "c" (.file "new.txt" ⟨420, [2]⟩ .nil) .nil)))
          (.file "b.txt" ⟨292, [1]⟩ (.file "c" ⟨420, [3]⟩ .nil))
          [(["a.txt"], "one"), (["b.txt"], "one")])).length ∧
    (syncBack testHash "ws"
      (.file "a.txt" ⟨0, [2]⟩ (.file "b.txt" ⟨420, [2]⟩
        (.dir "c" (.file "new.txt" ⟨420, [2]⟩ .nil) .nil)))
      (.file "b.txt" ⟨292, [1]⟩ (.file "c" ⟨420, [3]⟩ .nil))
      [(["a.txt"], "one"), (["b.txt"], "one")]).keepTmp =
      (retained (Tree.file "a.txt" ⟨0, [2]⟩ (.file "b.txt" ⟨420, [2]⟩
        (.dir "c" (.file "new.txt" ⟨420, [2]⟩ .nil) .nil))) []).any
        (isConflictPath testHash
          (.file "a.txt" ⟨0, [2]⟩ (.file "b.txt" ⟨420, [2]⟩
            (.dir "c" (.file "new.txt" ⟨420, [2]⟩ .nil) .nil)))
          (.file "b.txt" ⟨292, [1]⟩ (.file "c" ⟨420, [3]⟩ .nil))
          [(["a.txt"], "one"), (["b.txt"], "one")]) := by
  have h := (syncBack_flag_iff_conflicts testHash "ws"
    (.file "a.txt" ⟨0, [2]⟩ (.file "b.txt" ⟨420, [2]⟩
      (.dir "c" (.file "new.txt" ⟨420, [2]⟩ .nil) .nil)))
    (.file "b.txt" ⟨292, [1]⟩ (.file "c" ⟨420, [3]⟩ .nil))
    [(["a.txt"], "one"), (["b.txt"], "one")]).2.2.2.2.2.2.2 (by simp [Tree.WF, Tree.names])
  exact ⟨by decide, by decide, h.1, h.2.1⟩

/-! ## C8: the manifest of a snapshot -/

/-- C8. On success the manifest of `copyToTemp` has exactly one entry per retained file and no
other: for a regular-file source the single entry keyed by the base name; for a directory
source the keys are the retained files, each once.  Every value is the digest of the source
file's bytes and the workspace holds a regular file with those bytes at the same path. -/
theorem copyToTemp_manifest (H : Bytes → Digest) (src : Tree) (target : Target) (tmp : Tree)
    (m : Manifest) (ws : Tree) (hwf : src.WF)
    (h : copyToTemp H src target tmp = .ok (m, ws)) :
    (∀ name, target = .file name →
      ∃ f, src.lookup [name] = some (.file f) ∧ m = [([name], H f.bytes)] ∧
        ∃ mode, ws.lookup [name] = some (.file ⟨mode, f.bytes⟩)) ∧
    (∀ rootName, target = .dir rootName →
      m.map Prod.fst = retained src [] ∧ (m.map Prod.fst).Nodup ∧
      (∀ rel, rel ∈ m.map Prod.fst ↔
        kept rel = true ∧ ∃ f, src.lookup rel = some (.file f)) ∧
      (∀ rel f, kept rel = true → src.lookup rel = some (.file f) →
        m.get rel = some (H f.bytes) ∧
        ∃ mode, ws.lookup rel = some (.file ⟨mode, f.bytes⟩))) := by
  refine ⟨?_, ?_⟩
  · rintro name rfl
    simp only [copyToTemp] at h
    cases hcp : copyFile src [name] tmp [name] with
    | error e => rw [hcp] at h; cases h
    | ok t1 =>
      rw [hcp] at h
      simp only at h
      cases hh : hashFile H src [name] with
      | error e => rw [hh] at h; cases h
      | ok d =>
        rw [hh] at h
        simp only [Except.ok.injEq, Prod.mk.injEq] at h
        obtain ⟨hm, hws⟩ := h
        subst hm hws
        obtain ⟨f, hf, _, hw⟩ := (copyFile_ok_iff src [name] tmp [name] t1).1 hcp
        obtain ⟨f1, hf1, _, hd⟩ := (hashFile_ok_iff H src [name] d).1 hh
        rw [hf] at hf1
        cases hf1
        refine ⟨f, hf, by rw [hd], ?_⟩
        rcases Tree.writeFile_at [name] f.mode f.bytes tmp t1 hw with ⟨_, h1⟩ | ⟨g, _, _, h1⟩
        · exact ⟨_, h1⟩
        · exact ⟨_, h1⟩
  · rintro rootName rfl
    obtain ⟨hkeys, hent⟩ := copyToTemp_dir_entries H src rootName tmp m ws hwf h
    refine ⟨hkeys, by rw [hkeys]; exact retained_nodup src [] hwf, ?_, ?_⟩
    · intro rel
      rw [hkeys]
      exact mem_retained_root src rel hwf
    · intro rel f hk hf
      obtain ⟨f1, hf1, _, hget, hws⟩ := hent rel ((mem_retained_root src rel hwf).2 ⟨hk, f, hf⟩)
      rw [hf] at hf1
      cases hf1
      refine ⟨hget, ?_⟩
      rcases hws with ⟨_, h1⟩ | ⟨g, _, h1⟩
      · exact ⟨_, h1⟩
      · exact ⟨_, h1⟩

/-- C8 at a concrete input: a snapshot of the directory holding `a.txt`, `sub/b.txt` and
`.git/config`. -/
theorem copyToTemp_manifest_witness :
    (∀ name, Target.dir "notes" = .file name →
      ∃ f, (Tree.file "a.txt" ⟨420, [1]⟩ (.dir "sub" (.file "b.txt" ⟨420, [2]⟩ .nil)
          (.dir ".git" (.file "config" ⟨420, [3]⟩ .nil) .nil))).lookup [name] =
            some (.file f) ∧
        [(["a.txt"], "one"), (["sub", "b.txt"], "two")] = [([name], testHash f.bytes)] ∧
        ∃ mode, (Tree.file "a.txt" ⟨420, [1]⟩ (.dir "sub" (.file "b.txt" ⟨420, [2]⟩ .nil)
          .nil)).lookup [name] = some (.file ⟨mode, f.bytes⟩)) ∧
    (∀ rootName, Target.dir "notes" = .dir rootName →
      List.map Prod.fst [(["a.txt"], "one"), (["sub", "b.txt"], "two")] =
        retained (Tree.file "a.txt" ⟨420, [1]⟩ (.dir "sub" (.file "b.txt" ⟨420, [2]⟩ .nil)
          (.dir ".git" (.file "config" ⟨420, [3]⟩ .nil) .nil))) [] ∧
      (List.map Prod.fst [(["a.txt"], "one"), (["sub", "b.txt"], "two")]).Nodup ∧
      (∀ rel, rel ∈ List.map Prod.fst [(["a.txt"], "one"), (["sub", "b.txt"], "two")] ↔
        kept rel = true ∧
        ∃ f, (Tree.file "a.txt" ⟨420, [1]⟩ (.dir "sub" (.file "b.txt" ⟨420, [2]⟩ .nil)
          (.dir ".git" (.file "config" ⟨420, [3]⟩ .nil) .nil))).lookup rel =
            some (.file f)) ∧
      (∀ rel f, kept rel = true →
        (Tree.file "a.txt" ⟨420, [1]⟩ (.dir "sub" (.file "b.txt" ⟨420, [2]⟩ .nil)
          (.dir ".git" (.file "config" ⟨420, [3]⟩ .nil) .nil))).lookup rel =
            some (.file f) →
        Manifest.get [(["a.txt"], "one"), (["sub", "b.txt"], "two")] rel =
          some (testHash f.bytes) ∧
        ∃ mode, (Tree.file "a.txt" ⟨420, [1]⟩ (.dir "sub" (.file "b.txt" ⟨420, [2]⟩ .nil)
          .nil)).lookup rel = some (.file ⟨mode, f.bytes⟩))) :=
  copyToTemp_manifest testHash
    (.file "a.txt" ⟨420, [1]⟩ (.dir "sub" (.file "b.txt" ⟨420, [2]⟩ .nil)
      (.dir ".git" (.file "config" ⟨420, [3]⟩ .nil) .nil)))
    (.dir "notes") .nil [(["a.txt"], "one"), (["sub", "b.txt"], "two")]
    (.file "a.txt" ⟨420, [1]⟩ (.dir "sub" (.file "b.txt" ⟨420, [2]⟩ .nil) .nil))
    (by simp [Tree.WF, Tree.names]) rfl

/-! ## C9: filtered entries -/

/-- C9 (counterexample). A regular-file source called `.DS_Store`: `copyToTemp` applies no
filter to a single-file source, so the junk name becomes a manifest key and the file is copied
into the workspace. -/
theorem copyToTemp_junk_source_counterexample :
    junkNamed [".DS_Store"] = true ∧
    copyToTemp testHash (.file ".DS_Store" ⟨420, [1]⟩ .nil) (.file ".DS_Store") .nil =
      .ok ([([".DS_Store"], "one")], .file ".DS_Store" ⟨420, [1]⟩ .nil) ∧
    Manifest.get [([".DS_Store"], "one")] [".DS_Store"] = some "one" ∧
    (Tree.file ".DS_Store" ⟨420, [1]⟩ .nil).lookup [".DS_Store"] = some (.file ⟨420, [1]⟩) :=
  ⟨by decide, rfl, by decide, by decide⟩

/-- C9 (amended). For a directory source passed to `copyToTemp` and any workspace passed to
`syncBack`: a path under a hidden directory, or whose last segment is a junk file name, is not
a key of the returned manifest; under a hidden directory nothing is changed in the workspace by
`copyToTemp` nor at the original location by `syncBack`; and no regular file is created or
rewritten at a junk-named path by either. -/
theorem filtered_paths_stay_out (H : Bytes → Digest) (src : Tree) (rootName : String)
    (tmp0 : Tree) (m : Manifest) (ws : Tree) (wsName : String) (tmp orig : Tree)
    (m2 : Manifest) (p : Path)
    (hcopy : copyToTemp H src (.dir rootName) tmp0 = .ok (m, ws))
    (hp : underHidden p = true ∨ junkNamed p = true) :
    m.get p = none ∧
    (underHidden p = true → ws.lookup p = tmp0.lookup p) ∧
    (∀ g, ws.lookup p = some (.file g) → tmp0.lookup p = some (.file g)) ∧
    (underHidden p = true → (syncBack H wsName tmp orig m2).orig.lookup p = orig.lookup p) ∧
    (∀ g, (syncBack H wsName tmp orig m2).orig.lookup p = some (.file g) →
      orig.lookup p = some (.file g)) := by
  have hnk := filtered_not_kept p hp
  have hall := copyToTemp_dir H src rootName tmp0 m ws hcopy
  obtain ⟨_, hget, _⟩ := copyAll_manifest H src _ _ _ hall
  have hev := copyAll_evolves H src _ _ _ hall
  have hsv := syncAll_evolves H tmp m2 (retained tmp []) (SyncState.init orig)
  have hso := (syncBack_fields H wsName tmp orig m2).1
  have hpr : ∀ t : Tree, p ∉ retained t [] := fun t hm => hnk (retained_kept t p hm)
  refine ⟨?_, ?_, ?_, ?_, ?_⟩
  · have := hget p
    rw [fileList_visited] at this
    simpa [hpr src, Manifest.get] using this
  · intro hu
    apply hev.frame
    rintro q ⟨b, hb⟩
    obtain ⟨r, h1, _, h3, _⟩ := visited_clean src [] _ hb
    simp only [List.nil_append] at h1
    exact underHidden_not_le p q hu (by rw [h1]; exact h3)
  · intro g hg
    apply hev.files p _ g hg
    intro hv
    apply hpr src
    rw [← fileList_visited, mem_fileList]
    exact hv
  · intro hu
    rw [hso]
    apply hsv.frame
    intro q hq
    exact underHidden_not_le p q hu (kept_clean q (retained_kept tmp q hq))
  · intro g hg
    rw [hso] at hg
    exact hsv.files p (hpr tmp) g hg

/-- C9 (amended) at a concrete input: the path `.git/config`. -/
theorem filtered_paths_stay_out_witness :
    Manifest.get [(["visible.txt"], "one")] [".git", "config"] = none ∧
    (underHidden [".git", "config"] = true →
      (Tree.file "visible.txt" ⟨420, [1]⟩ .nil).lookup [".git", "config"] =
        Tree.nil.lookup [".git", "config"]) ∧
    (∀ g, (Tree.file "visible.txt" ⟨420, [1]⟩ .nil).lookup [".git", "config"] =
        some (.file g) → Tree.nil.lookup [".git", "config"] = some (.file g)) ∧
    (underHidden [".git", "config"] = true →
      (syncBack testHash "ws"
        (.dir ".git" (.file "config" ⟨420, [2]⟩ .nil) (.file "visible.txt" ⟨420, [1]⟩ .nil))
        (.dir ".git" (.file "config" ⟨420, [3]⟩ .nil) (.file "visible.txt" ⟨420, [1]⟩ .nil))
        [(["visible.txt"], "one")]).orig.lookup [".git", "config"] =
      (Tree.dir ".git" (.file "config" ⟨420, [3]⟩ .nil)
        (.file "visible.txt" ⟨420, [1]⟩ .nil)).lookup [".git", "config"]) ∧
    (∀ g, (syncBack testHash "ws"
        (.dir ".git" (.file "config" ⟨420, [2]⟩ .nil) (.file "visible.txt" ⟨420, [1]⟩ .nil))
        (.dir ".git" (.file "config" ⟨420, [3]⟩ .nil) (.file "visible.txt" ⟨420, [1]⟩ .nil))
        [(["visible.txt"], "one")]).orig.lookup [".git", "config"] = some (.file g) →
      (Tree.dir ".git" (.file "config" ⟨420, [3]⟩ .nil)
        (.file "visible.txt" ⟨420, [1]⟩ .nil)).lookup [".git", "config"] = some (.file g)) :=
  filtered_paths_stay_out testHash
    (.dir ".git" (.file "config" ⟨420, [3]⟩ .nil) (.file "visible.txt" ⟨420, [1]⟩ .nil))
    "notes" .nil [(["visible.txt"], "one")] (.file "visible.txt" ⟨420, [1]⟩ .nil) "ws"
    (.dir ".git" (.file "config" ⟨420, [2]⟩ .nil) (.file "visible.txt" ⟨420, [1]⟩ .nil))
    (.dir ".git" (.file "config" ⟨420, [3]⟩ .nil) (.file "visible.txt" ⟨420, [1]⟩ .nil))
    [(["visible.txt"], "one")] [".git", "config"] rfl (Or.inl (by decide))

/-! ## C10: classification -/

/-- C10 (counterexample). The manifest has three keys.  `a.txt` is a retained workspace file
that cannot be read: the walk only prints a warning for it, so the four counters sum to 0 while
one file is retained.  `notes` was replaced by a directory in the workspace and `Thumbs.db`
still exists there but is filtered: neither is a retained workspace file, and neither is
reported as deleted in session, since `os.Stat` finds both. -/
theorem syncBack_partition_counterexample :
    retained (.file "a.txt" ⟨0, [2]⟩ (.dir "notes" .nil (.file "Thumbs.db" ⟨420, [1]⟩ .nil)))
      [] = [["a.txt"]] ∧
    ([(["a.txt"], "one"), (["notes"], "two"), (["Thumbs.db"], "one")] : Manifest).map
      Prod.fst = [["a.txt"], ["notes"], ["Thumbs.db"]] ∧
    (syncBack testHash "ws"
        (.file "a.txt" ⟨0, [2]⟩ (.dir "notes" .nil (.file "Thumbs.db" ⟨420, [1]⟩ .nil)))
        (.file "a.txt" ⟨420, [1]⟩ .nil)
        [(["a.txt"], "one"), (["notes"], "two"), (["Thumbs.db"], "one")]).synced +
      (syncBack testHash "ws"
        (.file "a.txt" ⟨0, [2]⟩ (.dir "notes" .nil (.file "Thumbs.db" ⟨420, [1]⟩ .nil)))
        (.file "a.txt" ⟨420, [1]⟩ .nil)
        [(["a.txt"], "one"), (["notes"], "two"), (["Thumbs.db"], "one")]).newFiles +
      (syncBack testHash "ws"
        (.file "a.txt" ⟨0, [2]⟩ (.dir "notes" .nil (.file "Thumbs.db" ⟨420, [1]⟩ .nil)))
        (.file "a.txt" ⟨420, [1]⟩ .nil)
        [(["a.txt"], "one"), (["notes"], "two"), (["Thumbs.db"], "one")]).skipped +
      (syncBack testHash "ws"
        (.file "a.txt" ⟨0, [2]⟩ (.dir "notes" .nil (.file "Thumbs.db" ⟨420, [1]⟩ .nil)))
        (.file "a.txt" ⟨420, [1]⟩ .nil)
        [(["a.txt"], "one"), (["notes"], "two"), (["Thumbs.db"], "one")]).conflicts = 0 ∧
    (syncBack testHash "ws"
        (.file "a.txt" ⟨0, [2]⟩ (.dir "notes" .nil (.file "Thumbs.db" ⟨420, [1]⟩ .nil)))
        (.file "a.txt" ⟨420, [1]⟩ .nil)
        [(["a.txt"], "one"), (["notes"], "two"), (["Thumbs.db"], "one")]).out =
      [Line.warnHash ["a.txt"]] ∧
    (Tree.file "a.txt" ⟨0, [2]⟩ (.dir "notes" .nil (.file "Thumbs.db" ⟨420, [1]⟩ .nil))).lookup
      ["notes"] = some (.dir .nil) ∧
    (Tree.file "a.txt" ⟨0, [2]⟩ (.dir "notes" .nil (.file "Thumbs.db" ⟨420, [1]⟩ .nil))).lookup
      ["Thumbs.db"] = some (.file ⟨420, [1]⟩) :=
  ⟨by decide, by decide, by decide, by decide, by decide, by decide⟩

/-- C10 (amended). For a well-formed workspace and a manifest with distinct keys: the walk deals
with every retained workspace file exactly once, as unchanged, synced, new, conflict or as a
per-path failure (hash warning, directory error, copy error), so the four counters plus the
failures printed equal the number of retained workspace files; each counter other than
`unchanged` is the number of its lines, `unchanged` is the number of retained workspace files
whose digest is the manifest digest, and `conflicts` the number of those on which the three-way
test finds a conflict; every line belongs to exactly one class; no path gets two lines; lines
of the walk are about retained workspace files.  A retained workspace file is either unchanged
and gets no line, or gets exactly one line, which is a conflict line exactly when the test
finds a conflict, is not `NEW` for a manifest key and is neither `SYNCED` nor a conflict for
another path.  The lines of deleted files are those of the manifest keys for whose workspace
path `os.Stat` reports that it does not exist (`ENOENT`), in the order of the loop over the
manifest; such a key gets this line and no other, it has nothing at its workspace path and is
not a retained workspace file.  A path that `os.Stat` finds in the workspace and that is not a retained workspace file
(a directory, a filtered file) gets no line. -/
theorem syncBack_partition (H : Bytes → Digest) (rootName : String) (tmp orig : Tree)
    (m : Manifest) (hwf : tmp.WF) (hkeys : (m.map Prod.fst).Nodup) :
    (syncBack H rootName tmp orig m).synced + (syncBack H rootName tmp orig m).newFiles +
        (syncBack H rootName tmp orig m).skipped + (syncBack H rootName tmp orig m).conflicts +
        ((syncBack H rootName tmp orig m).out.filter Line.isFailure).length =
      (retained tmp []).length ∧
    (syncBack H rootName tmp orig m).synced =
      ((syncBack H rootName tmp orig m).out.filter Line.isSynced).length ∧
    (syncBack H rootName tmp orig m).newFiles =
      ((syncBack H rootName tmp orig m).out.filter Line.isNew).length ∧
    (syncBack H rootName tmp orig m).conflicts =
      ((syncBack H rootName tmp orig m).out.filter Line.isConflict).length ∧
    (∀ ln : Line, ln.isSynced.toNat + ln.isNew.toNat + ln.isConflict.toNat +
      ln.isFailure.toNat + ln.isDeleted.toNat = 1) ∧
    (∀ rel : Path, ((syncBack H rootName tmp orig m).out.filter
      (fun ln => decide (ln.rel = rel))).length ≤ 1) ∧
    (∀ ln ∈ (syncBack H rootName tmp orig m).out, ln.isDeleted = false →
      ln.rel ∈ retained tmp []) ∧
    (∀ rel d, (rel, d) ∈ m → tmp.stat rel = .error .ENOENT →
      Line.deleted rel ∈ (syncBack H rootName tmp orig m).out) ∧
    (∀ rel, Line.deleted rel ∈ (syncBack H rootName tmp orig m).out →
      (∃ d, (rel, d) ∈ m) ∧ tmp.lookup rel = none ∧ rel ∉ retained tmp []) ∧
    (syncBack H rootName tmp orig m).skipped =
      ((retained tmp []).filter (isUnchangedPath H tmp m)).length ∧
    (syncBack H rootName tmp orig m).conflicts =
      ((retained tmp []).filter (isConflictPath H tmp orig m)).length ∧
    (∀ rel ∈ retained tmp [],
      (isUnchangedPath H tmp m rel = true ∧
        (syncBack H rootName tmp orig m).out.filter (fun ln => decide (ln.rel = rel)) = []) ∨
      (isUnchangedPath H tmp m rel = false ∧
        ∃ ln, (syncBack H rootName tmp orig m).out.filter (fun ln => decide (ln.rel = rel)) =
            [ln] ∧
          ln.isDeleted = false ∧ ln.isConflict = isConflictPath H tmp orig m rel ∧
          (m.get rel ≠ none → ln.isNew = false) ∧
          (m.get rel = none → ln.isSynced = false ∧ ln.isConflict = false))) ∧
    (syncBack H rootName tmp orig m).out.filter Line.isDeleted =
      (m.filter (fun kv => statNotExist tmp kv.1)).map (fun kv => Line.deleted kv.1) ∧
    (∀ rel d, (rel, d) ∈ m → tmp.stat rel = .error .ENOENT →
      (syncBack H rootName tmp orig m).out.filter (fun ln => decide (ln.rel = rel)) =
        [Line.deleted rel]) ∧
    (∀ rel e, tmp.stat rel = .ok e → rel ∉ retained tmp [] →
      (syncBack H rootName tmp orig m).out.filter (fun ln => decide (ln.rel = rel)) = []) := by
  obtain ⟨_, hcnt, hsyn, hnew, hh⟩ := syncBack_counters H rootName tmp orig m
  have hout := (syncBack_fields H rootName tmp orig m).2.2.2.2.2.2
  obtain ⟨hc, _, _, extra, hex, hxl⟩ :=
    syncAll_run H tmp m (retained tmp []) (SyncState.init orig) (init_consistent orig)
  have hex1 : (syncAll H tmp m (retained tmp []) (SyncState.init orig)).out = extra := by
    rw [hex]
    rfl
  have hdelmem : ∀ rel, Line.deleted rel ∈ (syncBack H rootName tmp orig m).out ↔
      Line.deleted rel ∈ reportDeleted tmp m := by
    intro rel
    rw [hout, List.mem_append]
    constructor
    · rintro (h | h)
      · have := hc.noDeleted _ h
        simp [Line.isDeleted] at this
      · exact h
    · exact Or.inr
  have hnone : ∀ rel, tmp.stat rel = .error .ENOENT → rel ∉ retained tmp [] := by
    intro rel hst hr
    obtain ⟨_, f, hf⟩ := (mem_retained_root tmp rel hwf).1 hr
    simp [Tree.lookup, hst] at hf
  obtain ⟨c1, _, c3, _⟩ := syncAll_classify H tmp orig m (retained tmp [])
    (retained_nodup tmp [] hwf)
    (fun p hp q hq hpq => retained_antichain tmp hwf p q hp hq hpq)
    (SyncState.init orig) (fun _ _ => rfl)
  obtain ⟨_, _, hf3, _, hf5, _, _⟩ := syncBack_fields H rootName tmp orig m
  refine ⟨hh, hsyn, hnew, hcnt, ?_, ?_, ?_, ?_, ?_, ?_, ?_, ?_, ?_, ?_, ?_⟩
  · intro ln
    cases ln <;> rfl
  · intro rel
    rw [hout, List.filter_append, List.length_append]
    have h1 := syncAll_lines H tmp m rel (retained tmp []) (SyncState.init orig)
      (init_consistent orig) (retained_nodup tmp [] hwf)
    have e0 : ((SyncState.init orig).out.filter (fun ln => decide (ln.rel = rel))).length = 0 :=
      rfl
    rw [e0, zero_add] at h1
    have h2 := reportDeleted_lines tmp rel m hkeys
    by_cases hr : rel ∈ retained tmp []
    · have : (reportDeleted tmp m).filter (fun ln => decide (ln.rel = rel)) = [] := by
        rw [List.filter_eq_nil_iff]
        intro ln hln
        have hd := reportDeleted_isDeleted tmp m ln hln
        cases ln <;> simp [Line.isDeleted] at hd
        rename_i r
        simp only [Line.rel, decide_eq_true_eq]
        rintro rfl
        obtain ⟨_, f, hf⟩ := (mem_retained_root tmp r hwf).1 hr
        exact not_deleted_of_lookup tmp m r _ hf hln
      rw [this, if_pos hr] at *
      simpa using h1
    · rw [if_neg hr] at h1
      omega
  · intro ln hln hd
    exact syncBack_walk_lines H rootName tmp orig m ln hln hd
  · intro rel d hm hst
    exact (hdelmem rel).2 ((mem_reportDeleted tmp m rel).2 ⟨⟨d, hm⟩, hst⟩)
  · intro rel hrel
    obtain ⟨hm, hst⟩ := (mem_reportDeleted tmp m rel).1 ((hdelmem rel).1 hrel)
    exact ⟨hm, by simp [Tree.lookup, hst], hnone rel hst⟩
  · rw [hf3, c3]
    simp [SyncState.init]
  · rw [hf5, c1]
    simp [SyncState.init]
  · intro rel hrel
    rcases syncBack_path_lines H rootName tmp orig m rel hwf hrel with
      ⟨hu, _, h⟩ | ⟨hu, hcp, h⟩ | ⟨hu, hcp, ln, h, _, hnc, hnd, _, hkn, hks⟩
    · exact Or.inl ⟨hu, h⟩
    · refine Or.inr ⟨hu, _, h, conflictLine_isDeleted H orig rel, ?_, ?_, ?_⟩
      · rw [hcp, conflictLine_isConflict]
      · intro _
        exact conflictLine_isNew H orig rel
      · intro hn
        exact absurd hn (isConflictPath_key H tmp orig m rel hcp)
    · refine Or.inr ⟨hu, ln, h, hnd, by rw [hcp, hnc], hkn, ?_⟩
      intro hn
      exact ⟨hks hn, hnc⟩
  · rw [hout, List.filter_append, hex1]
    have e1 : extra.filter Line.isDeleted = [] := by
      rw [List.filter_eq_nil_iff]
      intro ln hln
      rw [← hex1] at hln
      simp [hc.noDeleted ln hln]
    have e2 : (reportDeleted tmp m).filter Line.isDeleted = reportDeleted tmp m := by
      rw [List.filter_eq_self]
      exact reportDeleted_isDeleted tmp m
    rw [e1, e2, List.nil_append, reportDeleted_eq]
  · intro rel d hm hst
    rw [syncBack_lines_not_retained H rootName tmp orig m rel (hnone rel hst)]
    exact reportDeleted_filter_key tmp m rel d hkeys hm hst
  · intro rel e hst hrel
    rw [syncBack_lines_not_retained H rootName tmp orig m rel hrel]
    apply filter_rel_eq_nil
    intro ln hln he
    have hd := reportDeleted_isDeleted tmp m ln hln
    cases ln <;> simp [Line.isDeleted] at hd
    simp only [Line.rel] at he
    subst he
    obtain ⟨_, h⟩ := (mem_reportDeleted tmp m _).1 hln
    rw [hst] at h
    cases h

/-- C10 (amended) at a concrete input: an edited `a.txt`, an unreadable new `b.txt`, a manifest
key `gone.txt` deleted in session and a manifest key `notes` that is a directory in the
workspace. -/
theorem syncBack_partition_witness :
    (syncBack testHash "ws"
        (.file "a.txt" ⟨420, [2]⟩ (.file "b.txt" ⟨0, [1]⟩ (.dir "notes" .nil .nil)))
        (.file "a.txt" ⟨420, [1]⟩ .nil)
        [(["a.txt"], "one"), (["gone.txt"], "two"), (["notes"], "one")]).synced +
      (syncBack testHash "ws"
        (.file "a.txt" ⟨420, [2]⟩ (.file "b.txt" ⟨0, [1]⟩ (.dir "notes" .nil .nil)))
        (.file "a.txt" ⟨420, [1]⟩ .nil)
        [(["a.txt"], "one"), (["gone.txt"], "two"), (["notes"], "one")]).newFiles +
      (syncBack testHash "ws"
        (.file "a.txt" ⟨420, [2]⟩ (.file "b.txt" ⟨0, [1]⟩ (.dir "notes" .nil .nil)))
        (.file "a.txt" ⟨420, [1]⟩ .nil)
        [(["a.txt"], "one"), (["gone.txt"], "two"), (["notes"], "one")]).skipped +
      (syncBack testHash "ws"
        (.file "a.txt" ⟨420, [2]⟩ (.file "b.txt" ⟨0, [1]⟩ (.dir "notes" .nil .nil)))
        (.file "a.txt" ⟨420, [1]⟩ .nil)
        [(["a.txt"], "one"), (["gone.txt"], "two"), (["notes"], "one")]).conflicts +
      ((syncBack testHash "ws"
        (.file "a.txt" ⟨420, [2]⟩ (.file "b.txt" ⟨0, [1]⟩ (.dir "notes" .nil .nil)))
        (.file "a.txt" ⟨420, [1]⟩ .nil)
        [(["a.txt"], "one"), (["gone.txt"], "two"), (["notes"], "one")]).out.filter
        Line.isFailure).length =
      (retained (Tree.file "a.txt" ⟨420, [2]⟩ (.file "b.txt" ⟨0, [1]⟩ (.dir "notes" .nil .nil)))
        []).length ∧
    (syncBack testHash "ws"
        (.file "a.txt" ⟨420, [2]⟩ (.file "b.txt" ⟨0, [1]⟩ (.dir "notes" .nil .nil)))
        (.file "a.txt" ⟨420, [1]⟩ .nil)
        [(["a.txt"], "one"), (["gone.txt"], "two"), (["notes"], "one")]).out.filter
        (fun ln => decide (ln.rel = ["gone.txt"])) = [Line.deleted ["gone.txt"]] ∧
    (syncBack testHash "ws"
        (.file "a.txt" ⟨420, [2]⟩ (.file "b.txt" ⟨0, [1]⟩ (.dir "notes" .nil .nil)))
        (.file "a.txt" ⟨420, [1]⟩ .nil)
        [(["a.txt"], "one"), (["gone.txt"], "two"), (["notes"], "one")]).out.filter
        (fun ln => decide (ln.rel = ["notes"])) = [] ∧
    (syncBack testHash "ws"
        (.file "a.txt" ⟨420, [2]⟩ (.file "b.txt" ⟨0, [1]⟩ (.dir "notes" .nil .nil)))
        (.file "a.txt" ⟨420, [1]⟩ .nil)
        [(["a.txt"], "one"), (["gone.txt"], "two"), (["notes"], "one")]).out =
      [Line.synced ["a.txt"], Line.warnHash ["b.txt"], Line.deleted ["gone.txt"]] := by
  have h := syncBack_partition testHash "ws"
    (.file "a.txt" ⟨420, [2]⟩ (.file "b.txt" ⟨0, [1]⟩ (.dir "notes" .nil .nil)))
    (.file "a.txt" ⟨420, [1]⟩ .nil)
    [(["a.txt"], "one"), (["gone.txt"], "two"), (["notes"], "one")]
    (by simp [Tree.WF, Tree.names]) (by decide)
  exact ⟨h.1, h.2.2.2.2.2.2.2.2.2.2.2.2.2.1 ["gone.txt"] "two" (by decide) rfl,
    h.2.2.2.2.2.2.2.2.2.2.2.2.2.2 ["notes"] (.dir .nil) rfl (by decide), by decide⟩

/-! ## C11: permission bits -/

/-- C11 (failing input). The source `src.sh` has mode 0755 and the destination `dst.sh` already
exists with mode 0644: `copyFile` returns without error and the destination has the source's
bytes, but `os.OpenFile` applies its mode argument only when it creates the file, so the
destination keeps mode 0644.  In a synced write-back the original always exists, so the
original `a.txt` (0644) gets the bytes of the workspace file (0755) and keeps its own mode. -/
theorem copyFile_keeps_destination_mode :
    copyFile (.file "src.sh" ⟨493, [1]⟩ .nil) ["src.sh"] (.file "dst.sh" ⟨420, [2]⟩ .nil)
      ["dst.sh"] = .ok (.file "dst.sh" ⟨420, [1]⟩ .nil) ∧
    (Tree.file "dst.sh" ⟨420, [1]⟩ .nil).lookup ["dst.sh"] = some (.file ⟨420, [1]⟩) ∧
    (syncBack testHash "ws" (.file "a.txt" ⟨493, [2]⟩ .nil) (.file "a.txt" ⟨420, [1]⟩ .nil)
      [(["a.txt"], "one")]).out = [Line.synced ["a.txt"]] ∧
    (syncBack testHash "ws" (.file "a.txt" ⟨493, [2]⟩ .nil) (.file "a.txt" ⟨420, [1]⟩ .nil)
      [(["a.txt"], "one")]).orig.lookup ["a.txt"] = some (.file ⟨420, [2]⟩) :=
  ⟨rfl, by decide, by decide, by decide⟩

/-! ## Further properties of `syncBack` and `copyFile` -/

/-- Whatever `syncBack` does, every regular file and every directory of the original location
is still there afterwards (a file possibly with new content): nothing is removed. -/
theorem syncBack_never_removes (H : Bytes → Digest) (rootName : String) (tmp orig : Tree)
    (m : Manifest) (p : Path) :
    (∀ f, orig.lookup p = some (.file f) →
      ∃ g, (syncBack H rootName tmp orig m).orig.lookup p = some (.file g)) ∧
    (∀ s, orig.lookup p = some (.dir s) →
      ∃ s1, (syncBack H rootName tmp orig m).orig.lookup p = some (.dir s1)) := by
  have hsv := syncAll_evolves H tmp m (retained tmp []) (SyncState.init orig)
  rw [(syncBack_fields H rootName tmp orig m).1]
  exact ⟨fun f hf => hsv.keepFile p f hf, fun s hs => hsv.keepDir p s hs⟩

/-- A path at which the workspace holds nothing (in particular a manifest key deleted in
session) is left exactly as it is at the original location. -/
theorem syncBack_absent_untouched (H : Bytes → Digest) (rootName : String) (tmp orig : Tree)
    (m : Manifest) (rel : Path) (hwf : tmp.WF) (habs : tmp.lookup rel = none) :
    (syncBack H rootName tmp orig m).orig.lookup rel = orig.lookup rel := by
  have hsv := syncAll_evolves H tmp m (retained tmp []) (SyncState.init orig)
  rw [(syncBack_fields H rootName tmp orig m).1]
  apply hsv.frame
  intro q hq hle
  obtain ⟨_, f, hf⟩ := (mem_retained_root tmp q hwf).1 hq
  by_cases he : rel = q
  · rw [he, hf] at habs
    cases habs
  · obtain ⟨s, hs⟩ := Tree.lookup_ancestor_dir tmp rel q _ hf hle he
    rw [hs] at habs
    cases habs

/-- The key `gone.txt`, deleted in session, keeps its original. -/
theorem syncBack_absent_untouched_witness :
    (syncBack testHash "ws" (.file "a.txt" ⟨420, [2]⟩ .nil)
      (.file "a.txt" ⟨420, [1]⟩ (.file "gone.txt" ⟨420, [2]⟩ .nil))
      [(["a.txt"], "one"), (["gone.txt"], "two")]).orig.lookup ["gone.txt"] =
    (Tree.file "a.txt" ⟨420, [1]⟩ (.file "gone.txt" ⟨420, [2]⟩ .nil)).lookup ["gone.txt"] :=
  syncBack_absent_untouched testHash "ws" (.file "a.txt" ⟨420, [2]⟩ .nil)
    (.file "a.txt" ⟨420, [1]⟩ (.file "gone.txt" ⟨420, [2]⟩ .nil))
    [(["a.txt"], "one"), (["gone.txt"], "two")] ["gone.txt"]
    (by simp [Tree.WF, Tree.names]) (by decide)

/-- A regular file of the original location that is a manifest key and whose current digest is
not the manifest digest (it was modified outside the session) is never overwritten, whatever
the workspace holds. -/
theorem syncBack_keeps_modified_original (H : Bytes → Digest) (rootName : String)
    (tmp orig : Tree) (m : Manifest) (rel : Path) (d0 : Digest) (f : FileData)
    (hwf : tmp.WF) (hm : m.get rel = some d0) (hf : orig.lookup rel = some (.file f))
    (hch : hashFile H orig rel ≠ .ok d0) :
    (syncBack H rootName tmp orig m).orig.lookup rel = some (.file f) := by
  by_cases hr : rel ∈ retained tmp []
  · obtain ⟨hk, g, hg⟩ := (mem_retained_root tmp rel hwf).1 hr
    obtain ⟨s1, hs1, _, _, _, hfin, _⟩ := syncBack_focus H rootName tmp orig m rel hwf hk g hg
    have hno : hashFile H s1.orig rel ≠ .ok d0 := fun h =>
      hch (hashFile_ok_congr H s1.orig orig rel d0 hs1.symm h)
    have hstep : (syncFile H tmp m rel s1).orig = s1.orig := by
      unfold syncFile
      split
      · rfl
      · rw [hm]
        simp only
        split
        · rfl
        · split
          · rfl
          · rename_i cur hcur
            split
            · rename_i heq
              rw [heq] at hcur
              exact absurd hcur hno
            · rfl
    rw [hfin, hstep, hs1, hf]
  · have hsv := syncAll_evolves H tmp m (retained tmp []) (SyncState.init orig)
    rw [(syncBack_fields H rootName tmp orig m).1]
    obtain ⟨f1, hf1⟩ := hsv.keepFile rel f hf
    have := hsv.files rel hr f1 hf1
    simp only [SyncState.init] at this
    rw [hf] at this
    cases this
    exact hf1

/-- The original `a.txt`, modified outside the session, is kept although the workspace copy was
edited. -/
theorem syncBack_keeps_modified_original_witness :
    (syncBack testHash "ws" (.file "a.txt" ⟨420, [2]⟩ .nil) (.file "a.txt" ⟨420, [3]⟩ .nil)
      [(["a.txt"], "one")]).orig.lookup ["a.txt"] = some (.file ⟨420, [3]⟩) :=
  syncBack_keeps_modified_original testHash "ws" (.file "a.txt" ⟨420, [2]⟩ .nil)
    (.file "a.txt" ⟨420, [3]⟩ .nil) [(["a.txt"], "one")] ["a.txt"] "one" ⟨420, [3]⟩
    (by simp [Tree.WF, Tree.names]) (by decide) (by decide)
    (fun h => absurd (Except.ok.inj (h : Except.ok "other" = Except.ok "one")) (by decide))

/-- What a successful `copyFile` leaves at the destination: always the source's bytes; the
source's permission bits when the destination did not exist, the destination's own permission
bits when it did. -/
theorem copyFile_bytes_and_mode (srcFs : Tree) (src : Path) (dstFs : Tree) (dst : Path)
    (t1 : Tree) (h : copyFile srcFs src dstFs dst = .ok t1) :
    ∃ f, srcFs.lookup src = some (.file f) ∧ ownerRead f.mode = true ∧
      ((dstFs.lookup dst = none ∧ t1.lookup dst = some (.file ⟨f.mode, f.bytes⟩)) ∨
        ∃ g, dstFs.lookup dst = some (.file g) ∧ ownerWrite g.mode = true ∧
          t1.lookup dst = some (.file ⟨g.mode, f.bytes⟩)) := by
  obtain ⟨f, hf, hr, hw⟩ := (copyFile_ok_iff srcFs src dstFs dst t1).1 h
  exact ⟨f, hf, hr, Tree.writeFile_at dst f.mode f.bytes dstFs t1 hw⟩

/-- A copy of `src.sh` (mode 0755) to a destination that does not exist yet. -/
theorem copyFile_bytes_and_mode_witness :
    ∃ f, (Tree.file "src.sh" ⟨493, [1]⟩ .nil).lookup ["src.sh"] = some (.file f) ∧
      ownerRead f.mode = true ∧
      ((Tree.nil.lookup ["dst.sh"] = none ∧
          (Tree.file "dst.sh" ⟨493, [1]⟩ .nil).lookup ["dst.sh"] =
            some (.file ⟨f.mode, f.bytes⟩)) ∨
        ∃ g, Tree.nil.lookup ["dst.sh"] = some (.file g) ∧ ownerWrite g.mode = true ∧
          (Tree.file "dst.sh" ⟨493, [1]⟩ .nil).lookup ["dst.sh"] =
            some (.file ⟨g.mode, f.bytes⟩)) :=
  copyFile_bytes_and_mode (.file "src.sh" ⟨493, [1]⟩ .nil) ["src.sh"] .nil ["dst.sh"]
    (.file "dst.sh" ⟨493, [1]⟩ .nil) rfl

end SaferClaude
